import Mathlib

/-!
Verification development for the pentomino search engine of this repository
(files `manim/pentomino_6x10.py`, `manim/pentomino_6x10_five.py`,
`manim/rect_6x10_dfs_tree.py`).

Conventions of the shallow embedding:
* a grid cell `(row, column)` is a pair of integers;
* Python tuples/lists of cells become `List Cell`; Python sets are modelled by
  lists used only through membership, insertion and removal;
* Python's `sorted` on cells is the unique permutation sorted by the
  lexicographic order `cellLe`, realised here by `List.insertionSort`;
* the mutable board of the solvers is modelled as a function
  `Cell → Option String` (cell to owning piece), updated functionally exactly
  where the source mutates it;
* recursive procedures whose termination is by a decreasing resource
  (remaining pieces, remaining fuel of a flood fill) are written with an
  explicit fuel argument, structurally recursive so that they evaluate by
  `rfl`/`decide`; the entry points instantiate the fuel with a bound that the
  source's own termination argument provides;
* wall-clock readings (`perf_counter`) are modelled as the constant `0`:
  no claim depends on elapsed-time values, only on the shape of the data.
-/

namespace Pent

/-- A board cell `(row, column)`, as in the Python `Coord = Tuple[int, int]`. -/
abbrev Cell : Type := Int × Int

/-- Lexicographic order on cells: Python's tuple comparison used by `sorted`. -/
def cellLe (a b : Cell) : Prop := a.1 < b.1 ∨ (a.1 = b.1 ∧ a.2 ≤ b.2)

instance : DecidableRel cellLe := fun a b => by
  unfold cellLe; exact inferInstance

instance : IsTotal Cell cellLe := by
  constructor; intro a b; unfold cellLe; omega

instance : IsTrans Cell cellLe := by
  constructor; intro a b c; unfold cellLe; omega

instance : IsAntisymm Cell cellLe := by
  constructor; intro a b h1 h2
  have h : a.1 = b.1 ∧ a.2 = b.2 := by unfold cellLe at h1 h2; omega
  exact Prod.ext h.1 h.2

/-- Python's `sorted` on a list of cells (lexicographic order). -/
def sortCells (l : List Cell) : List Cell := List.insertionSort cellLe l

theorem sortCells_sorted (l : List Cell) : List.Sorted cellLe (sortCells l) :=
  List.sorted_insertionSort cellLe l

theorem sortCells_perm (l : List Cell) : (sortCells l).Perm l :=
  List.perm_insertionSort cellLe l

theorem sortCells_of_sorted {l : List Cell} (h : List.Sorted cellLe l) :
    sortCells l = l :=
  List.Sorted.insertionSort_eq h

theorem sortCells_mem {x : Cell} {l : List Cell} : x ∈ sortCells l ↔ x ∈ l :=
  (sortCells_perm l).mem_iff

/-- Python's `min` over a nonempty list of integers (`0` on `[]`, which the
source never hits: `normalize` is only applied to nonempty cell lists). -/
def listMin : List Int → Int
  | [] => 0
  | [x] => x
  | x :: y :: xs => min x (listMin (y :: xs))

theorem listMin_mem : ∀ {l : List Int}, l ≠ [] → listMin l ∈ l
  | [], h => absurd rfl h
  | [x], _ => by simp [listMin]
  | x :: y :: xs, _ => by
    have ih := listMin_mem (l := y :: xs) (by simp)
    by_cases hc : x ≤ listMin (y :: xs)
    · simp [listMin, min_eq_left hc]
    · have : min x (listMin (y :: xs)) = listMin (y :: xs) :=
        min_eq_right (le_of_not_le hc)
      simp [listMin, this, ih]

theorem listMin_le : ∀ {l : List Int} {x : Int}, x ∈ l → listMin l ≤ x
  | [], _, h => by cases h
  | [y], x, h => by
    simp at h; simp [listMin, h]
  | y :: z :: xs, x, h => by
    rcases List.mem_cons.mp h with h1 | h2
    · subst h1; exact min_le_left _ _
    · have ih := listMin_le (l := z :: xs) h2
      simp only [listMin]
      exact le_trans (min_le_right _ _) ih

/-- `listMin` is determined by the membership set of the list. -/
theorem listMin_eq_of_mem_le {l : List Int} {m : Int}
    (hm : m ∈ l) (hle : ∀ x ∈ l, m ≤ x) : listMin l = m :=
  le_antisymm (listMin_le hm) (hle _ (listMin_mem (by rintro rfl; cases hm)))

/-- `normalize` from the source: translate so the minimum row and minimum
column are both `0`, then sort lexicographically. -/
def normalize (l : List Cell) : List Cell :=
  match l with
  | [] => []
  | _ :: _ =>
    sortCells (l.map (fun p =>
      (p.1 - listMin (l.map Prod.fst), p.2 - listMin (l.map Prod.snd))))

/-- One quarter-turn step of the source's `transform`: `(x, y) → (y, -x)`,
iterated. -/
def rotIter : Nat → Cell → Cell
  | 0, p => p
  | n + 1, p => rotIter n (p.2, -p.1)

/-- `transform` from the source: optional reflection `(x, y) → (x, -y)`,
then `k % 4` quarter turns, then `normalize`. -/
def transform (cells : List Cell) (k : Nat) (refl : Bool) : List Cell :=
  normalize (cells.map (fun p =>
    rotIter (k % 4) (if refl then (p.1, -p.2) else p)))

/-- Order-preserving de-duplication against an accumulating `seen` set, as in
the source's `unique_orientations` loop. -/
def dedupFirst : List (List Cell) → List (List Cell) → List (List Cell)
  | _, [] => []
  | seen, v :: vs =>
    if v ∈ seen then dedupFirst seen vs else v :: dedupFirst (v :: seen) vs

/-- `unique_orientations` from the source: the 8 reflection/rotation
combinations in fixed order, de-duplicated keeping first occurrences. -/
def unique_orientations (cells : List Cell) : List (List Cell) :=
  dedupFirst []
    ([false, true].flatMap (fun r => (List.range 4).map (fun k => transform cells k r)))

/-- The 12 pentomino shapes, exactly the `PENTOMINOES`/`PIECES` table of the
source (same in all three Python modules). -/
def PENTOMINOES : List (String × List Cell) :=
  [ (("F"), [(0,1),(1,0),(1,1),(1,2),(2,0)])
  , (("I"), [(0,0),(0,1),(0,2),(0,3),(0,4)])
  , (("L"), [(0,0),(1,0),(2,0),(3,0),(3,1)])
  , (("P"), [(0,0),(0,1),(1,0),(1,1),(2,0)])
  , (("N"), [(0,0),(1,0),(1,1),(2,1),(3,1)])
  , (("T"), [(0,0),(0,1),(0,2),(1,1),(2,1)])
  , (("U"), [(0,0),(0,2),(1,0),(1,1),(1,2)])
  , (("V"), [(0,0),(1,0),(2,0),(2,1),(2,2)])
  , (("W"), [(0,0),(1,0),(1,1),(2,1),(2,2)])
  , (("X"), [(0,1),(1,0),(1,1),(1,2),(2,1)])
  , (("Y"), [(0,1),(1,1),(2,0),(2,1),(3,1)])
  , (("Z"), [(0,0),(0,1),(1,1),(2,1),(2,2)]) ]

/-- `sorted(PENTOMINOES)`: the piece names in alphabetical order. -/
def sortedPieceNames : List String :=
  [("F"),("I"),("L"),("N"),("P"),("T"),("U"),("V"),("W"),("X"),("Y"),("Z")]

/-- The pentomino table keyed by name (`PENTOMINOES[name]`). -/
def pieceCells (name : String) : List Cell :=
  match PENTOMINOES.find? (fun pr => pr.1 = name) with
  | some pr => pr.2
  | none => []

/-- The per-piece orientation table (`self.orientations` / `ORIENTATIONS`). -/
def orientationsOf (name : String) : List (List Cell) :=
  unique_orientations (pieceCells name)

theorem normalize_nil : normalize [] = [] := rfl

theorem normalize_cons (a : Cell) (t : List Cell) :
    normalize (a :: t) =
      sortCells ((a :: t).map (fun p =>
        (p.1 - listMin ((a :: t).map Prod.fst),
         p.2 - listMin ((a :: t).map Prod.snd)))) := rfl

/-- After normalization the minimum over each coordinate is `0`. -/
theorem listMin_fst_normalize (a : Cell) (t : List Cell) :
    listMin ((normalize (a :: t)).map Prod.fst) = 0 := by
  rw [normalize_cons]
  set l := a :: t with hl
  set mr := listMin (l.map Prod.fst) with hmr
  set mc := listMin (l.map Prod.snd) with hmc
  apply listMin_eq_of_mem_le
  · have hmem : mr ∈ l.map Prod.fst := by
      apply listMin_mem; simp [hl]
    rcases List.mem_map.mp hmem with ⟨q, hq, hq1⟩
    apply List.mem_map.mpr
    refine ⟨(q.1 - mr, q.2 - mc), ?_, by simp [hq1]⟩
    rw [sortCells_mem]
    exact List.mem_map.mpr ⟨q, hq, rfl⟩
  · intro x hx
    rcases List.mem_map.mp hx with ⟨p, hp, hp1⟩
    rw [sortCells_mem] at hp
    rcases List.mem_map.mp hp with ⟨q, hq, hq1⟩
    have : mr ≤ q.1 := listMin_le (List.mem_map.mpr ⟨q, hq, rfl⟩)
    subst hp1; rw [← hq1]; simp; omega

theorem listMin_snd_normalize (a : Cell) (t : List Cell) :
    listMin ((normalize (a :: t)).map Prod.snd) = 0 := by
  rw [normalize_cons]
  set l := a :: t with hl
  set mr := listMin (l.map Prod.fst) with hmr
  set mc := listMin (l.map Prod.snd) with hmc
  apply listMin_eq_of_mem_le
  · have hmem : mc ∈ l.map Prod.snd := by
      apply listMin_mem; simp [hl]
    rcases List.mem_map.mp hmem with ⟨q, hq, hq1⟩
    apply List.mem_map.mpr
    refine ⟨(q.1 - mr, q.2 - mc), ?_, by simp [hq1]⟩
    rw [sortCells_mem]
    exact List.mem_map.mpr ⟨q, hq, rfl⟩
  · intro x hx
    rcases List.mem_map.mp hx with ⟨p, hp, hp1⟩
    rw [sortCells_mem] at hp
    rcases List.mem_map.mp hp with ⟨q, hq, hq1⟩
    have : mc ≤ q.2 := listMin_le (List.mem_map.mpr ⟨q, hq, rfl⟩)
    subst hp1; rw [← hq1]; simp; omega

/-- Normalization is idempotent on every list of cells. -/
theorem normalize_idem (l : List Cell) : normalize (normalize l) = normalize l := by
  match l with
  | [] => rfl
  | a :: t =>
    have hne : normalize (a :: t) ≠ [] := by
      rw [normalize_cons]
      intro h
      have hlen := congrArg List.length h
      rw [(sortCells_perm _).length_eq] at hlen
      simp at hlen
    match hn : normalize (a :: t) with
    | [] => exact absurd hn hne
    | b :: m =>
      have h1 : listMin ((b :: m).map Prod.fst) = 0 := by
        rw [← hn]; exact listMin_fst_normalize a t
      have h2 : listMin ((b :: m).map Prod.snd) = 0 := by
        rw [← hn]; exact listMin_snd_normalize a t
      rw [normalize_cons, h1, h2]
      have hmap : ((b :: m).map (fun p : Cell => (p.1 - 0, p.2 - 0))) = b :: m := by
        have : (fun p : Cell => (p.1 - 0, p.2 - 0)) = id := by
          funext p; simp
        rw [this, List.map_id]
      rw [hmap]
      apply sortCells_of_sorted
      have : List.Sorted cellLe (normalize (a :: t)) := by
        rw [normalize_cons]; exact sortCells_sorted _
      rwa [hn] at this

theorem dedupFirst_subset {seen vs : List (List Cell)} {x : List Cell}
    (h : x ∈ dedupFirst seen vs) : x ∈ vs := by
  induction vs generalizing seen with
  | nil => simp [dedupFirst] at h
  | cons v vs ih =>
    simp only [dedupFirst] at h
    by_cases hv : v ∈ seen
    · simp [hv] at h; exact List.mem_cons_of_mem _ (ih h)
    · simp [hv] at h
      rcases h with h | h
      · simp [h]
      · exact List.mem_cons_of_mem _ (ih h)

theorem dedupFirst_nodup : ∀ (seen vs : List (List Cell)),
    (dedupFirst seen vs).Nodup ∧ ∀ x ∈ dedupFirst seen vs, x ∉ seen
  | _, [] => by simp [dedupFirst]
  | seen, v :: vs => by
    by_cases hv : v ∈ seen
    · have ih := dedupFirst_nodup seen vs
      simp only [dedupFirst, if_pos hv]
      exact ih
    · have ih := dedupFirst_nodup (v :: seen) vs
      simp only [dedupFirst, if_neg hv]
      constructor
      · refine List.nodup_cons.mpr ⟨?_, ih.1⟩
        intro hmem
        exact (ih.2 v hmem) (List.mem_cons_self _ _)
      · intro x hx
        rcases List.mem_cons.mp hx with h | h
        · subst h; exact hv
        · intro hxs
          exact (ih.2 x h) (List.mem_cons_of_mem _ hxs)

/-- Every element produced by `unique_orientations` is a `transform` result,
hence a `normalize` image. -/
theorem unique_orientations_norm {c : List Cell} {o : List Cell}
    (h : o ∈ unique_orientations c) : normalize o = o := by
  have hin := dedupFirst_subset h
  simp only [List.mem_flatMap, List.mem_map, List.mem_range] at hin
  rcases hin with ⟨r, _, k, _, hk⟩
  subst hk
  unfold transform
  exact normalize_idem _

/-- C4: for each of the 12 pentominoes, `unique_orientations` returns a list of
length 1, 2, 4 or 8 whose elements are pairwise distinct; normalization is
idempotent on every cell list, so every listed orientation, re-normalized,
equals itself. -/
theorem claimC4 :
    (∀ pr ∈ PENTOMINOES,
        (unique_orientations pr.2).length ∈ ([1, 2, 4, 8] : List Nat) ∧
        (unique_orientations pr.2).Nodup ∧
        ∀ o ∈ unique_orientations pr.2, normalize o = o) ∧
    ∀ l : List Cell, normalize (normalize l) = normalize l := by
  constructor
  · have hlen : ∀ pr ∈ PENTOMINOES,
        (unique_orientations pr.2).length ∈ ([1, 2, 4, 8] : List Nat) := by decide
    intro pr hpr
    refine ⟨hlen pr hpr, ?_, fun o ho => unique_orientations_norm ho⟩
    unfold unique_orientations
    exact (dedupFirst_nodup _ _).1
  · exact normalize_idem

/-- Witness for C4 at the piece `F` and a concrete two-cell list. -/
theorem claimC4_witness :
    (unique_orientations [((0:Int),(1:Int)),(1,0),(1,1),(1,2),(2,0)]).length
        ∈ ([1, 2, 4, 8] : List Nat) ∧
    normalize (normalize [((3:Int),(4:Int)),(-2,5)]) =
      normalize [((3:Int),(4:Int)),(-2,5)] :=
  ⟨(claimC4.1 (("F"), [(0,1),(1,0),(1,1),(1,2),(2,0)]) (by decide)).1,
   claimC4.2 [(3,4),(-2,5)]⟩

/-! ### `DFSSolver` (`manim/pentomino_6x10_five.py`)

The solver owns a `random.Random(self.seed)` instance and calls
`self.rng.shuffle` on the name, orientation and anchor lists.  The generator
is modelled abstractly: `RS` is its state, and an `RngModel` packages the
seeding function together with the three shuffle operations, each returning
the permuted list and the advanced state.  Python's `random.shuffle` always
produces a permutation of its input, which claims assume as the hypotheses
`Perm` on the model. -/

/-- Abstract state of a `random.Random` instance. -/
abbrev RS : Type := Nat

/-- An abstract model of the seeded random generator used by `DFSSolver`. -/
structure RngModel where
  init : Nat → RS
  shufNames : RS → List String → List String × RS
  shufOrients : RS → List (List Cell) → List (List Cell) × RS
  shufAnchors : RS → List Cell → List Cell × RS

/-- A placement `(piece name, absolute cells)`. -/
abbrev Placement : Type := String × List Cell

/-- The mutable part of a `DFSSolver` instance: dimensions, board occupancy
(cell to owning piece) and the used-piece set. -/
structure SolverState where
  rows : Nat
  cols : Nat
  board : Cell → Option String
  used : List String

/-- All cells of a `rows × cols` grid in row-major order (the iteration order
of `first_empty`). -/
def cellGrid (rows cols : Nat) : List Cell :=
  (List.range rows).flatMap
    (fun (r : Nat) => (List.range cols).map (fun (c : Nat) => ((r : Int), (c : Int))))

/-- `first_empty`: first unoccupied cell in row-major order. -/
def SolverState.firstEmpty (st : SolverState) : Option Cell :=
  (cellGrid st.rows st.cols).find? (fun rc => (st.board rc).isNone)

/-- `can_place`: all cells in bounds and unoccupied. -/
def SolverState.canPlace (st : SolverState) (cells : List Cell) : Bool :=
  cells.all (fun rc =>
    decide (0 ≤ rc.1) && decide (rc.1 < (st.rows : Int)) &&
    decide (0 ≤ rc.2) && decide (rc.2 < (st.cols : Int)) &&
    (st.board rc).isNone)

/-- `apply_place`: mark the cells with the piece and add it to `used`. -/
def SolverState.applyPlace (st : SolverState) (name : String) (cells : List Cell) :
    SolverState :=
  { st with
    board := fun rc => if rc ∈ cells then some name else st.board rc
    used := st.used.insert name }

/-- `apply_remove`: clear the cells and drop the piece from `used`. -/
def SolverState.applyRemove (st : SolverState) (name : String) (cells : List Cell) :
    SolverState :=
  { st with
    board := fun rc => if rc ∈ cells then none else st.board rc
    used := st.used.erase name }

/-- Inner anchor loop of `solve`: for each candidate anchor cell of the
orientation, shift the orientation onto the anchor, test `can_place`, place
and recurse; on recursive failure continue with the advanced rng state (the
functional reading of `apply_remove` is reusing the unmodified state). -/
def tryAnchors (recur : RS → SolverState → RS × Option (List Placement))
    (st : SolverState) (name : String) (orient : List Cell) (ar ac : Int) :
    RS → List Cell → RS × Option (List Placement)
  | rs, [] => (rs, none)
  | rs, cc :: rest =>
    let shifted := orient.map (fun p => (p.1 + (ar - cc.1), p.2 + (ac - cc.2)))
    if st.canPlace shifted then
      match recur rs (st.applyPlace name shifted) with
      | (rs', some sol) => (rs', some ((name, shifted) :: sol))
      | (rs', none) => tryAnchors recur st name orient ar ac rs' rest
    else tryAnchors recur st name orient ar ac rs rest

/-- Orientation loop of `solve`, shuffling the anchor list per orientation. -/
def tryOrients (M : RngModel) (recur : RS → SolverState → RS × Option (List Placement))
    (st : SolverState) (name : String) (ar ac : Int) :
    RS → List (List Cell) → RS × Option (List Placement)
  | rs, [] => (rs, none)
  | rs, orient :: rest =>
    match M.shufAnchors rs orient with
    | (anchors, rs1) =>
      match tryAnchors recur st name orient ar ac rs1 anchors with
      | (rs2, some sol) => (rs2, some sol)
      | (rs2, none) => tryOrients M recur st name ar ac rs2 rest

/-- Name loop of `solve`, shuffling each piece's orientation list. -/
def tryNames (M : RngModel) (recur : RS → SolverState → RS × Option (List Placement))
    (st : SolverState) (ar ac : Int) :
    RS → List String → RS × Option (List Placement)
  | rs, [] => (rs, none)
  | rs, name :: rest =>
    match M.shufOrients rs (orientationsOf name) with
    | (orients, rs1) =>
      match tryOrients M recur st name ar ac rs1 orients with
      | (rs2, some sol) => (rs2, some sol)
      | (rs2, none) => tryNames M recur st ar ac rs2 rest

/-- One unfolding of `solve`: success on a full board, otherwise anchor at the
first empty cell and run the shuffled name loop. -/
def solveBody (M : RngModel) (recur : RS → SolverState → RS × Option (List Placement))
    (rs : RS) (st : SolverState) : RS × Option (List Placement) :=
  match st.firstEmpty with
  | none => (rs, some [])
  | some ac =>
    match M.shufNames rs (sortedPieceNames.filter (fun n => decide (n ∉ st.used))) with
    | (names, rs1) => tryNames M recur st ac.1 ac.2 rs1 names

/-- `solve` with explicit fuel; each recursive call consumes one unused piece,
so 13 levels never run out on 12 pieces.  Written with `Nat.rec` so concrete
runs evaluate by `rfl`/`decide`. -/
def solveAux (M : RngModel) : Nat → RS → SolverState → RS × Option (List Placement) :=
  fun fuel =>
    Nat.rec (motive := fun _ => RS → SolverState → RS × Option (List Placement))
      (fun rs _ => (rs, none))
      (fun _ ih => solveBody M ih)
      fuel

theorem solveAux_succ (M : RngModel) (f : Nat) :
    solveAux M (f + 1) = solveBody M (solveAux M f) := rfl

/-- A fresh `DFSSolver` instance: empty board, empty used set. -/
def mkSolver (rows cols : Nat) : SolverState :=
  { rows := rows, cols := cols, board := fun _ => none, used := [] }

/-- The default of the `seed` field of `DFSSolver`. -/
def defaultSeed : Nat := 0

/-- `DFSSolver(rows, cols, seed).solve()`. -/
def DFSSolver.solve (M : RngModel) (rows cols : Nat) (seed : Nat) :
    Option (List Placement) :=
  (solveAux M (sortedPieceNames.length + 1) (M.init seed) (mkSolver rows cols)).2

/-- Cells covered by a list of placements. -/
def cellsOf (pl : List Placement) : List Cell := pl.flatMap Prod.snd

/-- Piece names of a list of placements. -/
def namesOf (pl : List Placement) : List String := pl.map Prod.fst

/-- The currently empty (unoccupied) cells of the board, row-major. -/
def emptyCells (st : SolverState) : List Cell :=
  (cellGrid st.rows st.cols).filter (fun rc => (st.board rc).isNone)

theorem cellGrid_mem {rows cols : Nat} {rc : Cell} :
    rc ∈ cellGrid rows cols ↔
      0 ≤ rc.1 ∧ rc.1 < (rows : Int) ∧ 0 ≤ rc.2 ∧ rc.2 < (cols : Int) := by
  unfold cellGrid
  rw [List.mem_flatMap]
  constructor
  · rintro ⟨r, hr, hm⟩
    rw [List.mem_map] at hm
    rcases hm with ⟨c, hc, rfl⟩
    rw [List.mem_range] at hr hc
    refine ⟨by simp, by simpa using hr, by simp, by simpa using hc⟩
  · rintro ⟨h1, h2, h3, h4⟩
    refine ⟨rc.1.toNat, by rw [List.mem_range]; omega, ?_⟩
    rw [List.mem_map]
    refine ⟨rc.2.toNat, by rw [List.mem_range]; omega, ?_⟩
    exact Prod.ext (by simp; omega) (by simp; omega)

theorem cellGrid_nodup (rows cols : Nat) : (cellGrid rows cols).Nodup := by
  unfold cellGrid
  refine List.nodup_flatMap.2 ⟨?_, ?_⟩
  · intro r _
    refine List.Nodup.map ?_ (List.nodup_range cols)
    intro c1 c2 h
    simpa using congrArg Prod.snd h
  · refine (List.nodup_range rows).imp ?_
    intro r1 r2 hne x hx1 hx2
    simp only [Function.onFun, List.mem_map] at hx1 hx2
    rcases hx1 with ⟨c1, _, rfl⟩
    rcases hx2 with ⟨c2, _, h⟩
    exact hne (by simpa using (congrArg Prod.fst h).symm)

theorem emptyCells_nodup (st : SolverState) : (emptyCells st).Nodup :=
  List.Nodup.filter _ (cellGrid_nodup _ _)

/-- What a successful recursive `solve` call guarantees about its state:
distinct fresh piece names and a placement multiset exactly covering the
currently empty cells. -/
def SolveSpec (st : SolverState) (pl : List Placement) : Prop :=
  (namesOf pl).Nodup ∧ (∀ n ∈ namesOf pl, n ∉ st.used) ∧
    (cellsOf pl).Perm (emptyCells st)

theorem canPlace_subset_empty {st : SolverState} {cells : List Cell}
    (h : st.canPlace cells = true) : ∀ rc ∈ cells, rc ∈ emptyCells st := by
  intro rc hrc
  have hc := List.all_eq_true.mp h rc hrc
  simp only [Bool.and_eq_true, decide_eq_true_eq] at hc
  unfold emptyCells
  refine List.mem_filter.mpr ⟨cellGrid_mem.mpr ⟨hc.1.1.1.1, hc.1.1.1.2, hc.1.1.2, hc.1.2⟩, hc.2⟩

theorem emptyCells_applyPlace (st : SolverState) (name : String) (s : List Cell) :
    emptyCells (st.applyPlace name s) =
      (emptyCells st).filter (fun rc => decide (rc ∉ s)) := by
  unfold emptyCells SolverState.applyPlace
  rw [List.filter_filter]
  apply List.filter_congr
  intro rc _
  by_cases hm : rc ∈ s <;> simp [hm]

theorem SolveSpec_place {st : SolverState} {name : String} {shifted : List Cell}
    {pl : List Placement}
    (hcan : st.canPlace shifted = true) (hnodup : shifted.Nodup)
    (hname : name ∉ st.used)
    (h : SolveSpec (st.applyPlace name shifted) pl) :
    SolveSpec st ((name, shifted) :: pl) := by
  obtain ⟨hnd, hfresh, hperm⟩ := h
  have husedset : ∀ n, n ∈ (st.applyPlace name shifted).used ↔ n = name ∨ n ∈ st.used := by
    intro n
    unfold SolverState.applyPlace
    simp [List.mem_insert_iff]
  refine ⟨?_, ?_, ?_⟩
  · refine List.nodup_cons.mpr ⟨?_, hnd⟩
    intro hmem
    exact hfresh name hmem ((husedset name).mpr (Or.inl rfl))
  · intro n hn
    rcases List.mem_cons.mp hn with h | h
    · subst h; exact hname
    · intro hcontra
      exact hfresh n h ((husedset n).mpr (Or.inr hcontra))
  · have hsub : ∀ rc ∈ shifted, rc ∈ emptyCells st := canPlace_subset_empty hcan
    have hperm' : (cellsOf pl).Perm ((emptyCells st).filter (fun rc => decide (rc ∉ shifted))) := by
      rw [← emptyCells_applyPlace]; exact hperm
    have hshift : shifted.Perm ((emptyCells st).filter (fun rc => decide (rc ∈ shifted))) := by
      rw [List.perm_ext_iff_of_nodup hnodup
        (List.Nodup.filter _ (emptyCells_nodup st))]
      intro a
      constructor
      · intro ha
        exact List.mem_filter.mpr ⟨hsub a ha, by simpa using ha⟩
      · intro ha
        simpa using (List.mem_filter.mp ha).2
    have : (shifted ++ cellsOf pl).Perm
        ((emptyCells st).filter (fun rc => decide (rc ∈ shifted)) ++
         (emptyCells st).filter (fun rc => decide (rc ∉ shifted))) :=
      List.Perm.append hshift hperm'
    refine List.Perm.trans ?_ (List.Perm.trans this ?_)
    · show (cellsOf ((name, shifted) :: pl)).Perm (shifted ++ cellsOf pl)
      unfold cellsOf
      simp [List.flatMap_cons]
    · have := List.filter_append_perm (fun rc => decide (rc ∈ shifted)) (emptyCells st)
      refine List.Perm.trans ?_ this
      apply List.Perm.append_left
      apply List.Perm.of_eq
      apply List.filter_congr
      intro x _
      by_cases hx : x ∈ shifted <;> simp [hx]

theorem shifted_nodup {orient : List Cell} (h : orient.Nodup) (dr dc : Int) :
    (orient.map (fun p => (p.1 + dr, p.2 + dc))).Nodup := by
  refine List.Nodup.map ?_ h
  intro p q hpq
  have h1 := congrArg Prod.fst hpq
  have h2 := congrArg Prod.snd hpq
  simp at h1 h2
  exact Prod.ext h1 h2

/-- Every orientation stored in the table is a list of distinct cells
(the base shapes are, and rigid motions are injective). -/
theorem orientationsOf_nodup :
    ∀ n ∈ sortedPieceNames, ∀ o ∈ orientationsOf n, o.Nodup := by decide

theorem tryAnchors_spec {recur : RS → SolverState → RS × Option (List Placement)}
    {st : SolverState} {name : String} {orient : List Cell} {ar ac : Int}
    (ho : orient.Nodup) (hname : name ∉ st.used)
    (hrec : ∀ rs st' rs' pl, recur rs st' = (rs', some pl) → SolveSpec st' pl) :
    ∀ (anchors : List Cell) (rs rs' : RS) (pl : List Placement),
      tryAnchors recur st name orient ar ac rs anchors = (rs', some pl) →
      SolveSpec st pl
  | [], rs, rs', pl => by
    intro h
    simp [tryAnchors] at h
  | cc :: rest, rs, rs', pl => by
    intro h
    rw [tryAnchors] at h
    by_cases hcan :
        st.canPlace (orient.map (fun p => (p.1 + (ar - cc.1), p.2 + (ac - cc.2)))) = true
    · rw [if_pos hcan] at h
      cases hre : recur rs
          (st.applyPlace name (orient.map (fun p => (p.1 + (ar - cc.1), p.2 + (ac - cc.2)))))
        with
      | mk rs1 osol =>
        rw [hre] at h
        cases osol with
        | some sol =>
          simp only at h
          have h1 : rs1 = rs' := congrArg Prod.fst h
          have h2 := congrArg Prod.snd h
          simp only at h2
          have hsol := hrec rs _ rs1 sol hre
          have := SolveSpec_place hcan (shifted_nodup ho _ _) hname hsol
          rw [← Option.some.injEq] at h2
          cases h2
          exact this
        | none =>
          simp only at h
          exact tryAnchors_spec ho hname hrec rest rs1 rs' pl h
    · rw [if_neg hcan] at h
      exact tryAnchors_spec ho hname hrec rest rs rs' pl h

theorem tryOrients_spec {M : RngModel}
    {recur : RS → SolverState → RS × Option (List Placement)}
    {st : SolverState} {name : String} {ar ac : Int}
    (hname : name ∉ st.used)
    (hrec : ∀ rs st' rs' pl, recur rs st' = (rs', some pl) → SolveSpec st' pl) :
    ∀ (orients : List (List Cell)), (∀ o ∈ orients, o.Nodup) →
    ∀ (rs rs' : RS) (pl : List Placement),
      tryOrients M recur st name ar ac rs orients = (rs', some pl) →
      SolveSpec st pl
  | [], _, rs, rs', pl => by
    intro h
    simp [tryOrients] at h
  | orient :: rest, hnd, rs, rs', pl => by
    intro h
    rw [tryOrients] at h
    cases hsh : M.shufAnchors rs orient with
    | mk anchors rs1 =>
      rw [hsh] at h
      dsimp only at h
      cases hta : tryAnchors recur st name orient ar ac rs1 anchors with
      | mk rs2 osol =>
        rw [hta] at h
        cases osol with
        | some sol =>
          simp only at h
          have h2 := congrArg Prod.snd h
          simp only at h2
          rw [← Option.some.injEq] at h2
          cases h2
          exact tryAnchors_spec (hnd orient (List.mem_cons_self _ _)) hname hrec
            anchors rs1 rs2 pl hta
        | none =>
          simp only at h
          exact tryOrients_spec hname hrec rest
            (fun o ho => hnd o (List.mem_cons_of_mem _ ho)) rs2 rs' pl h

theorem tryNames_spec {M : RngModel}
    {recur : RS → SolverState → RS × Option (List Placement)}
    {st : SolverState} {ar ac : Int}
    (hO : ∀ rs l, ((M.shufOrients rs l).1).Perm l)
    (hrec : ∀ rs st' rs' pl, recur rs st' = (rs', some pl) → SolveSpec st' pl) :
    ∀ (names : List String),
      (∀ n ∈ names, n ∈ sortedPieceNames ∧ n ∉ st.used) →
    ∀ (rs rs' : RS) (pl : List Placement),
      tryNames M recur st ar ac rs names = (rs', some pl) →
      SolveSpec st pl
  | [], _, rs, rs', pl => by
    intro h
    simp [tryNames] at h
  | name :: rest, hn, rs, rs', pl => by
    intro h
    rw [tryNames] at h
    cases hsh : M.shufOrients rs (orientationsOf name) with
    | mk orients rs1 =>
      rw [hsh] at h
      dsimp only at h
      cases hto : tryOrients M recur st name ar ac rs1 orients with
      | mk rs2 osol =>
        rw [hto] at h
        cases osol with
        | some sol =>
          simp only at h
          have h2 := congrArg Prod.snd h
          simp only at h2
          rw [← Option.some.injEq] at h2
          cases h2
          have hperm : orients.Perm (orientationsOf name) := by
            have := hO rs (orientationsOf name)
            rwa [hsh] at this
          refine tryOrients_spec (hn name (List.mem_cons_self _ _)).2 hrec orients
            ?_ rs1 rs2 pl hto
          intro o ho
          exact orientationsOf_nodup name (hn name (List.mem_cons_self _ _)).1 o
            (hperm.mem_iff.mp ho)
        | none =>
          simp only at h
          exact tryNames_spec hO hrec rest
            (fun n hmem => hn n (List.mem_cons_of_mem _ hmem)) rs2 rs' pl h

theorem solveAux_spec {M : RngModel}
    (hN : ∀ rs l, ((M.shufNames rs l).1).Perm l)
    (hO : ∀ rs l, ((M.shufOrients rs l).1).Perm l) :
    ∀ (fuel : Nat) (rs : RS) (st : SolverState) (rs' : RS) (pl : List Placement),
      solveAux M fuel rs st = (rs', some pl) → SolveSpec st pl := by
  intro fuel
  induction fuel with
  | zero =>
    intro rs st rs' pl h
    have h0 : solveAux M 0 rs st = (rs, none) := rfl
    rw [h0] at h
    have h2 := congrArg Prod.snd h
    simp at h2
  | succ f ih =>
    intro rs st rs' pl h
    rw [solveAux_succ] at h
    unfold solveBody at h
    cases hfe : st.firstEmpty with
    | none =>
      rw [hfe] at h
      have h2 := congrArg Prod.snd h
      simp only at h2
      rw [← Option.some.injEq] at h2
      cases h2
      have hempty : emptyCells st = [] := by
        unfold SolverState.firstEmpty at hfe
        unfold emptyCells
        rw [List.filter_eq_nil_iff]
        intro rc hrc
        exact List.find?_eq_none.mp hfe rc hrc
      refine ⟨List.nodup_nil, ?_, ?_⟩
      · intro n hn
        simp [namesOf] at hn
      · rw [hempty]
        exact List.Perm.refl _
    | some ac =>
      rw [hfe] at h
      cases hsh : M.shufNames rs (sortedPieceNames.filter (fun n => decide (n ∉ st.used)))
        with
      | mk names rs1 =>
        rw [hsh] at h
        have hperm : names.Perm (sortedPieceNames.filter (fun n => decide (n ∉ st.used))) := by
          have := hN rs (sortedPieceNames.filter (fun n => decide (n ∉ st.used)))
          rwa [hsh] at this
        refine tryNames_spec hO (fun rs2 st2 rs3 pl2 hcall => ih rs2 st2 rs3 pl2 hcall)
          names ?_ rs1 rs' pl h
        intro n hn
        have := List.mem_filter.mp (hperm.mem_iff.mp hn)
        exact ⟨this.1, by simpa using this.2⟩

/-- C1: any solution the 6x10 `DFSSolver.solve` returns (under any behaviour
of the shuffling generator, which always permutes its input) covers each of
the 60 board cells exactly once and uses each piece identifier at most once. -/
theorem claimC1 (M : RngModel)
    (hN : ∀ rs l, ((M.shufNames rs l).1).Perm l)
    (hO : ∀ rs l, ((M.shufOrients rs l).1).Perm l)
    (seed : Nat) (pl : List Placement)
    (h : DFSSolver.solve M 6 10 seed = some pl) :
    (cellsOf pl).Perm (cellGrid 6 10) ∧ (namesOf pl).Nodup := by
  unfold DFSSolver.solve at h
  cases hrun : solveAux M (sortedPieceNames.length + 1) (M.init seed) (mkSolver 6 10) with
  | mk rs' osol =>
    rw [hrun] at h
    simp only at h
    subst h
    have hspec := solveAux_spec hN hO _ _ _ _ _ hrun
    refine ⟨?_, hspec.1⟩
    have : emptyCells (mkSolver 6 10) = cellGrid 6 10 := by
      unfold emptyCells mkSolver
      simp
    rw [← this]
    exact hspec.2.2

/-- Move a designated element to the front of a list (a particular
permutation, used to instantiate the abstract shuffler in witnesses). -/
def moveFront {α : Type} [DecidableEq α] (x : α) (l : List α) : List α :=
  if x ∈ l then x :: l.erase x else l

theorem moveFront_perm {α : Type} [DecidableEq α] (x : α) (l : List α) :
    (moveFront x l).Perm l := by
  unfold moveFront
  by_cases h : x ∈ l
  · rw [if_pos h]
    exact (List.perm_cons_erase h).symm
  · rw [if_neg h]

/-- Piece order of a concrete full 6x10 tiling, in first-empty order. -/
def witNames : List String :=
  [("F"),("I"),("L"),("Z"),("V"),("Y"),("N"),("X"),("T"),("W"),("P"),("U")]

/-- Orientation used at each step of the concrete tiling. -/
def witOrients : List (List Cell) :=
  [ [(0,0),(0,1),(1,1),(1,2),(2,1)]
  , [(0,0),(0,1),(0,2),(0,3),(0,4)]
  , [(0,3),(1,0),(1,1),(1,2),(1,3)]
  , [(0,1),(0,2),(1,1),(2,0),(2,1)]
  , [(0,0),(1,0),(2,0),(2,1),(2,2)]
  , [(0,1),(1,0),(1,1),(1,2),(1,3)]
  , [(0,1),(1,1),(2,0),(2,1),(3,0)]
  , [(0,1),(1,0),(1,1),(1,2),(2,1)]
  , [(0,1),(1,1),(2,0),(2,1),(2,2)]
  , [(0,0),(1,0),(1,1),(2,1),(2,2)]
  , [(0,0),(0,1),(0,2),(1,0),(1,1)]
  , [(0,0),(0,2),(1,0),(1,1),(1,2)] ]

/-- Orientation cell that lands on the anchor at each step. -/
def witAnchors : List Cell :=
  [(0,0),(0,0),(0,3),(0,1),(0,0),(0,1),(0,1),(0,1),(0,1),(0,0),(0,0),(0,0)]

/-- A concrete generator model: the state counts shuffle calls, each shuffle
moves the scripted element of the current search level to the front (always a
permutation of its input). -/
def witModel : RngModel :=
  { init := fun _ => 0
  , shufNames := fun k l => (moveFront (witNames.getD (k / 3) ("F")) l, k + 1)
  , shufOrients := fun k l => (moveFront (witOrients.getD (k / 3) []) l, k + 1)
  , shufAnchors := fun k l =>
      (moveFront (witAnchors.getD (k / 3) ((0 : Int), (0 : Int))) l, k + 1) }

/-- The concrete 6x10 tiling found by the scripted run. -/
def witSolution : List Placement :=
  [ (("F"), [(0,0),(0,1),(1,1),(1,2),(2,1)])
  , (("I"), [(0,2),(0,3),(0,4),(0,5),(0,6)])
  , (("L"), [(0,7),(1,4),(1,5),(1,6),(1,7)])
  , (("Z"), [(0,8),(0,9),(1,8),(2,7),(2,8)])
  , (("V"), [(1,0),(2,0),(3,0),(3,1),(3,2)])
  , (("Y"), [(1,3),(2,2),(2,3),(2,4),(2,5)])
  , (("N"), [(1,9),(2,9),(3,8),(3,9),(4,8)])
  , (("X"), [(2,6),(3,5),(3,6),(3,7),(4,6)])
  , (("T"), [(3,3),(4,3),(5,2),(5,3),(5,4)])
  , (("W"), [(3,4),(4,4),(4,5),(5,5),(5,6)])
  , (("P"), [(4,0),(4,1),(4,2),(5,0),(5,1)])
  , (("U"), [(4,7),(4,9),(5,7),(5,8),(5,9)]) ]

/-- Witness for C1: a concrete scripted run of `DFSSolver.solve` on the 6x10
board returns `witSolution`, and the theorem yields its exact-cover
properties. -/
theorem claimC1_witness :
    (cellsOf witSolution).Perm (cellGrid 6 10) ∧ (namesOf witSolution).Nodup :=
  claimC1 witModel (fun _ _ => moveFront_perm _ _) (fun _ _ => moveFront_perm _ _)
    0 witSolution (by decide)

/-- C7: `solve` with the default seed is deterministic: any two runs on the
same problem (same dimensions, same default seed, same generator semantics)
return identical results.  In this embedding the generator is a pure function
of the seed, which is exactly why two fresh `random.Random(0)` instances
behave identically. -/
theorem claimC7 (M : RngModel) (rows cols : Nat) (r1 r2 : Option (List Placement))
    (h1 : r1 = DFSSolver.solve M rows cols defaultSeed)
    (h2 : r2 = DFSSolver.solve M rows cols defaultSeed) :
    r1 = r2 := h1.trans h2.symm

/-- Witness for C7 at the concrete scripted generator on the 6x10 board. -/
theorem claimC7_witness :
    DFSSolver.solve witModel 6 10 defaultSeed = DFSSolver.solve witModel 6 10 defaultSeed :=
  claimC7 witModel 6 10 _ _ rfl rfl

/-! ### `PentominoFiveRectangles.find_unique_solutions`
(`manim/pentomino_6x10_five.py`)

The deduplication loop runs `DFSSolver(rows=6, cols=10, seed=attempt+1)` for
`attempt` in `range(max_attempts)`, canonicalizes each found solution and
keeps first-seen canonical forms in insertion order. -/

/-- Lexicographic comparison of cell lists (Python tuple comparison). -/
def listCellLeB : List Cell → List Cell → Bool
  | [], _ => true
  | _ :: _, [] => false
  | a :: as_, b :: bs => if a = b then listCellLeB as_ bs else decide (cellLe a b)

/-- Comparison of `(name, cells)` pairs (Python tuple comparison). -/
def sigLeB (a b : String × List Cell) : Bool :=
  if a.1 = b.1 then listCellLeB a.2 b.2 else decide (a.1 < b.1)

/-- `solution_signature`: sort the cells within each placement, then sort the
list of `(piece, sorted cells)` pairs. -/
def solution_signature (sol : List Placement) : List (String × List Cell) :=
  List.insertionSort (fun a b => sigLeB a b = true)
    (sol.map (fun pr => (pr.1, sortCells pr.2)))

/-- The loop of `find_unique_solutions`: `attempts` is the remaining list of
attempt indices, `acc` the insertion-ordered association of canonical
signatures to first-seen solutions. -/
def findUniqueAux (M : RngModel) (count : Nat) :
    List Nat → List (List (String × List Cell) × List Placement) →
      List (List (String × List Cell) × List Placement)
  | [], acc => acc
  | attempt :: rest, acc =>
    match DFSSolver.solve M 6 10 (attempt + 1) with
    | none => findUniqueAux M count rest acc
    | some sol =>
      if solution_signature sol ∈ acc.map Prod.fst then findUniqueAux M count rest acc
      else
        if count ≤ acc.length + 1 then acc ++ [(solution_signature sol, sol)]
        else findUniqueAux M count rest (acc ++ [(solution_signature sol, sol)])

/-- `find_unique_solutions(count, max_attempts)`. -/
def find_unique_solutions (M : RngModel) (count max_attempts : Nat) :
    List (List Placement) :=
  (findUniqueAux M count (List.range max_attempts) []).map Prod.snd

/-- `PentominoFiveRectangles.construct` raises a `RuntimeError` carrying the
number actually found when fewer than the requested count come back; modelled
as an `Except` value. -/
def constructSolutions (M : RngModel) (count max_attempts : Nat) :
    Except Nat (List (List Placement)) :=
  if (find_unique_solutions M count max_attempts).length < count then
    Except.error (find_unique_solutions M count max_attempts).length
  else Except.ok (find_unique_solutions M count max_attempts)

/-- Keys stored in the accumulator are the signatures of the stored
solutions, without repetition; the loop keeps this invariant. -/
def AccInv (acc : List (List (String × List Cell) × List Placement)) : Prop :=
  (∀ pr ∈ acc, pr.1 = solution_signature pr.2) ∧ (acc.map Prod.fst).Nodup

theorem findUniqueAux_inv {M : RngModel} {count : Nat} :
    ∀ (attempts : List Nat) (acc : List (List (String × List Cell) × List Placement)),
      AccInv acc → AccInv (findUniqueAux M count attempts acc)
  | [], acc, h => h
  | attempt :: rest, acc, h => by
    rw [findUniqueAux]
    cases DFSSolver.solve M 6 10 (attempt + 1) with
    | none => exact findUniqueAux_inv rest acc h
    | some sol =>
      simp only
      by_cases hmem : solution_signature sol ∈ acc.map Prod.fst
      · rw [if_pos hmem]
        exact findUniqueAux_inv rest acc h
      · rw [if_neg hmem]
        have hinv : AccInv (acc ++ [(solution_signature sol, sol)]) := by
          constructor
          · intro pr hpr
            rcases List.mem_append.mp hpr with h1 | h1
            · exact h.1 pr h1
            · simp at h1
              subst h1
              rfl
          · rw [List.map_append]
            rw [List.nodup_append]
            refine ⟨h.2, by simp, ?_⟩
            intro x hx
            simp only [List.map_cons, List.map_nil, List.mem_cons, List.not_mem_nil,
              or_false] at *
            intro hx2
            subst hx2
            exact hmem hx
        by_cases hc : count ≤ acc.length + 1
        · rw [if_pos hc]
          exact hinv
        · rw [if_neg hc]
          exact findUniqueAux_inv rest _ hinv

theorem findUniqueAux_length {M : RngModel} {count : Nat} :
    ∀ (attempts : List Nat) (acc : List (List (String × List Cell) × List Placement)),
      acc.length < count → (findUniqueAux M count attempts acc).length ≤ count
  | [], acc, h => Nat.le_of_lt h
  | attempt :: rest, acc, h => by
    rw [findUniqueAux]
    cases DFSSolver.solve M 6 10 (attempt + 1) with
    | none => exact findUniqueAux_length rest acc h
    | some sol =>
      simp only
      by_cases hmem : solution_signature sol ∈ acc.map Prod.fst
      · rw [if_pos hmem]
        exact findUniqueAux_length rest acc h
      · rw [if_neg hmem]
        by_cases hc : count ≤ acc.length + 1
        · rw [if_pos hc]
          simp
          omega
        · rw [if_neg hc]
          refine findUniqueAux_length rest _ ?_
          simp
          omega

/-- The accumulator only grows: its keys persist into the final result. -/
theorem findUniqueAux_mono {M : RngModel} {count : Nat} :
    ∀ (attempts : List Nat) (acc : List (List (String × List Cell) × List Placement))
      (x : List (String × List Cell)), x ∈ acc.map Prod.fst →
      x ∈ (findUniqueAux M count attempts acc).map Prod.fst
  | [], _, _, hx => hx
  | attempt :: rest, acc, x, hx => by
    rw [findUniqueAux]
    cases DFSSolver.solve M 6 10 (attempt + 1) with
    | none => exact findUniqueAux_mono rest acc x hx
    | some sol =>
      simp only
      by_cases hmem : solution_signature sol ∈ acc.map Prod.fst
      · rw [if_pos hmem]
        exact findUniqueAux_mono rest acc x hx
      · rw [if_neg hmem]
        have hx' : x ∈ (acc ++ [(solution_signature sol, sol)]).map Prod.fst := by
          rw [List.map_append]
          exact List.mem_append.mpr (Or.inl hx)
        by_cases hc : count ≤ acc.length + 1
        · rw [if_pos hc]
          exact hx'
        · rw [if_neg hc]
          exact findUniqueAux_mono rest _ x hx'

/-- If the loop returns fewer than `count` entries, it exhausted the attempt
list and no attempted solution's signature is missing from the result. -/
theorem findUniqueAux_exhaust {M : RngModel} {count : Nat} :
    ∀ (attempts : List Nat) (acc : List (List (String × List Cell) × List Placement)),
      (findUniqueAux M count attempts acc).length < count →
      ∀ attempt ∈ attempts, ∀ sol, DFSSolver.solve M 6 10 (attempt + 1) = some sol →
        solution_signature sol ∈ (findUniqueAux M count attempts acc).map Prod.fst
  | [], acc, _, attempt, hmem, _, _ => absurd hmem (List.not_mem_nil _)
  | a0 :: rest, acc, hlen, attempt, hmem, sol, hsol => by
    rw [findUniqueAux] at hlen ⊢
    rcases List.mem_cons.mp hmem with heq | hmem'
    · subst heq
      rw [hsol] at hlen ⊢
      simp only at hlen ⊢
      by_cases hk : solution_signature sol ∈ acc.map Prod.fst
      · rw [if_pos hk] at hlen ⊢
        exact findUniqueAux_mono rest acc _ hk
      · rw [if_neg hk] at hlen ⊢
        by_cases hc : count ≤ acc.length + 1
        · rw [if_pos hc] at hlen
          simp at hlen
          omega
        · rw [if_neg hc] at hlen ⊢
          refine findUniqueAux_mono rest _ _ ?_
          rw [List.map_append]
          simp
    · cases hres : DFSSolver.solve M 6 10 (a0 + 1) with
      | none =>
        rw [hres] at hlen
        simp only at hlen ⊢
        exact findUniqueAux_exhaust rest acc hlen attempt hmem' sol hsol
      | some sol0 =>
        rw [hres] at hlen
        simp only at hlen ⊢
        by_cases hk : solution_signature sol0 ∈ acc.map Prod.fst
        · rw [if_pos hk] at hlen ⊢
          exact findUniqueAux_exhaust rest acc hlen attempt hmem' sol hsol
        · rw [if_neg hk] at hlen ⊢
          by_cases hc : count ≤ acc.length + 1
          · rw [if_pos hc] at hlen
            simp at hlen
            omega
          · rw [if_neg hc] at hlen ⊢
            exact findUniqueAux_exhaust rest _ hlen attempt hmem' sol hsol

/-- C9 (amended: for `count ≥ 1`): `find_unique_solutions` returns at most
`count` solutions with pairwise-distinct canonical signatures; if it returns
fewer than `count`, the attempts were exhausted with every found solution's
signature already collected (so stopping early only happens on reaching
`count`); and the caller (`construct`) turns a short result into an explicit
failure carrying the number actually found. -/
theorem claimC9 (M : RngModel) (count maxA : Nat) (hc : 1 ≤ count) :
    (find_unique_solutions M count maxA).length ≤ count ∧
    ((find_unique_solutions M count maxA).map solution_signature).Nodup ∧
    ((find_unique_solutions M count maxA).length < count →
      ∀ attempt ∈ List.range maxA, ∀ sol,
        DFSSolver.solve M 6 10 (attempt + 1) = some sol →
        solution_signature sol ∈ (find_unique_solutions M count maxA).map solution_signature) ∧
    ((find_unique_solutions M count maxA).length < count →
      constructSolutions M count maxA =
        Except.error (find_unique_solutions M count maxA).length) := by
  have hinv : AccInv (findUniqueAux M count (List.range maxA) []) :=
    findUniqueAux_inv _ [] ⟨fun pr hpr => absurd hpr (List.not_mem_nil _), List.nodup_nil⟩
  have hkeys : (findUniqueAux M count (List.range maxA) []).map Prod.fst =
      (find_unique_solutions M count maxA).map solution_signature := by
    unfold find_unique_solutions
    rw [List.map_map]
    apply List.map_congr_left
    intro pr hpr
    exact hinv.1 pr hpr
  refine ⟨?_, ?_, ?_, ?_⟩
  · unfold find_unique_solutions
    rw [List.length_map]
    exact findUniqueAux_length _ [] (by simpa using hc)
  · rw [← hkeys]
    exact hinv.2
  · intro hlen attempt hmem sol hsol
    rw [← hkeys]
    refine findUniqueAux_exhaust _ [] ?_ attempt hmem sol hsol
    unfold find_unique_solutions at hlen
    rwa [List.length_map] at hlen
  · intro hlen
    unfold constructSolutions
    rw [if_pos hlen]

/-- Witness for C9 at `count = 1`, `max_attempts = 1` with the scripted
generator: the single collected solution respects the bound. -/
theorem claimC9_witness : (find_unique_solutions witModel 1 1).length ≤ 1 :=
  (claimC9 witModel 1 1 (by decide)).1

/-- Counterexample to C9 as stated: at `count = 0` the loop's stop check runs
only after an insertion, so one solution is returned, exceeding `count`. -/
theorem claimC9_counterexample : (find_unique_solutions witModel 0 1).length = 1 := by
  decide

/-! ### `SearchState` (`manim/pentomino_6x10.py`)

The budgeted exhaustive search that records `place`/`remove` events up to
`max_steps`.  Enumeration is alphabetical (no randomness). -/

/-- The mutable state of a `SearchState` instance. -/
structure SearchState where
  rows : Nat
  cols : Nat
  maxSteps : Nat
  board : Cell → Option String
  used : List String
  events : List (String × Placement)

/-- `SearchState.record`: refuse to append at the cap (returning `True`),
otherwise append and report whether the cap is now reached. -/
def SearchState.record (st : SearchState) (op : String) (piece : Placement) :
    Bool × SearchState :=
  if st.maxSteps ≤ st.events.length then (true, st)
  else
    (decide (st.maxSteps ≤ (st.events ++ [(op, piece)]).length),
     { st with events := st.events ++ [(op, piece)] })

/-- `first_empty` of `SearchState`. -/
def SearchState.firstEmpty (st : SearchState) : Option Cell :=
  (cellGrid st.rows st.cols).find? (fun rc => (st.board rc).isNone)

/-- `can_place` of `SearchState`. -/
def SearchState.canPlace (st : SearchState) (cells : List Cell) : Bool :=
  cells.all (fun rc =>
    decide (0 ≤ rc.1) && decide (rc.1 < (st.rows : Int)) &&
    decide (0 ≤ rc.2) && decide (rc.2 < (st.cols : Int)) &&
    (st.board rc).isNone)

/-- `apply_place` of `SearchState`. -/
def SearchState.applyPlace (st : SearchState) (name : String) (cells : List Cell) :
    SearchState :=
  { st with
    board := fun rc => if rc ∈ cells then some name else st.board rc
    used := st.used.insert name }

/-- `apply_remove` of `SearchState`. -/
def SearchState.applyRemove (st : SearchState) (name : String) (cells : List Cell) :
    SearchState :=
  { st with
    board := fun rc => if rc ∈ cells then none else st.board rc
    used := st.used.erase name }

/-- Anchor loop of `SearchState.search`: place, record, recurse, un-place,
record, continue; any `True` from `record` or the recursion returns
immediately. -/
def sAnchors (recur : SearchState → Bool × SearchState) (name : String)
    (orient : List Cell) (ar ac : Int) :
    SearchState → List Cell → Bool × SearchState
  | st, [] => (false, st)
  | st, cc :: rest =>
    let shifted := orient.map (fun p => (p.1 + (ar - cc.1), p.2 + (ac - cc.2)))
    if st.canPlace shifted then
      match (st.applyPlace name shifted).record ("place") (name, shifted) with
      | (true, st2) => (true, st2)
      | (false, st2) =>
        match recur st2 with
        | (true, st3) => (true, st3)
        | (false, st3) =>
          match (st3.applyRemove name shifted).record ("remove") (name, shifted) with
          | (true, st5) => (true, st5)
          | (false, st5) => sAnchors recur name orient ar ac st5 rest
    else sAnchors recur name orient ar ac st rest

/-- Orientation loop of `SearchState.search`. -/
def sOrients (recur : SearchState → Bool × SearchState) (name : String) (ar ac : Int) :
    SearchState → List (List Cell) → Bool × SearchState
  | st, [] => (false, st)
  | st, orient :: rest =>
    match sAnchors recur name orient ar ac st orient with
    | (true, st') => (true, st')
    | (false, st') => sOrients recur name ar ac st' rest

/-- Name loop of `SearchState.search` (alphabetical order, skipping used). -/
def sNames (recur : SearchState → Bool × SearchState) (ar ac : Int) :
    SearchState → List String → Bool × SearchState
  | st, [] => (false, st)
  | st, name :: rest =>
    if name ∈ st.used then sNames recur ar ac st rest
    else
      match sOrients recur name ar ac st (orientationsOf name) with
      | (true, st') => (true, st')
      | (false, st') => sNames recur ar ac st' rest

/-- One unfolding of `SearchState.search`. -/
def searchBody (recur : SearchState → Bool × SearchState) (st : SearchState) :
    Bool × SearchState :=
  if st.maxSteps ≤ st.events.length then (true, st)
  else
    match st.firstEmpty with
    | none => (true, st)
    | some ac => sNames recur ac.1 ac.2 st sortedPieceNames

/-- `SearchState.search` with explicit fuel (12 pieces bound the depth). -/
def SearchState.search : Nat → SearchState → Bool × SearchState :=
  fun fuel =>
    Nat.rec (motive := fun _ => SearchState → Bool × SearchState)
      (fun st => (false, st))
      (fun _ ih => searchBody ih)
      fuel

theorem SearchState.search_succ (f : Nat) :
    SearchState.search (f + 1) = searchBody (SearchState.search f) := rfl

/-- A fresh `SearchState(rows, cols, max_steps)`. -/
def mkSearchState (rows cols maxSteps : Nat) : SearchState :=
  { rows := rows, cols := cols, maxSteps := maxSteps
    board := fun _ => none, used := [], events := [] }

/-- The events bound: at most `max_steps` recorded events. -/
def EB (st : SearchState) : Prop := st.events.length ≤ st.maxSteps

theorem record_EB {st : SearchState} {op : String} {p : Placement} (h : EB st) :
    EB (st.record op p).2 ∧ (st.record op p).2.maxSteps = st.maxSteps := by
  unfold SearchState.record
  by_cases hc : st.maxSteps ≤ st.events.length
  · rw [if_pos hc]
    exact ⟨h, rfl⟩
  · rw [if_neg hc]
    refine ⟨?_, rfl⟩
    unfold EB at h ⊢
    simp at hc ⊢
    omega

theorem sAnchors_EB {recur : SearchState → Bool × SearchState}
    (hrec : ∀ st, EB st → EB (recur st).2 ∧ (recur st).2.maxSteps = st.maxSteps)
    (name : String) (orient : List Cell) (ar ac : Int) :
    ∀ (st : SearchState) (anchors : List Cell), EB st →
      EB (sAnchors recur name orient ar ac st anchors).2 ∧
      (sAnchors recur name orient ar ac st anchors).2.maxSteps = st.maxSteps
  | st, [], h => ⟨h, rfl⟩
  | st, cc :: rest, h => by
    rw [sAnchors]
    by_cases hcan :
        st.canPlace (orient.map (fun p => (p.1 + (ar - cc.1), p.2 + (ac - cc.2)))) = true
    · rw [if_pos hcan]
      have h1 : EB (st.applyPlace name
          (orient.map (fun p => (p.1 + (ar - cc.1), p.2 + (ac - cc.2))))) := h
      have hr1 := @record_EB _ ("place")
        (name, orient.map (fun p => (p.1 + (ar - cc.1), p.2 + (ac - cc.2)))) h1
      cases hrec1 : (st.applyPlace name
          (orient.map (fun p => (p.1 + (ar - cc.1), p.2 + (ac - cc.2))))).record
          ("place") (name, orient.map (fun p => (p.1 + (ar - cc.1), p.2 + (ac - cc.2))))
        with
      | mk b2 st2 =>
        rw [hrec1] at hr1
        cases b2 with
        | true => exact ⟨hr1.1, hr1.2⟩
        | false =>
          simp only
          have hre := hrec st2 hr1.1
          cases hrec2 : recur st2 with
          | mk b3 st3 =>
            rw [hrec2] at hre
            cases b3 with
            | true => exact ⟨hre.1, hre.2.trans hr1.2⟩
            | false =>
              simp only
              have h3 : EB (st3.applyRemove name
                  (orient.map (fun p => (p.1 + (ar - cc.1), p.2 + (ac - cc.2))))) := hre.1
              have hr2 := @record_EB _ ("remove")
                (name, orient.map (fun p => (p.1 + (ar - cc.1), p.2 + (ac - cc.2)))) h3
              cases hrec3 : (st3.applyRemove name
                  (orient.map (fun p => (p.1 + (ar - cc.1), p.2 + (ac - cc.2))))).record
                  ("remove")
                  (name, orient.map (fun p => (p.1 + (ar - cc.1), p.2 + (ac - cc.2))))
                with
              | mk b5 st5 =>
                rw [hrec3] at hr2
                cases b5 with
                | true => exact ⟨hr2.1, (hr2.2.trans hre.2).trans hr1.2⟩
                | false =>
                  simp only
                  have := sAnchors_EB hrec name orient ar ac st5 rest hr2.1
                  exact ⟨this.1, this.2.trans ((hr2.2.trans hre.2).trans hr1.2)⟩
    · rw [if_neg hcan]
      exact sAnchors_EB hrec name orient ar ac st rest h

theorem sOrients_EB {recur : SearchState → Bool × SearchState}
    (hrec : ∀ st, EB st → EB (recur st).2 ∧ (recur st).2.maxSteps = st.maxSteps)
    (name : String) (ar ac : Int) :
    ∀ (st : SearchState) (orients : List (List Cell)), EB st →
      EB (sOrients recur name ar ac st orients).2 ∧
      (sOrients recur name ar ac st orients).2.maxSteps = st.maxSteps
  | st, [], h => ⟨h, rfl⟩
  | st, orient :: rest, h => by
    rw [sOrients]
    have ha := sAnchors_EB hrec name orient ar ac st orient h
    cases hres : sAnchors recur name orient ar ac st orient with
    | mk b st' =>
      rw [hres] at ha
      cases b with
      | true => exact ⟨ha.1, ha.2⟩
      | false =>
        simp only
        have := sOrients_EB hrec name ar ac st' rest ha.1
        exact ⟨this.1, this.2.trans ha.2⟩

theorem sNames_EB {recur : SearchState → Bool × SearchState}
    (hrec : ∀ st, EB st → EB (recur st).2 ∧ (recur st).2.maxSteps = st.maxSteps)
    (ar ac : Int) :
    ∀ (st : SearchState) (names : List String), EB st →
      EB (sNames recur ar ac st names).2 ∧
      (sNames recur ar ac st names).2.maxSteps = st.maxSteps
  | st, [], h => ⟨h, rfl⟩
  | st, name :: rest, h => by
    rw [sNames]
    by_cases hu : name ∈ st.used
    · rw [if_pos hu]
      exact sNames_EB hrec ar ac st rest h
    · rw [if_neg hu]
      have ho := sOrients_EB hrec name ar ac st (orientationsOf name) h
      cases hres : sOrients recur name ar ac st (orientationsOf name) with
      | mk b st' =>
        rw [hres] at ho
        cases b with
        | true => exact ⟨ho.1, ho.2⟩
        | false =>
          simp only
          have := sNames_EB hrec ar ac st' rest ho.1
          exact ⟨this.1, this.2.trans ho.2⟩

theorem search_EB : ∀ (fuel : Nat) (st : SearchState), EB st →
    EB (SearchState.search fuel st).2 ∧
    (SearchState.search fuel st).2.maxSteps = st.maxSteps := by
  intro fuel
  induction fuel with
  | zero => intro st h; exact ⟨h, rfl⟩
  | succ f ih =>
    intro st h
    rw [SearchState.search_succ]
    unfold searchBody
    by_cases hc : st.maxSteps ≤ st.events.length
    · rw [if_pos hc]
      exact ⟨h, rfl⟩
    · rw [if_neg hc]
      cases st.firstEmpty with
      | none => exact ⟨h, rfl⟩
      | some ac => exact sNames_EB ih ac.1 ac.2 st sortedPieceNames h

/-- C10: the recorder's event stream is bounded by `max_steps`: `record`
never appends at the cap (and returns with the state unchanged), it preserves
the bound below the cap, `search` halts immediately with the state unchanged
once the cap is reached, `search` preserves the bound, and a full run from a
fresh `SearchState` ends with at most `max_steps` events. -/
theorem claimC10 (st : SearchState) (op : String) (p : Placement) (f : Nat) :
    (st.maxSteps ≤ st.events.length → st.record op p = (true, st)) ∧
    (EB st → (st.record op p).2.events.length ≤ st.maxSteps) ∧
    (st.maxSteps ≤ st.events.length → SearchState.search (f + 1) st = (true, st)) ∧
    (EB st → (SearchState.search f st).2.events.length ≤ st.maxSteps) ∧
    (∀ rows cols ms : Nat,
      (SearchState.search (sortedPieceNames.length + 1)
          (mkSearchState rows cols ms)).2.events.length ≤ ms) := by
  refine ⟨?_, ?_, ?_, ?_, ?_⟩
  · intro h
    unfold SearchState.record
    rw [if_pos h]
  · intro h
    have := (@record_EB _ op p h)
    unfold EB at this
    rw [this.2] at this
    exact this.1
  · intro h
    rw [SearchState.search_succ]
    unfold searchBody
    rw [if_pos h]
  · intro h
    have := search_EB f st h
    unfold EB at this
    rw [this.2] at this
    exact this.1
  · intro rows cols ms
    have h0 : EB (mkSearchState rows cols ms) := by
      unfold EB mkSearchState
      simp
    have := search_EB (sortedPieceNames.length + 1) (mkSearchState rows cols ms) h0
    unfold EB at this
    rw [this.2] at this
    exact this.1

/-- A capped state used to witness C10 concretely. -/
def c10st : SearchState :=
  { rows := 1, cols := 5, maxSteps := 0
    board := fun _ => none, used := [], events := [] }

/-- Witness for C10: with `max_steps = 0` both `record` and `search` return
immediately with the state unchanged. -/
theorem claimC10_witness :
    SearchState.record c10st ("place") (("I"), [(0,0),(0,1),(0,2),(0,3),(0,4)]) =
      (true, c10st) ∧
    SearchState.search 1 c10st = (true, c10st) :=
  ⟨(claimC10 c10st ("place") (("I"), [(0,0),(0,1),(0,2),(0,3),(0,4)]) 0).1 (by decide),
   (claimC10 c10st ("place") (("I"), [(0,0),(0,1),(0,2),(0,3),(0,4)]) 0).2.2.1 (by decide)⟩

/-! ### `has_only_five_multiple_void_regions` (`manim/rect_6x10_dfs_tree.py`)

Flood fill of the free cells (inside the mask, not filled) into 4-connected
components; reject when a component's size is not a multiple of 5.  Python's
string cell keys (`"r,c"`) are injective images of cells and are modelled by
the cells themselves; the `allowed_keys`/`filled_keys` sets by lists used
through membership. -/

/-- Bounds check of the flood fill's neighbor loop. -/
def inBounds (rows cols : Int) (rc : Cell) : Bool :=
  decide (0 ≤ rc.1) && decide (rc.1 < rows) && decide (0 ≤ rc.2) && decide (rc.2 < cols)

/-- The 4-neighbor deltas, in the source's order. -/
def deltas : List Cell := [(-1, 0), (1, 0), (0, -1), (0, 1)]

/-- A free cell for a given mask and filled set: in bounds, allowed, not
filled.  (This is the set the flood fill explores.) -/
def freeCell (rows cols : Int) (allowed filled : List Cell) (n : Cell) : Prop :=
  inBounds rows cols n = true ∧ n ∈ allowed ∧ n ∉ filled

/-- 4-adjacency. -/
def adj (a b : Cell) : Prop := ∃ d ∈ deltas, b = (a.1 + d.1, a.2 + d.2)

/-- Every free neighbor of `x` is already in `v`. -/
def ClosedAt (rows cols : Int) (allowed filled : List Cell) (v : List Cell) (x : Cell) :
    Prop :=
  ∀ b, adj x b → freeCell rows cols allowed filled b → b ∈ v

/-- The neighbor loop of one flood-fill iteration: pushes each in-bounds,
allowed, unfilled, unvisited neighbor and marks it visited. -/
def floodNeighbors (rows cols : Int) (allowed filled : List Cell) (cur : Cell) :
    List Cell → List Cell → List Cell → List Cell × List Cell
  | [], stack, visited => (stack, visited)
  | d :: ds, stack, visited =>
    if inBounds rows cols (cur.1 + d.1, cur.2 + d.2) = true then
      if (cur.1 + d.1, cur.2 + d.2) ∈ allowed ∧ (cur.1 + d.1, cur.2 + d.2) ∉ filled ∧
          (cur.1 + d.1, cur.2 + d.2) ∉ visited then
        floodNeighbors rows cols allowed filled cur ds
          ((cur.1 + d.1, cur.2 + d.2) :: stack) ((cur.1 + d.1, cur.2 + d.2) :: visited)
      else floodNeighbors rows cols allowed filled cur ds stack visited
    else floodNeighbors rows cols allowed filled cur ds stack visited

/-- The `while stack:` loop, with fuel (the loop terminates because every push
marks a fresh cell visited; the caller supplies enough fuel, which
`floodLoop_spec` certifies). -/
def floodLoop (rows cols : Int) (allowed filled : List Cell) :
    Nat → List Cell → List Cell → Nat → List Cell × Nat
  | 0, _, visited, size => (visited, size)
  | _ + 1, [], visited, size => (visited, size)
  | f + 1, cur :: stack, visited, size =>
    match floodNeighbors rows cols allowed filled cur deltas stack visited with
    | (stack', visited') =>
      floodLoop rows cols allowed filled f stack' visited' (size + 1)

/-- The outer loop over `sorted_mask`: start a flood at each unfilled,
unvisited mask cell and check the component size. -/
def hofLoop (rows cols : Int) (allowed filled : List Cell) :
    List Cell → List Cell → Bool
  | [], _ => true
  | rc :: ms, visited =>
    if rc ∈ filled ∨ rc ∈ visited then hofLoop rows cols allowed filled ms visited
    else
      match floodLoop rows cols allowed filled (allowed.length + 2) [rc] (rc :: visited) 0
        with
      | (v', sz) =>
        if sz % 5 = 0 then hofLoop rows cols allowed filled ms v'
        else false

/-- `has_only_five_multiple_void_regions`. -/
def has_only_five_multiple_void_regions (rows cols : Int)
    (allowed sorted_mask filled : List Cell) : Bool :=
  hofLoop rows cols allowed filled sorted_mask []

theorem floodNeighbors_spec (rows cols : Int) (allowed filled : List Cell) (cur : Cell) :
    ∀ (ds stack visited : List Cell), (∀ x ∈ stack, x ∈ visited) →
    ∃ P : List Cell,
      (floodNeighbors rows cols allowed filled cur ds stack visited).1 = P ++ stack ∧
      (floodNeighbors rows cols allowed filled cur ds stack visited).2 = P ++ visited ∧
      P.Nodup ∧
      (∀ x ∈ P, freeCell rows cols allowed filled x ∧ x ∉ visited) ∧
      (∀ d ∈ ds, freeCell rows cols allowed filled (cur.1 + d.1, cur.2 + d.2) →
        (cur.1 + d.1, cur.2 + d.2) ∈ P ++ visited)
  | [], stack, visited, _ => ⟨[], rfl, rfl, List.nodup_nil, by simp, by simp⟩
  | d :: ds, stack, visited, hsv => by
    rw [floodNeighbors]
    by_cases hbnd : inBounds rows cols (cur.1 + d.1, cur.2 + d.2) = true
    · rw [if_pos hbnd]
      by_cases hc : (cur.1 + d.1, cur.2 + d.2) ∈ allowed ∧
          (cur.1 + d.1, cur.2 + d.2) ∉ filled ∧ (cur.1 + d.1, cur.2 + d.2) ∉ visited
      · rw [if_pos hc]
        obtain ⟨P, h1, h2, h3, h4, h5⟩ :=
          floodNeighbors_spec rows cols allowed filled cur ds
            ((cur.1 + d.1, cur.2 + d.2) :: stack) ((cur.1 + d.1, cur.2 + d.2) :: visited)
            (by
              intro x hx
              rcases List.mem_cons.mp hx with h | h
              · exact List.mem_cons.mpr (Or.inl h)
              · exact List.mem_cons.mpr (Or.inr (hsv x h)))
        refine ⟨P ++ [(cur.1 + d.1, cur.2 + d.2)], by simpa using h1, by simpa using h2,
          ?_, ?_, ?_⟩
        · rw [List.nodup_append]
          refine ⟨h3, by simp, ?_⟩
          intro x hx
          simp only [List.mem_singleton]
          intro hx2
          subst hx2
          exact (h4 _ hx).2 (List.mem_cons_self _ _)
        · intro x hx
          rcases List.mem_append.mp hx with h | h
          · have := h4 x h
            refine ⟨this.1, ?_⟩
            intro hv
            exact this.2 (List.mem_cons_of_mem _ hv)
          · simp at h
            subst h
            exact ⟨⟨hbnd, hc.1, hc.2.1⟩, hc.2.2⟩
        · intro d' hd' hfree
          rcases List.mem_cons.mp hd' with h | h
          · subst h
            simp
          · have := h5 d' h hfree
            rcases List.mem_append.mp this with h2 | h2
            · exact List.mem_append.mpr (Or.inl (List.mem_append.mpr (Or.inl h2)))
            · rcases List.mem_cons.mp h2 with h3 | h3
              · rw [h3]
                simp
              · exact List.mem_append.mpr (Or.inr h3)
      · rw [if_neg hc]
        obtain ⟨P, h1, h2, h3, h4, h5⟩ :=
          floodNeighbors_spec rows cols allowed filled cur ds stack visited hsv
        refine ⟨P, h1, h2, h3, h4, ?_⟩
        intro d' hd' hfree
        rcases List.mem_cons.mp hd' with h | h
        · subst h
          push_neg at hc
          have hvis : (cur.1 + d'.1, cur.2 + d'.2) ∈ visited :=
            hc hfree.2.1 hfree.2.2
          exact List.mem_append.mpr (Or.inr hvis)
        · exact h5 d' h hfree
    · rw [if_neg hbnd]
      obtain ⟨P, h1, h2, h3, h4, h5⟩ :=
        floodNeighbors_spec rows cols allowed filled cur ds stack visited hsv
      refine ⟨P, h1, h2, h3, h4, ?_⟩
      intro d' hd' hfree
      rcases List.mem_cons.mp hd' with h | h
      · subst h
        exact absurd hfree.1 hbnd
      · exact h5 d' h hfree

theorem filter_not_mem_cons_lt {allowed visited : List Cell} {x : Cell}
    (hx : x ∈ allowed) (hv : x ∉ visited) :
    (allowed.filter (fun a => decide (a ∉ x :: visited))).length <
      (allowed.filter (fun a => decide (a ∉ visited))).length := by
  have heq : allowed.filter (fun a => decide (a ∉ x :: visited)) =
      (allowed.filter (fun a => decide (a ∉ visited))).filter (fun a => decide (a ≠ x)) := by
    rw [List.filter_filter]
    apply List.filter_congr
    intro a _
    by_cases h1 : a = x
    · subst h1
      simp
    · by_cases h2 : a ∈ visited <;> simp [h1, h2]
  rw [heq]
  have hmem : x ∈ allowed.filter (fun a => decide (a ∉ visited)) :=
    List.mem_filter.mpr ⟨hx, by simpa using hv⟩
  refine List.length_filter_lt_length_iff_exists.mpr ⟨x, hmem, by simp⟩

theorem filter_not_mem_append_le {allowed visited : List Cell} :
    ∀ {P : List Cell}, P.Nodup → (∀ x ∈ P, x ∈ allowed ∧ x ∉ visited) →
    (allowed.filter (fun a => decide (a ∉ P ++ visited))).length + P.length ≤
      (allowed.filter (fun a => decide (a ∉ visited))).length
  | [], _, _ => by simp
  | x :: P', hnd, hPa => by
    have hx := hPa x (List.mem_cons_self _ _)
    have hih := @filter_not_mem_append_le _ visited P'
      (List.nodup_cons.mp hnd).2 (fun y hy => hPa y (List.mem_cons_of_mem _ hy))
    have hlt : (allowed.filter (fun a => decide (a ∉ x :: (P' ++ visited)))).length <
        (allowed.filter (fun a => decide (a ∉ P' ++ visited))).length := by
      refine filter_not_mem_cons_lt hx.1 ?_
      intro hc
      rcases List.mem_append.mp hc with h | h
      · exact (List.nodup_cons.mp hnd).1 h
      · exact hx.2 h
    have hshape : (x :: P') ++ visited = x :: (P' ++ visited) := rfl
    rw [hshape]
    simp only [List.length_cons]
    omega

theorem floodLoop_spec (rows cols : Int) (allowed filled : List Cell) :
    ∀ (fuel : Nat) (stack visited : List Cell) (size : Nat),
      stack.length + (allowed.filter (fun a => decide (a ∉ visited))).length < fuel →
      stack.Nodup → (∀ x ∈ stack, x ∈ visited) → visited.Nodup →
      (∀ x ∈ visited, x ∉ stack → ClosedAt rows cols allowed filled visited x) →
      ∃ S : List Cell,
        (floodLoop rows cols allowed filled fuel stack visited size).1 = S ++ visited ∧
        S.Nodup ∧ (∀ x ∈ S, freeCell rows cols allowed filled x ∧ x ∉ visited) ∧
        (floodLoop rows cols allowed filled fuel stack visited size).2 =
          size + stack.length + S.length ∧
        (∀ x ∈ S ++ visited, ClosedAt rows cols allowed filled (S ++ visited) x) := by
  intro fuel
  induction fuel with
  | zero =>
    intro stack visited size hm
    omega
  | succ f ih =>
    intro stack visited size hm hsnd hsv hvnd hcl
    cases stack with
    | nil =>
      refine ⟨[], rfl, List.nodup_nil, by simp, by simp [floodLoop], ?_⟩
      intro x hx
      exact hcl x (by simpa using hx) (List.not_mem_nil _)
    | cons cur stack =>
      rw [floodLoop]
      obtain ⟨P, hp1, hp2, hpnd, hpfree, hpnb⟩ :=
        floodNeighbors_spec rows cols allowed filled cur deltas stack visited
          (fun x hx => hsv x (List.mem_cons_of_mem _ hx))
      cases hfn : floodNeighbors rows cols allowed filled cur deltas stack visited with
      | mk stack1 visited1 =>
        rw [hfn] at hp1 hp2
        simp only at hp1 hp2
        subst hp1
        subst hp2
        have hcnt := @filter_not_mem_append_le allowed visited _
          hpnd (fun x hx => ⟨(hpfree x hx).1.2.1, (hpfree x hx).2⟩)
        obtain ⟨S', hs1, hs2, hs3, hs4, hs5⟩ := ih (P ++ stack) (P ++ visited) (size + 1)
          (by
            simp only [List.length_append]
            simp only [List.length_cons] at hm
            omega)
          (by
            rw [List.nodup_append]
            refine ⟨hpnd, (List.nodup_cons.mp hsnd).2, ?_⟩
            intro x hx hx2
            exact (hpfree x hx).2 (hsv x (List.mem_cons_of_mem _ hx2)))
          (by
            intro x hx
            rcases List.mem_append.mp hx with h | h
            · exact List.mem_append.mpr (Or.inl h)
            · exact List.mem_append.mpr (Or.inr (hsv x (List.mem_cons_of_mem _ h))))
          (by
            rw [List.nodup_append]
            refine ⟨hpnd, hvnd, ?_⟩
            intro x hx hx2
            exact (hpfree x hx).2 hx2)
          (by
            intro x hx hnx
            rcases List.mem_append.mp hx with h | h
            · exact absurd (List.mem_append.mpr (Or.inl h)) hnx
            · by_cases hxc : x = cur
              · subst hxc
                intro b hadj hfree
                rcases hadj with ⟨d, hd, hb⟩
                subst hb
                exact hpnb d hd hfree
              · have hx0 : x ∉ cur :: stack := by
                  intro hc
                  rcases List.mem_cons.mp hc with h2 | h2
                  · exact hxc h2
                  · exact hnx (List.mem_append.mpr (Or.inr h2))
                intro b hadj hfree
                exact List.mem_append.mpr (Or.inr (hcl x h hx0 b hadj hfree)))
        refine ⟨S' ++ P, ?_, ?_, ?_, ?_, ?_⟩
        · rw [hs1, List.append_assoc]
        · rw [List.nodup_append]
          refine ⟨hs2, hpnd, ?_⟩
          intro x hx hx2
          exact (hs3 x hx).2 (List.mem_append.mpr (Or.inl hx2))
        · intro x hx
          rcases List.mem_append.mp hx with h | h
          · have := hs3 x h
            refine ⟨this.1, ?_⟩
            intro hv
            exact this.2 (List.mem_append.mpr (Or.inr hv))
          · exact hpfree x h
        · rw [hs4]
          simp only [List.length_append, List.length_cons]
          omega
        · intro x hx
          rw [List.append_assoc] at hx ⊢
          exact hs5 x hx

/-- Reachability within a set of cells by 4-adjacent steps. -/
inductive ReachIn (P : Cell → Prop) : Cell → Cell → Prop
  | refl : ∀ x, P x → ReachIn P x x
  | step : ∀ {x y z}, ReachIn P x y → adj y z → P z → ReachIn P x z

theorem ReachIn.left_mem {P : Cell → Prop} {x y : Cell} (h : ReachIn P x y) : P x := by
  induction h with
  | refl hx => exact hx
  | step _ _ _ ih => exact ih

theorem ReachIn.right_mem {P : Cell → Prop} {x y : Cell} (h : ReachIn P x y) : P y := by
  induction h with
  | refl hx => exact hx
  | step _ _ hz _ => exact hz

theorem adj_symm {a b : Cell} (h : adj a b) : adj b a := by
  rcases h with ⟨d, hd, hb⟩
  subst hb
  simp only [deltas, List.mem_cons, List.not_mem_nil, or_false] at hd
  rcases hd with h | h | h | h <;> subst h
  · exact ⟨(1, 0), by simp [deltas], by simp⟩
  · exact ⟨(-1, 0), by simp [deltas], by simp⟩
  · exact ⟨(0, 1), by simp [deltas], by simp⟩
  · exact ⟨(0, -1), by simp [deltas], by simp⟩

theorem ReachIn.cons_front {P : Cell → Prop} {z y x : Cell}
    (hz : P z) (hzy : adj z y) (h : ReachIn P y x) : ReachIn P z x := by
  induction h with
  | refl hw => exact ReachIn.step (ReachIn.refl z hz) hzy hw
  | step _ hadj hw ih => exact ReachIn.step ih hadj hw

theorem ReachIn.symm {P : Cell → Prop} {x y : Cell} (h : ReachIn P x y) :
    ReachIn P y x := by
  induction h with
  | refl hw => exact ReachIn.refl _ hw
  | step hxy hadj hz ih => exact ReachIn.cons_front hz (adj_symm hadj) ih

theorem ReachIn.trans {P : Cell → Prop} {x y z : Cell}
    (h1 : ReachIn P x y) (h2 : ReachIn P y z) : ReachIn P x z := by
  induction h2 with
  | refl _ => exact h1
  | step _ hadj hw ih => exact ReachIn.step ih hadj hw

/-- Decidable 4-adjacency used by the executable connectivity check. -/
def adjB (a b : Cell) : Bool :=
  decide ((a.1 - b.1).natAbs + (a.2 - b.2).natAbs = 1)

theorem adjB_adj {a b : Cell} (h : adjB a b = true) : adj a b := by
  unfold adjB at h
  rw [decide_eq_true_eq] at h
  have hcase : (b.1 = a.1 - 1 ∧ b.2 = a.2) ∨ (b.1 = a.1 + 1 ∧ b.2 = a.2) ∨
      (b.1 = a.1 ∧ b.2 = a.2 - 1) ∨ (b.1 = a.1 ∧ b.2 = a.2 + 1) := by omega
  rcases hcase with ⟨h1, h2⟩ | ⟨h1, h2⟩ | ⟨h1, h2⟩ | ⟨h1, h2⟩
  · exact ⟨(-1, 0), by simp [deltas], Prod.ext (by simp; omega) (by simp [h2])⟩
  · exact ⟨(1, 0), by simp [deltas], Prod.ext (by simp; omega) (by simp [h2])⟩
  · exact ⟨(0, -1), by simp [deltas], Prod.ext (by simp [h1]) (by simp; omega)⟩
  · exact ⟨(0, 1), by simp [deltas], Prod.ext (by simp [h1]) (by simp; omega)⟩

/-- One expansion step of the executable reachability closure. -/
def expand (o cur : List Cell) : List Cell :=
  cur ++ o.filter (fun c => decide (c ∉ cur) && cur.any (fun f => adjB f c))

/-- Iterated expansion from the first cell. -/
def reachList (o : List Cell) : Nat → List Cell
  | 0 => o.take 1
  | k + 1 => expand o (reachList o k)

/-- Executable connectivity check of a piece orientation. -/
def connectedB (o : List Cell) : Bool :=
  o.all (fun c => c ∈ reachList o o.length)

theorem reachList_sound {a : Cell} {t : List Cell} :
    ∀ (k : Nat) (c : Cell), c ∈ reachList (a :: t) k →
      ReachIn (fun x => x ∈ a :: t) a c
  | 0, c, hc => by
    simp only [reachList] at hc
    have ht : (a :: t).take 1 = [a] := rfl
    rw [ht] at hc
    simp at hc
    subst hc
    exact ReachIn.refl c (List.mem_cons_self _ _)
  | k + 1, c, hc => by
    unfold reachList expand at hc
    rcases List.mem_append.mp hc with h | h
    · exact reachList_sound k c h
    · have hmem := List.mem_filter.mp h
      have h2 := hmem.2
      rw [Bool.and_eq_true] at h2
      rcases List.any_eq_true.mp h2.2 with ⟨f, hf, hadj⟩
      exact ReachIn.step (reachList_sound k f hf) (adjB_adj hadj)
        hmem.1

/-- All stored orientations are 4-connected, five cells, no duplicates. -/
theorem orientationsOf_conn5 :
    ∀ n ∈ sortedPieceNames, ∀ o ∈ orientationsOf n,
      connectedB o = true ∧ o.length = 5 := by decide

theorem connectedB_reach : ∀ {o : List Cell}, connectedB o = true →
    ∀ x ∈ o, ∀ y ∈ o, ReachIn (fun c => c ∈ o) x y := by
  intro o
  match o with
  | [] => intro _ x hx; cases hx
  | a :: t =>
    intro hconn x hx y hy
    have hall := List.all_eq_true.mp hconn
    have hxr : ReachIn (fun c => c ∈ a :: t) a x :=
      reachList_sound _ x (by simpa using hall x hx)
    have hyr : ReachIn (fun c => c ∈ a :: t) a y :=
      reachList_sound _ y (by simpa using hall y hy)
    exact ReachIn.trans (ReachIn.symm hxr) hyr

theorem adj_shift {a b d : Cell} (h : adj a b) :
    adj (a.1 + d.1, a.2 + d.2) (b.1 + d.1, b.2 + d.2) := by
  rcases h with ⟨d0, hd0, hb⟩
  subst hb
  refine ⟨d0, hd0, ?_⟩
  exact Prod.ext (by simp; ring) (by simp; ring)

theorem ReachIn_shift {o : List Cell} (d : Cell) :
    ∀ {x y : Cell}, ReachIn (fun c => c ∈ o) x y →
    ReachIn (fun c => c ∈ o.map (fun p => (p.1 + d.1, p.2 + d.2)))
      (x.1 + d.1, x.2 + d.2) (y.1 + d.1, y.2 + d.2) := by
  intro x y h
  induction h with
  | refl hx =>
    exact ReachIn.refl _ (List.mem_map.mpr ⟨_, hx, rfl⟩)
  | step _ hadj hz ih =>
    exact ReachIn.step ih (adj_shift hadj) (List.mem_map.mpr ⟨_, hz, rfl⟩)

/-- Walking a path of free cells cannot leave a closed visited set. -/
theorem ReachIn_transport {rows cols : Int} {allowed filled : List Cell}
    {v : List Cell} {P : Cell → Prop}
    (hcl : ∀ w ∈ v, ClosedAt rows cols allowed filled v w)
    (hfree : ∀ c, P c → freeCell rows cols allowed filled c) :
    ∀ {x y : Cell}, x ∈ v → ReachIn P x y → y ∈ v := by
  intro x y hx h
  induction h with
  | refl _ => exact hx
  | step _ hadj hz ih => exact hcl _ ih _ hadj (hfree _ hz)

/-- A connected set of free cells meeting the fresh region of a flood is
contained in it: it stays inside the closed final visited set and cannot
touch the previously closed visited set. -/
theorem piece_trapped {rows cols : Int} {allowed filled : List Cell}
    {v' V : List Cell} {cells : List Cell} {x0 : Cell}
    (hclosedv : ∀ w ∈ v', ClosedAt rows cols allowed filled v' w)
    (hclosedV : ∀ w ∈ V, ClosedAt rows cols allowed filled V w)
    (hfree : ∀ c ∈ cells, freeCell rows cols allowed filled c)
    (hconn : ∀ x ∈ cells, ∀ y ∈ cells, ReachIn (fun c => c ∈ cells) x y)
    (hx : x0 ∈ cells) (hxv : x0 ∈ v') (hxV : x0 ∉ V) :
    ∀ y ∈ cells, y ∈ v' ∧ y ∉ V := by
  intro y hy
  constructor
  · exact ReachIn_transport hclosedv (fun c hc => hfree c hc) hxv (hconn x0 hx y hy)
  · intro hyV
    exact hxV (ReachIn_transport hclosedV (fun c hc => hfree c hc) hyV (hconn y hy x0 hx))

/-- Hypotheses on an exact cover of the free cells by placed pentominoes. -/
def CoverOf (rows cols : Int) (allowed filled : List Cell)
    (cover : List (String × List Cell)) : Prop :=
  (∀ pr ∈ cover, pr.1 ∈ sortedPieceNames ∧ ∃ o, o ∈ orientationsOf pr.1 ∧
      ∃ dd : Cell, pr.2 = o.map (fun p => (p.1 + dd.1, p.2 + dd.2))) ∧
  cover.Pairwise (fun a b => a.2.Disjoint b.2) ∧
  (∀ pr ∈ cover, ∀ x ∈ pr.2, freeCell rows cols allowed filled x) ∧
  (∀ x, freeCell rows cols allowed filled x → ∃ pr ∈ cover, x ∈ pr.2)

theorem cover_piece_props {rows cols : Int} {allowed filled : List Cell}
    {cover : List (String × List Cell)}
    (hc : CoverOf rows cols allowed filled cover) :
    ∀ pr ∈ cover, pr.2.Nodup ∧ pr.2.length = 5 ∧
      (∀ x ∈ pr.2, ∀ y ∈ pr.2, ReachIn (fun c => c ∈ pr.2) x y) := by
  intro pr hpr
  obtain ⟨hn, o, ho, dd, hshape⟩ := hc.1 pr hpr
  have hconn5 := orientationsOf_conn5 pr.1 hn o ho
  have hnodup := orientationsOf_nodup pr.1 hn o ho
  refine ⟨?_, ?_, ?_⟩
  · rw [hshape]
    exact shifted_nodup hnodup _ _
  · rw [hshape, List.length_map]
    exact hconn5.2
  · rw [hshape]
    intro x hx y hy
    rcases List.mem_map.mp hx with ⟨x0, hx0, rfl⟩
    rcases List.mem_map.mp hy with ⟨y0, hy0, rfl⟩
    exact ReachIn_shift dd (connectedB_reach hconn5.1 x0 hx0 y0 hy0)

/-- Counting: a region that is a disjoint union of 5-cell pieces has size a
multiple of 5. -/
theorem region_cover_mod5 {rows cols : Int} {allowed filled : List Cell}
    {cover : List (String × List Cell)} {V R : List Cell}
    (hc : CoverOf rows cols allowed filled cover)
    (hclosedv : ∀ w ∈ R ++ V, ClosedAt rows cols allowed filled (R ++ V) w)
    (hclosedV : ∀ w ∈ V, ClosedAt rows cols allowed filled V w)
    (hRnd : R.Nodup) (hRfree : ∀ x ∈ R, freeCell rows cols allowed filled x)
    (hRV : ∀ x ∈ R, x ∉ V) :
    R.length % 5 = 0 := by
  classical
  set inside := cover.filter (fun pr => pr.2.any (fun x => decide (x ∈ R))) with hins
  have htrap : ∀ pr ∈ inside, ∀ y ∈ pr.2, y ∈ R := by
    intro pr hpr y hy
    have hmem := List.mem_filter.mp hpr
    rcases List.any_eq_true.mp hmem.2 with ⟨x0, hx0, hx0R⟩
    rw [decide_eq_true_eq] at hx0R
    have hprops := cover_piece_props hc pr hmem.1
    have := piece_trapped hclosedv hclosedV (hc.2.2.1 pr hmem.1) hprops.2.2
      hx0 (List.mem_append.mpr (Or.inl hx0R)) (hRV x0 hx0R) y hy
    rcases List.mem_append.mp this.1 with h | h
    · exact h
    · exact absurd h this.2
  have hmemeq : ∀ x, x ∈ R ↔ x ∈ (inside.map Prod.snd).flatten := by
    intro x
    constructor
    · intro hx
      rcases hc.2.2.2 x (hRfree x hx) with ⟨pr, hpr, hxpr⟩
      have hmem : pr ∈ inside :=
        List.mem_filter.mpr ⟨hpr, List.any_eq_true.mpr ⟨x, hxpr, by simpa using hx⟩⟩
      exact List.mem_flatten.mpr ⟨pr.2, List.mem_map.mpr ⟨pr, hmem, rfl⟩, hxpr⟩
    · intro hx
      rcases List.mem_flatten.mp hx with ⟨l, hl, hxl⟩
      rcases List.mem_map.mp hl with ⟨pr, hpr, rfl⟩
      exact htrap pr hpr x hxl
  have hflnd : (inside.map Prod.snd).flatten.Nodup := by
    rw [List.nodup_flatten]
    constructor
    · intro l hl
      rcases List.mem_map.mp hl with ⟨pr, hpr, rfl⟩
      exact (cover_piece_props hc pr (List.mem_filter.mp hpr).1).1
    · rw [List.pairwise_map]
      exact (hc.2.1.filter _)
  have hperm : R.Perm (inside.map Prod.snd).flatten :=
    (List.perm_ext_iff_of_nodup hRnd hflnd).mpr hmemeq
  rw [hperm.length_eq]
  have hlen : ((inside.map Prod.snd).map List.length) =
      List.replicate inside.length 5 := by
    rw [List.map_map]
    rw [List.eq_replicate_iff]
    constructor
    · simp
    · intro b hb
      rcases List.mem_map.mp hb with ⟨pr, hpr, rfl⟩
      exact (cover_piece_props hc pr (List.mem_filter.mp hpr).1).2.1
  rw [List.length_flatten, hlen]
  simp [List.sum_replicate, Nat.mul_mod_right]

theorem hofLoop_sound (rows cols : Int) (allowed filled : List Cell)
    (cover : List (String × List Cell))
    (hc : CoverOf rows cols allowed filled cover) :
    ∀ (ms visited : List Cell),
      (∀ x ∈ ms, x ∈ allowed ∧ inBounds rows cols x = true) →
      visited.Nodup →
      (∀ x ∈ visited, freeCell rows cols allowed filled x) →
      (∀ x ∈ visited, ClosedAt rows cols allowed filled visited x) →
      hofLoop rows cols allowed filled ms visited = true
  | [], _, _, _, _, _ => rfl
  | rc :: ms, visited, hms, hvnd, hvfree, hvcl => by
    rw [hofLoop]
    by_cases hskip : rc ∈ filled ∨ rc ∈ visited
    · rw [if_pos hskip]
      exact hofLoop_sound rows cols allowed filled cover hc ms visited
        (fun x hx => hms x (List.mem_cons_of_mem _ hx)) hvnd hvfree hvcl
    · rw [if_neg hskip]
      push_neg at hskip
      have hrcfree : freeCell rows cols allowed filled rc :=
        ⟨(hms rc (List.mem_cons_self _ _)).2, (hms rc (List.mem_cons_self _ _)).1, hskip.1⟩
      obtain ⟨S, hs1, hs2, hs3, hs4, hs5⟩ :=
        floodLoop_spec rows cols allowed filled (allowed.length + 2) [rc] (rc :: visited) 0
          (by
            have : (allowed.filter (fun a => decide (a ∉ rc :: visited))).length ≤
                allowed.length := List.length_filter_le _ _
            simp only [List.length_cons, List.length_nil]
            omega)
          (List.nodup_singleton _)
          (by intro x hx; simp at hx; subst hx; exact List.mem_cons_self _ _)
          (List.nodup_cons.mpr ⟨hskip.2, hvnd⟩)
          (by
            intro x hx hnx
            rcases List.mem_cons.mp hx with h | h
            · exact absurd (h ▸ List.mem_singleton_self _) hnx
            · intro b hadj hfree
              exact List.mem_cons_of_mem _ (hvcl x h b hadj hfree))
      cases hfl : floodLoop rows cols allowed filled (allowed.length + 2) [rc]
          (rc :: visited) 0 with
      | mk v' sz =>
        rw [hfl] at hs1 hs4
        simp only at hs1 hs4
        have hshape : S ++ rc :: visited = (S ++ [rc]) ++ visited := by
          rw [List.append_assoc]
          rfl
        have hmod : (S ++ [rc]).length % 5 = 0 := by
          refine region_cover_mod5 hc ?_ hvcl ?_ ?_ ?_
          · rw [← hshape]
            exact hs5
          · rw [List.nodup_append]
            refine ⟨hs2, List.nodup_singleton _, ?_⟩
            intro x hx
            simp only [List.mem_singleton]
            intro hx2
            subst hx2
            exact (hs3 _ hx).2 (List.mem_cons_self _ _)
          · intro x hx
            rcases List.mem_append.mp hx with h | h
            · exact (hs3 x h).1
            · simp at h
              subst h
              exact hrcfree
          · intro x hx hxV
            rcases List.mem_append.mp hx with h | h
            · exact (hs3 x h).2 (List.mem_cons_of_mem _ hxV)
            · simp at h
              subst h
              exact hskip.2 hxV
        have hszmod : sz % 5 = 0 := by
          rw [hs4]
          simp only [List.length_append, List.length_singleton, List.length_nil,
            List.length_cons] at hmod ⊢
          omega
        dsimp only
        rw [if_pos hszmod]
        refine hofLoop_sound rows cols allowed filled cover hc ms v'
          (fun x hx => hms x (List.mem_cons_of_mem _ hx)) ?_ ?_ ?_
        · rw [hs1, hshape]
          rw [List.nodup_append]
          refine ⟨?_, hvnd, ?_⟩
          · rw [List.nodup_append]
            refine ⟨hs2, List.nodup_singleton _, ?_⟩
            intro x hx
            simp only [List.mem_singleton]
            intro hx2
            subst hx2
            exact (hs3 _ hx).2 (List.mem_cons_self _ _)
          · intro x hx hx2
            rcases List.mem_append.mp hx with h | h
            · exact (hs3 x h).2 (List.mem_cons_of_mem _ hx2)
            · simp at h
              subst h
              exact hskip.2 hx2
        · intro x hx
          rw [hs1] at hx
          rcases List.mem_append.mp hx with h | h
          · exact (hs3 x h).1
          · rcases List.mem_cons.mp h with h2 | h2
            · subst h2
              exact hrcfree
            · exact hvfree x h2
        · intro x hx
          rw [hs1] at hx ⊢
          exact hs5 x hx

/-- C2: the pruning oracle is sound.  If the free cells (mask minus filled)
admit an exact cover by translated pentomino orientations — in particular at
every board state along a true solution path — then
`has_only_five_multiple_void_regions` accepts the state. -/
theorem claimC2 (rows cols : Int) (mask filled : List Cell)
    (cover : List (String × List Cell))
    (hbounds : ∀ rc ∈ mask, inBounds rows cols rc = true)
    (hpieces : ∀ pr ∈ cover, pr.1 ∈ sortedPieceNames ∧ ∃ o, o ∈ orientationsOf pr.1 ∧
        ∃ dd : Cell, pr.2 = o.map (fun p => (p.1 + dd.1, p.2 + dd.2)))
    (hdisj : cover.Pairwise (fun a b => a.2.Disjoint b.2))
    (hsub : ∀ pr ∈ cover, ∀ x ∈ pr.2, x ∈ mask ∧ x ∉ filled)
    (hcov : ∀ x, x ∈ mask → x ∉ filled → ∃ pr ∈ cover, x ∈ pr.2) :
    has_only_five_multiple_void_regions rows cols mask (sortCells mask) filled = true := by
  unfold has_only_five_multiple_void_regions
  refine hofLoop_sound rows cols mask filled cover ?_ (sortCells mask) [] ?_
    List.nodup_nil (by intro x hx; cases hx) (by intro x hx; cases hx)
  · refine ⟨hpieces, hdisj, ?_, ?_⟩
    · intro pr hpr x hx
      have := hsub pr hpr x hx
      exact ⟨hbounds x this.1, this.1, this.2⟩
    · intro x hx
      exact hcov x hx.2.1 hx.2.2
  · intro x hx
    rw [sortCells_mem] at hx
    exact ⟨hx, hbounds x hx⟩

/-- Witness for C2: a 1x5 mask with nothing filled, covered by one placed
`I` pentomino, is accepted by the oracle. -/
theorem claimC2_witness :
    has_only_five_multiple_void_regions 1 5
      [((0:Int),(0:Int)),(0,1),(0,2),(0,3),(0,4)]
      (sortCells [((0:Int),(0:Int)),(0,1),(0,2),(0,3),(0,4)]) [] = true :=
  claimC2 1 5 [((0:Int),(0:Int)),(0,1),(0,2),(0,3),(0,4)] []
    [(("I"), [((0:Int),(0:Int)),(0,1),(0,2),(0,3),(0,4)])]
    (by decide)
    (by
      intro pr hpr
      simp only [List.mem_singleton] at hpr
      subst hpr
      refine ⟨by decide, [((0:Int),(0:Int)),(0,1),(0,2),(0,3),(0,4)], by decide,
        ((0 : Int), (0 : Int)), by decide⟩)
    (by simp)
    (by decide)
    (by decide)

/-- If the oracle accepts an empty filled set, the visited set grows through
regions of size `0 mod 5` until it exhausts the mask. -/
theorem hofLoop_true (rows cols : Int) (allowed : List Cell) :
    ∀ (ms visited : List Cell),
      (∀ x ∈ ms, x ∈ allowed) →
      visited.Nodup → (∀ x ∈ visited, x ∈ allowed) → visited.length % 5 = 0 →
      (∀ x ∈ visited, ClosedAt rows cols allowed [] visited x) →
      hofLoop rows cols allowed [] ms visited = true →
      ∃ vEnd : List Cell, vEnd.Nodup ∧ (∀ x ∈ vEnd, x ∈ allowed) ∧
        (∀ x ∈ visited, x ∈ vEnd) ∧ (∀ x ∈ ms, x ∈ vEnd) ∧ vEnd.length % 5 = 0
  | [], visited, _, hvnd, hva, hvm, _, _ =>
    ⟨visited, hvnd, hva, fun x hx => hx, fun x hx => absurd hx (List.not_mem_nil _), hvm⟩
  | rc :: ms, visited, hms, hvnd, hva, hvm, hvcl, htrue => by
    rw [hofLoop] at htrue
    by_cases hskip : rc ∈ ([] : List Cell) ∨ rc ∈ visited
    · rw [if_pos hskip] at htrue
      obtain ⟨vEnd, h1, h2, h3, h4, h5⟩ :=
        hofLoop_true rows cols allowed ms visited
          (fun x hx => hms x (List.mem_cons_of_mem _ hx)) hvnd hva hvm hvcl htrue
      refine ⟨vEnd, h1, h2, h3, ?_, h5⟩
      intro x hx
      rcases List.mem_cons.mp hx with h | h
      · subst h
        rcases hskip with h | h
        · cases h
        · exact h3 x h
      · exact h4 x h
    · rw [if_neg hskip] at htrue
      push_neg at hskip
      obtain ⟨S, hs1, hs2, hs3, hs4, hs5⟩ :=
        floodLoop_spec rows cols allowed [] (allowed.length + 2) [rc] (rc :: visited) 0
          (by
            have : (allowed.filter (fun a => decide (a ∉ rc :: visited))).length ≤
                allowed.length := List.length_filter_le _ _
            simp only [List.length_cons, List.length_nil]
            omega)
          (List.nodup_singleton _)
          (by intro x hx; simp at hx; subst hx; exact List.mem_cons_self _ _)
          (List.nodup_cons.mpr ⟨hskip.2, hvnd⟩)
          (by
            intro x hx hnx
            rcases List.mem_cons.mp hx with h | h
            · exact absurd (h ▸ List.mem_singleton_self _) hnx
            · intro b hadj hfree
              exact List.mem_cons_of_mem _ (hvcl x h b hadj hfree))
      cases hfl : floodLoop rows cols allowed [] (allowed.length + 2) [rc]
          (rc :: visited) 0 with
      | mk v' sz =>
        rw [hfl] at hs1 hs4 htrue
        simp only at hs1 hs4 htrue
        by_cases hszmod : sz % 5 = 0
        · rw [if_pos hszmod] at htrue
          obtain ⟨vEnd, h1, h2, h3, h4, h5⟩ :=
            hofLoop_true rows cols allowed ms v'
              (fun x hx => hms x (List.mem_cons_of_mem _ hx))
              (by
                rw [hs1]
                rw [List.nodup_append]
                refine ⟨hs2, List.nodup_cons.mpr ⟨hskip.2, hvnd⟩, ?_⟩
                intro x hx
                exact (hs3 x hx).2)
              (by
                intro x hx
                rw [hs1] at hx
                rcases List.mem_append.mp hx with h | h
                · exact (hs3 x h).1.2.1
                · rcases List.mem_cons.mp h with h2 | h2
                  · subst h2
                    exact hms x (List.mem_cons_self _ _)
                  · exact hva x h2)
              (by
                rw [hs1]
                simp only [List.length_append, List.length_cons, List.length_nil,
                  List.length_singleton] at hs4 ⊢
                omega)
              (by
                intro x hx
                rw [hs1] at hx ⊢
                exact hs5 x hx)
              htrue
          refine ⟨vEnd, h1, h2, ?_, ?_, h5⟩
          · intro x hx
            refine h3 x ?_
            rw [hs1]
            exact List.mem_append.mpr (Or.inr (List.mem_cons_of_mem _ hx))
          · intro x hx
            rcases List.mem_cons.mp hx with h | h
            · subst h
              refine h3 x ?_
              rw [hs1]
              exact List.mem_append.mpr (Or.inr (List.mem_cons_self _ _))
            · exact h4 x h
        · rw [if_neg hszmod] at htrue
          cases htrue

/-- Second half of C8: the oracle rejects the completely empty board of any
mask whose (distinct) cell count is not a multiple of 5. -/
theorem oracle_rejects_nonmultiple (rows cols : Int) (mask : List Cell)
    (hnd : mask.Nodup) (hmod : mask.length % 5 ≠ 0) :
    has_only_five_multiple_void_regions rows cols mask (sortCells mask) [] = false := by
  unfold has_only_five_multiple_void_regions
  by_cases h : hofLoop rows cols mask [] (sortCells mask) [] = true
  · exfalso
    obtain ⟨vEnd, h1, h2, _, h4, h5⟩ :=
      hofLoop_true rows cols mask (sortCells mask) []
        (fun x hx => sortCells_mem.mp hx) List.nodup_nil
        (by intro x hx; cases hx) (by simp)
        (by intro x hx; cases hx) h
    have hperm : vEnd.Perm mask := by
      rw [List.perm_ext_iff_of_nodup h1 hnd]
      intro a
      constructor
      · intro ha
        exact h2 a ha
      · intro ha
        exact h4 a (sortCells_mem.mpr ha)
    rw [hperm.length_eq] at h5
    exact hmod h5
  · simpa using h

/-! ### `build_trace` (`manim/rect_6x10_dfs_tree.py`)

The display-bounded trace recorder.  Node identifiers are allocated
sequentially, so the node table is a list indexed by identifier.  Wall-clock
readings are modelled as `0`; the `--slice`/rendering layer is out of scope.
The `apply`/prune-check/`unapply` sandwich used to build the `attempts` list
leaves the state unchanged and is modelled as the pure computation of the
`passes` flag on the applied `filled` set. -/

/-- `DEFAULT_DISPLAY_DEPTH` from the source. -/
def DEFAULT_DISPLAY_DEPTH : Nat := 3

/-- `RIGHTMOST_BRANCH_DEPTH` from the source. -/
def RIGHTMOST_BRANCH_DEPTH : Nat := 12

/-- `Problem` from the source. -/
structure Problem where
  rows : Int
  cols : Int
  mask_cells : List Cell
  selected_pieces : List String

/-- Event kinds `"enter"` / `"exit"`. -/
inductive EvKind where
  | enter : EvKind
  | exit : EvKind
deriving DecidableEq

/-- `Event` from the source. -/
structure Event where
  kind : EvKind
  node_id : Nat
deriving DecidableEq

/-- `NodeData` from the source (elapsed-time fields carried as `0`). -/
structure NodeData where
  node_id : Nat
  parent_id : Option Nat
  depth : Nat
  board : List (Cell × String)
  pruned : Bool
  counterfactual : Bool
  rightmost_chain : Bool
  step_at_enter : Nat
  elapsed_ms_at_enter : Nat
  children : List Nat
  elapsed_ms : Option Nat
  explored_subnodes : Nat
deriving DecidableEq

/-- The default used for (never-failing) node-table lookups. -/
def dfltNode : NodeData :=
  { node_id := 0, parent_id := none, depth := 0, board := [], pruned := false
    counterfactual := false, rightmost_chain := false, step_at_enter := 0
    elapsed_ms_at_enter := 0, children := [], elapsed_ms := none
    explored_subnodes := 0 }

/-- `TraceResult` from the source. -/
structure TraceResult where
  nodes : List NodeData
  events : List Event
  total_steps : Nat
  total_elapsed_ms : Nat
  step_elapsed_ms : List Nat
deriving DecidableEq

/-- The closure state of `build_trace`. -/
structure TState where
  used : List String
  filled : List Cell
  board : List (Cell × String)
  nodes : List NodeData
  events : List Event
  nodeCounter : Nat
  stepElapsed : List Nat
deriving DecidableEq

/-- Update one node of the table. -/
def updateNode (nodes : List NodeData) (i : Nat) (f : NodeData → NodeData) :
    List NodeData :=
  match nodes.get? i with
  | some nd => nodes.set i (f nd)
  | none => nodes

/-- `create_node`: allocate the next id, snapshot the board, append the enter
event and register the child with its parent. -/
def createNode (parent_id : Option Nat) (depth : Nat) (pruned rightmost : Bool)
    (st : TState) : Nat × TState :=
  let nid := st.nodes.length
  let node : NodeData :=
    { node_id := nid, parent_id := parent_id, depth := depth, board := st.board
      pruned := pruned, counterfactual := false, rightmost_chain := rightmost
      step_at_enter := st.nodeCounter, elapsed_ms_at_enter := 0, children := []
      elapsed_ms := none, explored_subnodes := 0 }
  let nodes1 := st.nodes ++ [node]
  let nodes2 :=
    match parent_id with
    | none => nodes1
    | some p => updateNode nodes1 p (fun nd => { nd with children := nd.children ++ [nid] })
  (nid, { st with nodes := nodes2, events := st.events ++ [⟨EvKind.enter, nid⟩] })

/-- Set the exit-time fields of a display node and append its exit event. -/
def finalizeNode (st : TState) (i : Nat) (subtree : Nat) : TState :=
  { st with
    nodes := updateNode st.nodes i
      (fun nd => { nd with elapsed_ms := some 0, explored_subnodes := subtree - 1 })
    events := st.events ++ [⟨EvKind.exit, i⟩] }

/-- `first_empty` of the trace recorder: first mask cell (in sorted order) not
filled. -/
def firstEmptyT (pb : Problem) (st : TState) : Option Cell :=
  (sortCells pb.mask_cells).find? (fun rc => decide (rc ∉ st.filled))

/-- `can_place` of the trace recorder. -/
def canPlaceT (pb : Problem) (st : TState) (cells : List Cell) : Bool :=
  cells.all (fun rc => decide (rc ∈ pb.mask_cells) && decide (rc ∉ st.filled))

/-- `apply` of the trace recorder. -/
def applyT (st : TState) (name : String) (cells : List Cell) : TState :=
  { st with
    used := st.used.insert name
    filled := st.filled ++ cells
    board := st.board ++ cells.map (fun rc => (rc, name)) }

/-- `unapply` of the trace recorder. -/
def unapplyT (st : TState) (name : String) (cells : List Cell) : TState :=
  { st with
    used := st.used.erase name
    filled := st.filled.filter (fun rc => decide (rc ∉ cells))
    board := st.board.filter (fun pr => decide (pr.1 ∉ cells)) }

/-- Attempt kinds `"valid"` / `"pruned"`. -/
inductive AKind where
  | valid : AKind
  | pruned : AKind
deriving DecidableEq

/-- The `attempts` enumeration: every placement of an unused piece covering
the anchor, marked `pruned` when the oracle rejects the applied state. -/
def attemptsFor (pb : Problem) (ep : Bool) (st : TState) (ar ac : Int) :
    List (AKind × String × List Cell) :=
  pb.selected_pieces.flatMap (fun name =>
    if name ∈ st.used then []
    else (orientationsOf name).flatMap (fun orient =>
      orient.flatMap (fun c0 =>
        let shifted := orient.map (fun p => (p.1 + (ar - c0.1), p.2 + (ac - c0.2)))
        if canPlaceT pb st shifted then
          [((if (if ep then
                has_only_five_multiple_void_regions pb.rows pb.cols pb.mask_cells
                  (sortCells pb.mask_cells) ((applyT st name shifted).filled)
              else true) then AKind.valid else AKind.pruned), name, shifted)]
        else [])))

/-- Anchor loop of `solution_next_move.solve_first` (state restored on every
path, so the recursion is pure in the board). -/
def sfAnchors (pb : Problem) (ep : Bool)
    (recur : TState → Option Placement → Option Placement)
    (st : TState) (name : String) (orient : List Cell) (ar ac : Int)
    (firstMove : Option Placement) :
    List Cell → Option Placement
  | [] => none
  | c0 :: rest =>
    let shifted := orient.map (fun p => (p.1 + (ar - c0.1), p.2 + (ac - c0.2)))
    if canPlaceT pb st shifted then
      if (if ep then
            has_only_five_multiple_void_regions pb.rows pb.cols pb.mask_cells
              (sortCells pb.mask_cells) ((applyT st name shifted).filled)
          else true) then
        match recur (applyT st name shifted)
            (match firstMove with
             | some f => some f
             | none => some (name, shifted)) with
        | some got => some got
        | none => sfAnchors pb ep recur st name orient ar ac firstMove rest
      else sfAnchors pb ep recur st name orient ar ac firstMove rest
    else sfAnchors pb ep recur st name orient ar ac firstMove rest

/-- Orientation loop of `solve_first`. -/
def sfOrients (pb : Problem) (ep : Bool)
    (recur : TState → Option Placement → Option Placement)
    (st : TState) (name : String) (ar ac : Int) (firstMove : Option Placement) :
    List (List Cell) → Option Placement
  | [] => none
  | orient :: rest =>
    match sfAnchors pb ep recur st name orient ar ac firstMove orient with
    | some got => some got
    | none => sfOrients pb ep recur st name ar ac firstMove rest

/-- Piece loop of `solve_first`. -/
def sfNames (pb : Problem) (ep : Bool)
    (recur : TState → Option Placement → Option Placement)
    (st : TState) (ar ac : Int) (firstMove : Option Placement) :
    List String → Option Placement
  | [] => none
  | name :: rest =>
    if name ∈ st.used then sfNames pb ep recur st ar ac firstMove rest
    else
      match sfOrients pb ep recur st name ar ac firstMove (orientationsOf name) with
      | some got => some got
      | none => sfNames pb ep recur st ar ac firstMove rest

/-- One unfolding of `solve_first`. -/
def sfBody (pb : Problem) (ep : Bool)
    (recur : TState → Option Placement → Option Placement)
    (st : TState) (firstMove : Option Placement) : Option Placement :=
  match firstEmptyT pb st with
  | none => firstMove
  | some ac => sfNames pb ep recur st ac.1 ac.2 firstMove pb.selected_pieces

/-- `solution_next_move`'s inner `solve_first`, with fuel (one unused piece is
consumed per level). -/
def solveFirst (pb : Problem) (ep : Bool) :
    Nat → TState → Option Placement → Option Placement :=
  fun fuel =>
    Nat.rec (motive := fun _ => TState → Option Placement → Option Placement)
      (fun _ _ => none)
      (fun _ ih => sfBody pb ep ih)
      fuel

theorem solveFirst_succ (pb : Problem) (ep : Bool) (f : Nat) :
    solveFirst pb ep (f + 1) = sfBody pb ep (solveFirst pb ep f) := rfl

/-- Loop outcome of the attempt loop of `dfs`: an early `return` or falling
through to the post-loop epilogue. -/
inductive LoopOut where
  | early : Bool → Nat → Bool → LoopOut
  | fell : Bool → Nat → LoopOut

/-- `next(...)` over the attempts matching `solution_next_move`'s move. -/
def findMatchIdx (attempts : List (AKind × String × List Cell)) (mv : Placement) :
    Int :=
  match attempts.findIdx? (fun a =>
      decide (a.1 = AKind.valid) && decide (a.2.1 = mv.1) && decide (a.2.2 = mv.2)) with
  | some i => (i : Int)
  | none => -1

/-- The attempt loop of `dfs`. -/
def dfsLoop (pb : Problem) (ep : Bool) (maxN : Nat)
    (recur : Nat → Option Nat → TState → TState × Bool × Nat × Bool)
    (depth : Nat) (did : Option Nat) (rightmost : Int) (displayIdx : List Int) :
    List (AKind × String × List Cell) → Nat → Nat → Bool → TState →
      TState × LoopOut
  | [], _, subtree, found, st => (st, LoopOut.fell found subtree)
  | (kind, name, shifted) :: rest, idx, subtree, found, st =>
    let parent_is_chain :=
      match did with
      | none => false
      | some i => (st.nodes.getD i dfltNode).rightmost_chain
    let child_on_chain :=
      (decide (depth = 0) || parent_is_chain) && decide ((idx : Int) = rightmost)
    if (idx : Int) ∈ displayIdx then
      match kind with
      | AKind.pruned =>
        match did with
        | some i =>
          match createNode (some i) (depth + 1) true child_on_chain
              (applyT st name shifted) with
          | (pid, st2) =>
            dfsLoop pb ep maxN recur depth did rightmost displayIdx rest (idx + 1)
              subtree found
              (unapplyT { st2 with events := st2.events ++ [⟨EvKind.exit, pid⟩] }
                name shifted)
        | none =>
          dfsLoop pb ep maxN recur depth did rightmost displayIdx rest (idx + 1)
            subtree found st
      | AKind.valid =>
        match (match did with
               | some i =>
                 match createNode (some i) (depth + 1) false child_on_chain
                     (applyT st name shifted) with
                 | (cid, st2) => (some cid, st2)
               | none => (none, applyT st name shifted)) with
        | (cid, st2) =>
          match recur (depth + 1) cid st2 with
          | (st3, solved, ccount, aborted) =>
            let st4 := unapplyT st3 name shifted
            if aborted then
              match did with
              | some i =>
                (finalizeNode st4 i (subtree + ccount), LoopOut.early false (subtree + ccount) true)
              | none => (st4, LoopOut.early false (subtree + ccount) true)
            else if solved then
              if parent_is_chain then
                match did with
                | some i =>
                  (finalizeNode st4 i (subtree + ccount),
                   LoopOut.early true (subtree + ccount) false)
                | none => (st4, LoopOut.early true (subtree + ccount) false)
              else
                dfsLoop pb ep maxN recur depth did rightmost displayIdx rest (idx + 1)
                  (subtree + ccount) true st4
            else
              dfsLoop pb ep maxN recur depth did rightmost displayIdx rest (idx + 1)
                (subtree + ccount) found st4
    else
      dfsLoop pb ep maxN recur depth did rightmost displayIdx rest (idx + 1)
        subtree found st

/-- Whether the parent display node admits displaying this depth (the
`can_display` test at the head of `dfs`). -/
def canDispFlag (st0 : TState) (depth : Nat) : Option Nat → Bool
  | none => false
  | some i =>
    decide (depth < (if (st0.nodes.getD i dfltNode).rightmost_chain then
      RIGHTMOST_BRANCH_DEPTH else DEFAULT_DISPLAY_DEPTH))

/-- Whether the parent display node is flagged on the rightmost chain. -/
def chainFlag (st0 : TState) : Option Nat → Bool
  | none => false
  | some i => (st0.nodes.getD i dfltNode).rightmost_chain

/-- The rightmost (highlighted-chain) attempt index: the index matching the
probe solver's first move, else the last valid attempt, else the final one. -/
def rightmostFor (pb : Problem) (ep : Bool) (fuel : Nat) (st0 : TState)
    (attempts : List (AKind × String × List Cell)) : Int :=
  let validIdx := (attempts.enum.filter (fun p => decide (p.2.1 = AKind.valid))).map
    Prod.fst
  let r0 : Int :=
    match solveFirst pb ep fuel st0 none with
    | some mv => findMatchIdx attempts mv
    | none => -1
  if r0 < 0 then
    match validIdx.getLast? with
    | some v => (v : Int)
    | none => (attempts.length : Int) - 1
  else r0

/-- The display-index set: the rightmost alone on the chain, all of a small
fan-out, else the first two and the rightmost. -/
def displayFor (mdc : Nat) (parent_is_chain : Bool)
    (attempts : List (AKind × String × List Cell)) (rightmost : Int) : List Int :=
  if parent_is_chain then [rightmost]
  else if attempts.length ≤ mdc then (List.range attempts.length).map
    (fun (k : Nat) => (k : Int))
  else [0, 1, rightmost]

/-- One unfolding of `dfs` (`fuel` is the current fuel, also used for the
nested `solution_next_move` search). -/
def dfsBody (pb : Problem) (ep : Bool) (mdc maxN : Nat) (fuel : Nat)
    (recur : Nat → Option Nat → TState → TState × Bool × Nat × Bool)
    (depth : Nat) (did : Option Nat) (st : TState) : TState × Bool × Nat × Bool :=
  let st0 := { st with nodeCounter := st.nodeCounter + 1
                       stepElapsed := st.stepElapsed ++ [0] }
  if maxN < st0.nodeCounter then (st0, false, 1, true)
  else
    match firstEmptyT pb st0 with
    | none =>
      match did with
      | some i => (finalizeNode st0 i 1, true, 1, false)
      | none => (st0, true, 1, false)
    | some anchor =>
      let attempts := attemptsFor pb ep st0 anchor.1 anchor.2
      if canDispFlag st0 depth did && !attempts.isEmpty then
        let rightmost : Int := rightmostFor pb ep fuel st0 attempts
        let displayIdx : List Int := displayFor mdc (chainFlag st0 did) attempts rightmost
        match dfsLoop pb ep maxN recur depth did rightmost displayIdx attempts 0 1 false
            st0 with
        | (st5, LoopOut.early solved cnt aborted) => (st5, solved, cnt, aborted)
        | (st5, LoopOut.fell found cnt) =>
          match did with
          | some i => (finalizeNode st5 i cnt, found, cnt, false)
          | none => (st5, found, cnt, false)
      else
        match dfsLoop pb ep maxN recur depth did (-1) [] attempts 0 1 false st0 with
        | (st5, LoopOut.early solved cnt aborted) => (st5, solved, cnt, aborted)
        | (st5, LoopOut.fell found cnt) =>
          match did with
          | some i => (finalizeNode st5 i cnt, found, cnt, false)
          | none => (st5, found, cnt, false)

/-- `dfs` with fuel (each level consumes an unused piece). -/
def dfsGo (pb : Problem) (ep : Bool) (mdc maxN : Nat) :
    Nat → Nat → Option Nat → TState → TState × Bool × Nat × Bool :=
  fun fuel =>
    Nat.rec (motive := fun _ => Nat → Option Nat → TState → TState × Bool × Nat × Bool)
      (fun _ _ st => (st, false, 1, false))
      (fun f ih => dfsBody pb ep mdc maxN (f + 1) ih)
      fuel

theorem dfsGo_succ (pb : Problem) (ep : Bool) (mdc maxN f : Nat) :
    dfsGo pb ep mdc maxN (f + 1) = dfsBody pb ep mdc maxN (f + 1) (dfsGo pb ep mdc maxN f) :=
  rfl

/-- The initial closure state of `build_trace`. -/
def initTState : TState :=
  { used := [], filled := [], board := [], nodes := [], events := []
    nodeCounter := 0, stepElapsed := [0] }

/-- `build_trace`, returning also the (discarded by the source) result triple
of the root `dfs` call. -/
def buildTraceFull (pb : Problem) (ep : Bool) (mdd mdc maxN : Nat) :
    TraceResult × Bool × Nat × Bool :=
  match createNode none 0 false false initTState with
  | (rootId, st1) =>
    match dfsGo pb ep mdc maxN (pb.selected_pieces.length + 1) 0 (some rootId) st1 with
    | (st2, solved, cnt, aborted) =>
      ({ nodes := st2.nodes, events := st2.events, total_steps := st2.nodeCounter
         total_elapsed_ms := 0, step_elapsed_ms := st2.stepElapsed },
       solved, cnt, aborted)

/-- `build_trace` as the source returns it (`mdd` is received but, as in the
source's `dfs`, the depth caps are the module constants). -/
def build_trace (pb : Problem) (ep : Bool) (mdd mdc maxN : Nat) : TraceResult :=
  (buildTraceFull pb ep mdd mdc maxN).1

/-- `board_signature`: the board's items sorted by cell.  The source encodes
this list as a string (`"r,c:name|..."`), an injective image; the sorted
association list itself is used here. -/
def board_signature (b : List (Cell × String)) : List (Cell × String) :=
  List.insertionSort (fun x y => cellLe x.1 y.1) b

/-- First-seen map from board signatures to node ids over the unpruned
trace's enter events. -/
def buildSigMap (unNodes : List NodeData) :
    List Event → List (List (Cell × String) × Nat) →
      List (List (Cell × String) × Nat)
  | [], acc => acc
  | ev :: evs, acc =>
    if ev.kind = EvKind.enter then
      if board_signature ((unNodes.getD ev.node_id dfltNode).board) ∈ acc.map Prod.fst
        then buildSigMap unNodes evs acc
      else buildSigMap unNodes evs
        (acc ++ [(board_signature ((unNodes.getD ev.node_id dfltNode).board), ev.node_id)])
    else buildSigMap unNodes evs acc

/-- The child loop of `clone_subtree` (`recur` is the bounded recursion on the
unpruned subtree). -/
def cloneChildren (unNodes : List NodeData) (mdc : Nat)
    (recur : Nat → Nat → List NodeData → List Event → List NodeData × List Event) :
    List Nat → Nat → List NodeData → List Event → List NodeData × List Event
  | [], _, nodes, events => (nodes, events)
  | unChild :: rest, pid, nodes, events =>
    if mdc ≤ (nodes.getD pid dfltNode).children.length then (nodes, events)
    else
      match (nodes.getD pid dfltNode, unNodes.getD unChild dfltNode, nodes.length) with
      | (parent, unc, newId) =>
        match recur unChild newId
            (updateNode (nodes ++
              [{ node_id := newId, parent_id := some pid, depth := parent.depth + 1
                 board := unc.board, pruned := false, counterfactual := true
                 rightmost_chain := unc.rightmost_chain
                 step_at_enter := unc.step_at_enter
                 elapsed_ms_at_enter := unc.elapsed_ms_at_enter, children := []
                 elapsed_ms := none, explored_subnodes := 0 }]) pid
              (fun nd => { nd with children := nd.children ++ [newId] }))
            (events ++ [⟨EvKind.enter, newId⟩]) with
        | (nodes2, events2) =>
          cloneChildren unNodes mdc recur rest pid nodes2
            (events2 ++ [⟨EvKind.exit, newId⟩])

/-- `clone_subtree`, with fuel (the cloned depth is capped by
`max_display_depth`, so `mdd + 1` levels suffice). -/
def cloneSubtree (unNodes : List NodeData) (mdd mdc : Nat) :
    Nat → Nat → Nat → List NodeData → List Event → List NodeData × List Event :=
  fun fuel =>
    Nat.rec (motive := fun _ =>
        Nat → Nat → List NodeData → List Event → List NodeData × List Event)
      (fun _ _ nodes events => (nodes, events))
      (fun _ ih => fun unId pid nodes events =>
        if mdd ≤ (nodes.getD pid dfltNode).depth then (nodes, events)
        else cloneChildren unNodes mdc ih
          ((unNodes.getD unId dfltNode).children.take mdc) pid nodes events)
      fuel

theorem cloneSubtree_succ (unNodes : List NodeData) (mdd mdc f : Nat)
    (unId pid : Nat) (nodes : List NodeData) (events : List Event) :
    cloneSubtree unNodes mdd mdc (f + 1) unId pid nodes events =
      if mdd ≤ (nodes.getD pid dfltNode).depth then (nodes, events)
      else cloneChildren unNodes mdc (cloneSubtree unNodes mdd mdc f)
        ((unNodes.getD unId dfltNode).children.take mdc) pid nodes events := rfl

/-- The main event loop of `add_pruned_descendants_from_unpruned`: replay the
primary events, grafting a bounded copy of the matching unpruned subtree
after every pruned node's enter event. -/
def addPrunedAux (unNodes : List NodeData)
    (sigMap : List (List (Cell × String) × Nat)) (mdd mdc : Nat) :
    List Event → List NodeData → List Event → List NodeData × List Event
  | [], nodes, events => (nodes, events)
  | ev :: evs, nodes, events =>
    if ev.kind = EvKind.enter ∧ (nodes.getD ev.node_id dfltNode).pruned then
      match sigMap.find? (fun pr =>
          decide (pr.1 = board_signature ((nodes.getD ev.node_id dfltNode).board))) with
      | some pr =>
        match cloneSubtree unNodes mdd mdc (mdd + 1) pr.2 ev.node_id nodes
            (events ++ [ev]) with
        | (nodes2, events2) => addPrunedAux unNodes sigMap mdd mdc evs nodes2 events2
      | none => addPrunedAux unNodes sigMap mdd mdc evs nodes (events ++ [ev])
    else addPrunedAux unNodes sigMap mdd mdc evs nodes (events ++ [ev])

/-- `add_pruned_descendants_from_unpruned`. -/
def add_pruned_descendants_from_unpruned (pruned_trace unpruned_trace : TraceResult)
    (mdd mdc : Nat) : TraceResult :=
  match addPrunedAux unpruned_trace.nodes
      (buildSigMap unpruned_trace.nodes unpruned_trace.events []) mdd mdc
      pruned_trace.events pruned_trace.nodes [] with
  | (nodes, events) =>
    { nodes := nodes, events := events, total_steps := pruned_trace.total_steps
      total_elapsed_ms := pruned_trace.total_elapsed_ms
      step_elapsed_ms := pruned_trace.step_elapsed_ms }

/-! Shared facts for the `build_trace` proofs. -/

theorem pieceCells_of_not_mem {name : String} (h : name ∉ sortedPieceNames) :
    pieceCells name = [] := by
  unfold pieceCells
  have hfind : PENTOMINOES.find? (fun pr => decide (pr.1 = name)) = none := by
    rw [List.find?_eq_none]
    intro pr hpr
    have hin : pr.1 ∈ sortedPieceNames := by
      have : ∀ q ∈ PENTOMINOES, q.1 ∈ sortedPieceNames := by decide
      exact this pr hpr
    simp only [decide_eq_true_eq]
    intro he
    exact h (he ▸ hin)
  rw [hfind]

/-- Every orientation of any name (also unknown ones, which yield the empty
shape) has a cell count divisible by 5 and no duplicates. -/
theorem orientationsOf_mod5 (name : String) :
    ∀ o ∈ orientationsOf name, o.length % 5 = 0 ∧ o.Nodup := by
  by_cases h : name ∈ sortedPieceNames
  · intro o ho
    have h5 := orientationsOf_conn5 name h o ho
    have hnd := orientationsOf_nodup name h o ho
    exact ⟨by rw [h5.2], hnd⟩
  · rw [show orientationsOf name = unique_orientations [] by
      rw [orientationsOf, pieceCells_of_not_mem h]]
    decide

theorem attemptsFor_mem {pb : Problem} {ep : Bool} {st : TState} {ar ac : Int}
    {a : AKind × String × List Cell} (h : a ∈ attemptsFor pb ep st ar ac) :
    a.2.1 ∈ pb.selected_pieces ∧ a.2.1 ∉ st.used ∧
    canPlaceT pb st a.2.2 = true ∧ a.2.2.length % 5 = 0 ∧ a.2.2.Nodup := by
  unfold attemptsFor at h
  rcases List.mem_flatMap.mp h with ⟨name, hname, h2⟩
  by_cases hused : name ∈ st.used
  · rw [if_pos hused] at h2
    cases h2
  · rw [if_neg hused] at h2
    rcases List.mem_flatMap.mp h2 with ⟨orient, horient, h3⟩
    rcases List.mem_flatMap.mp h3 with ⟨c0, _, h4⟩
    by_cases hcp : canPlaceT pb st
        (orient.map (fun p => (p.1 + (ar - c0.1), p.2 + (ac - c0.2)))) = true
    · rw [if_pos hcp] at h4
      simp only [List.mem_singleton] at h4
      subst h4
      have hfacts := orientationsOf_mod5 name orient horient
      refine ⟨hname, hused, hcp, ?_, shifted_nodup hfacts.2 _ _⟩
      rw [List.length_map]
      exact hfacts.1
    · rw [if_neg hcp] at h4
      cases h4

theorem canPlaceT_spec {pb : Problem} {st : TState} {cells : List Cell}
    (h : canPlaceT pb st cells = true) :
    ∀ x ∈ cells, x ∈ pb.mask_cells ∧ x ∉ st.filled := by
  intro x hx
  have := List.all_eq_true.mp h x hx
  simp only [Bool.and_eq_true, decide_eq_true_eq] at this
  exact this

/-- The board's key list tracks the filled set exactly. -/
def Keys (st : TState) : Prop := st.board.map Prod.fst = st.filled

theorem Keys_applyT {st : TState} (h : Keys st) (name : String) (cells : List Cell) :
    Keys (applyT st name cells) := by
  unfold Keys at h ⊢
  unfold applyT
  simp only [List.map_append, List.map_map]
  rw [h]
  congr 1
  have hid : (Prod.fst ∘ fun rc : Cell => (rc, name)) = id := rfl
  rw [hid, List.map_id]

theorem unapplyT_fields {st st' : TState} {name : String} {cells : List Cell}
    (hu : st'.used = st.used.insert name)
    (hf : st'.filled = st.filled ++ cells)
    (hb : st'.board = st.board ++ cells.map (fun rc => (rc, name)))
    (hn : name ∉ st.used) (hfresh : ∀ x ∈ cells, x ∉ st.filled)
    (hkeys : Keys st) :
    (unapplyT st' name cells).used = st.used ∧
    (unapplyT st' name cells).filled = st.filled ∧
    (unapplyT st' name cells).board = st.board := by
  unfold unapplyT
  refine ⟨?_, ?_, ?_⟩
  · simp only [hu]
    rw [List.insert_of_not_mem hn]
    exact List.erase_cons_head _ _
  · simp only [hf]
    rw [List.filter_append]
    have h1 : st.filled.filter (fun rc => decide (rc ∉ cells)) = st.filled := by
      rw [List.filter_eq_self]
      intro x hx
      simp only [decide_eq_true_eq]
      intro hc
      exact hfresh x hc hx
    have h2 : cells.filter (fun rc => decide (rc ∉ cells)) = [] := by
      rw [List.filter_eq_nil_iff]
      intro x hx
      simp [hx]
    rw [h1, h2, List.append_nil]
  · simp only [hb]
    rw [List.filter_append]
    have h1 : st.board.filter (fun pr => decide (pr.1 ∉ cells)) = st.board := by
      rw [List.filter_eq_self]
      intro pr hpr
      simp only [decide_eq_true_eq]
      intro hc
      have : pr.1 ∈ st.filled := by
        rw [← hkeys]
        exact List.mem_map.mpr ⟨pr, hpr, rfl⟩
      exact hfresh pr.1 hc this
    have h2 : (cells.map (fun rc => (rc, name))).filter
        (fun pr => decide (pr.1 ∉ cells)) = [] := by
      rw [List.filter_eq_nil_iff]
      intro pr hpr
      rcases List.mem_map.mp hpr with ⟨rc, hrc, rfl⟩
      simp [hrc]
    rw [h1, h2, List.append_nil]

theorem applyT_search (st : TState) (name : String) (cells : List Cell) :
    (applyT st name cells).nodes = st.nodes ∧
    (applyT st name cells).events = st.events ∧
    (applyT st name cells).nodeCounter = st.nodeCounter := ⟨rfl, rfl, rfl⟩

theorem unapplyT_search (st : TState) (name : String) (cells : List Cell) :
    (unapplyT st name cells).nodes = st.nodes ∧
    (unapplyT st name cells).events = st.events ∧
    (unapplyT st name cells).nodeCounter = st.nodeCounter := ⟨rfl, rfl, rfl⟩

theorem createNode_board (p : Option Nat) (d : Nat) (pr rm : Bool) (st : TState) :
    ((createNode p d pr rm st).2).used = st.used ∧
    ((createNode p d pr rm st).2).filled = st.filled ∧
    ((createNode p d pr rm st).2).board = st.board ∧
    ((createNode p d pr rm st).2).nodeCounter = st.nodeCounter := by
  unfold createNode
  exact ⟨rfl, rfl, rfl, rfl⟩

theorem finalizeNode_board (st : TState) (i s : Nat) :
    (finalizeNode st i s).used = st.used ∧
    (finalizeNode st i s).filled = st.filled ∧
    (finalizeNode st i s).board = st.board ∧
    (finalizeNode st i s).nodeCounter = st.nodeCounter := ⟨rfl, rfl, rfl, rfl⟩

/-- Number of selected pieces not yet used (the search's depth reserve). -/
def unusedCount (pb : Problem) (st : TState) : Nat :=
  (pb.selected_pieces.filter (fun n => decide (n ∉ st.used))).length

theorem unusedCount_insert {pb : Problem} {st : TState} {name : String}
    (hmem : name ∈ pb.selected_pieces) (hnot : name ∉ st.used) :
    (pb.selected_pieces.filter (fun n => decide (n ∉ st.used.insert name))).length <
      unusedCount pb st := by
  unfold unusedCount
  have heq : pb.selected_pieces.filter (fun n => decide (n ∉ st.used.insert name)) =
      (pb.selected_pieces.filter (fun n => decide (n ∉ st.used))).filter
        (fun n => decide (n ≠ name)) := by
    rw [List.filter_filter]
    apply List.filter_congr
    intro n _
    by_cases h1 : n = name
    · subst h1
      simp [List.mem_insert_iff]
    · by_cases h2 : n ∈ st.used <;> simp [List.mem_insert_iff, h1, h2]
  rw [heq]
  refine List.length_filter_lt_length_iff_exists.mpr ⟨name, ?_, by simp⟩
  exact List.mem_filter.mpr ⟨hmem, by simpa using hnot⟩

/-- What the search part of the state guarantees after any run: board, filled
set and used set restored, the node counter monotone, and the abort flag
exactly reporting budget exhaustion (with no solution claimed). -/
def DfsOut (maxN : Nat) (st st' : TState) (sv ab : Bool) : Prop :=
  st'.used = st.used ∧ st'.filled = st.filled ∧ st'.board = st.board ∧
  st.nodeCounter ≤ st'.nodeCounter ∧
  (ab = true ↔ maxN < st'.nodeCounter) ∧ (ab = true → sv = false)

theorem dfsLoop_master {pb : Problem} {ep : Bool} {mdc maxN : Nat} {f : Nat}
    (ihrec : ∀ depth did st st' sv cnt ab,
      dfsGo pb ep mdc maxN f depth did st = (st', sv, cnt, ab) →
      Keys st → unusedCount pb st < f → DfsOut maxN st st' sv ab) :
    ∀ (attempts : List (AKind × String × List Cell)) (depth : Nat) (did : Option Nat)
      (rightmost : Int) (displayIdx : List Int) (idx subtree : Nat) (found : Bool)
      (st st' : TState) (out : LoopOut),
      dfsLoop pb ep maxN (dfsGo pb ep mdc maxN f) depth did rightmost displayIdx
        attempts idx subtree found st = (st', out) →
      Keys st → unusedCount pb st < f + 1 → st.nodeCounter ≤ maxN →
      (∀ a ∈ attempts, a.2.1 ∈ pb.selected_pieces ∧ a.2.1 ∉ st.used ∧
        (∀ x ∈ a.2.2, x ∉ st.filled)) →
      st'.used = st.used ∧ st'.filled = st.filled ∧ st'.board = st.board ∧
      st.nodeCounter ≤ st'.nodeCounter ∧
      (match out with
       | LoopOut.early sv _ ab =>
         (ab = true ↔ maxN < st'.nodeCounter) ∧ (ab = true → sv = false)
       | LoopOut.fell _ _ => st'.nodeCounter ≤ maxN)
  | [], depth, did, rightmost, displayIdx, idx, subtree, found, st, st', out => by
    intro h _ _ hentry _
    rw [dfsLoop.eq_def] at h
    simp only at h
    have h1 := congrArg Prod.fst h
    have h2 := congrArg Prod.snd h
    simp only at h1 h2
    subst h1
    subst h2
    exact ⟨rfl, rfl, rfl, Nat.le_refl _, hentry⟩
  | (kind, name, shifted) :: rest, depth, did, rightmost, displayIdx, idx, subtree,
      found, st, st', out => by
    intro h hkeys hcount hentry hhyg
    have hhyg0 := hhyg (kind, name, shifted) (List.mem_cons_self _ _)
    rw [dfsLoop.eq_def] at h
    simp only at h
    by_cases hdisp : (idx : Int) ∈ displayIdx
    · rw [if_pos hdisp] at h
      cases kind with
      | pruned =>
        cases did with
        | some i =>
          simp only at h
          set st1 := applyT st name shifted with hst1
          cases hcn : createNode (some i) (depth + 1) true
              ((decide (depth = 0) || (st.nodes.getD i dfltNode).rightmost_chain) &&
                decide ((idx : Int) = rightmost)) st1 with
          | mk pid st2 =>
            rw [hcn] at h
            simp only at h
            have hst2 := createNode_board (some i) (depth + 1) true
              ((decide (depth = 0) || (st.nodes.getD i dfltNode).rightmost_chain) &&
                decide ((idx : Int) = rightmost)) st1
            rw [hcn] at hst2
            simp only at hst2
            have hst4 := @unapplyT_fields st
              ({ st2 with events := st2.events ++ [⟨EvKind.exit, pid⟩] })
              name shifted
              (by rw [hst2.1]; rfl) (by rw [hst2.2.1]; rfl) (by rw [hst2.2.2.1]; rfl)
              hhyg0.2.1 hhyg0.2.2 hkeys
            have := dfsLoop_master ihrec rest depth (some i) rightmost displayIdx
              (idx + 1) subtree found _ st' out h
              (by
                unfold Keys
                rw [hst4.2.2, hst4.2.1]
                exact hkeys)
              (by
                unfold unusedCount
                rw [hst4.1]
                exact hcount)
              (by
                show (unapplyT _ name shifted).nodeCounter ≤ maxN
                unfold unapplyT
                simp only
                rw [hst2.2.2.2]
                exact hentry)
              (by
                intro a ha
                have := hhyg a (List.mem_cons_of_mem _ ha)
                rw [hst4.1, hst4.2.1]
                exact this)
            refine ⟨?_, ?_, ?_, ?_, this.2.2.2.2⟩
            · rw [this.1, hst4.1]
            · rw [this.2.1, hst4.2.1]
            · rw [this.2.2.1, hst4.2.2]
            · refine Nat.le_trans ?_ this.2.2.2.1
              show st.nodeCounter ≤ (unapplyT _ name shifted).nodeCounter
              unfold unapplyT
              simp only
              rw [hst2.2.2.2]
              exact Nat.le_refl _
        | none =>
          simp only at h
          have := dfsLoop_master ihrec rest depth none rightmost displayIdx
            (idx + 1) subtree found st st' out h hkeys hcount hentry
            (fun a ha => hhyg a (List.mem_cons_of_mem _ ha))
          exact this
      | valid =>
        simp only at h
        cases did with
        | some i =>
          simp only at h
          cases hcn : createNode (some i) (depth + 1) false
              ((decide (depth = 0) || (st.nodes.getD i dfltNode).rightmost_chain) &&
                decide ((idx : Int) = rightmost)) (applyT st name shifted) with
          | mk cid st2 =>
            rw [hcn] at h
            simp only at h
            have hst2 := createNode_board (some i) (depth + 1) false
              ((decide (depth = 0) || (st.nodes.getD i dfltNode).rightmost_chain) &&
                decide ((idx : Int) = rightmost)) (applyT st name shifted)
            rw [hcn] at hst2
            simp only at hst2
            cases hrec : dfsGo pb ep mdc maxN f (depth + 1) (some cid) st2 with
            | mk st3 rest3 =>
              cases rest3 with
              | mk solved rest4 =>
                cases rest4 with
                | mk ccount aborted =>
                  rw [hrec] at h
                  simp only at h
                  have hihres := ihrec (depth + 1) (some cid) st2 st3 solved ccount
                    aborted hrec
                    (by
                      unfold Keys
                      rw [hst2.2.2.1, hst2.2.1]
                      exact Keys_applyT hkeys name shifted)
                    (by
                      unfold unusedCount
                      have hsame : st2.used = st.used.insert name := by
                        rw [hst2.1]
                        rfl
                      have hlt := @unusedCount_insert pb st name hhyg0.1 hhyg0.2.1
                      unfold unusedCount at hcount hlt
                      have hbridge :
                          (pb.selected_pieces.filter
                            (fun n => decide (n ∉ st2.used))).length =
                          (pb.selected_pieces.filter
                            (fun n => decide (n ∉ st.used.insert name))).length := by
                        congr 1
                        apply List.filter_congr
                        intro n _
                        exact decide_eq_decide.mpr (by rw [hsame])
                      omega)
                  have hst3u : st3.used = st.used.insert name := by
                    rw [hihres.1, hst2.1]
                    rfl
                  have hst3f : st3.filled = st.filled ++ shifted := by
                    rw [hihres.2.1, hst2.2.1]
                    rfl
                  have hst3b : st3.board = st.board ++ shifted.map (fun rc => (rc, name)) := by
                    rw [hihres.2.2.1, hst2.2.2.1]
                    rfl
                  have hst4 := @unapplyT_fields st st3
                    name shifted hst3u hst3f hst3b
                    hhyg0.2.1 hhyg0.2.2 hkeys
                  have hcntmono : st.nodeCounter ≤ st3.nodeCounter := by
                    have h1 : st2.nodeCounter = st.nodeCounter := by
                      rw [hst2.2.2.2]
                      rfl
                    rw [← h1]
                    exact hihres.2.2.2.1
                  by_cases hab : aborted = true
                  · rw [hab] at h
                    simp only [if_pos rfl] at h
                    have h1 := congrArg Prod.fst h
                    have h2 := congrArg Prod.snd h
                    simp only at h1 h2
                    subst h2
                    subst h1
                    refine ⟨?_, ?_, ?_, ?_, ?_⟩
                    · show (finalizeNode _ i _).used = st.used
                      rw [(finalizeNode_board _ i _).1, hst4.1]
                    · show (finalizeNode _ i _).filled = st.filled
                      rw [(finalizeNode_board _ i _).2.1, hst4.2.1]
                    · show (finalizeNode _ i _).board = st.board
                      rw [(finalizeNode_board _ i _).2.2.1, hst4.2.2]
                    · show st.nodeCounter ≤ (finalizeNode _ i _).nodeCounter
                      rw [(finalizeNode_board _ i _).2.2.2]
                      exact hcntmono
                    · constructor
                      · constructor
                        · intro _
                          show maxN < (finalizeNode _ i _).nodeCounter
                          rw [(finalizeNode_board _ i _).2.2.2]
                          show maxN < (unapplyT st3 name shifted).nodeCounter
                          have : (unapplyT st3 name shifted).nodeCounter =
                              st3.nodeCounter := rfl
                          rw [this]
                          exact (hihres.2.2.2.2.1).mp hab
                        · intro _
                          rfl
                      · intro _
                        rfl
                  · rw [Bool.not_eq_true] at hab
                    rw [hab] at h
                    simp only [Bool.false_eq_true, if_false] at h
                    have hcle : st3.nodeCounter ≤ maxN := by
                      have := hihres.2.2.2.2.1
                      rw [hab] at this
                      simp at this
                      omega
                    by_cases hsolved : solved = true
                    · rw [hsolved] at h
                      simp only [if_pos rfl] at h
                      by_cases hpic : (st.nodes.getD i dfltNode).rightmost_chain = true
                      · rw [hpic] at h
                        simp only [if_pos rfl] at h
                        have h1 := congrArg Prod.fst h
                        have h2 := congrArg Prod.snd h
                        simp only at h1 h2
                        subst h2
                        subst h1
                        refine ⟨?_, ?_, ?_, ?_, ?_⟩
                        · show (finalizeNode _ i _).used = st.used
                          rw [(finalizeNode_board _ i _).1, hst4.1]
                        · show (finalizeNode _ i _).filled = st.filled
                          rw [(finalizeNode_board _ i _).2.1, hst4.2.1]
                        · show (finalizeNode _ i _).board = st.board
                          rw [(finalizeNode_board _ i _).2.2.1, hst4.2.2]
                        · show st.nodeCounter ≤ (finalizeNode _ i _).nodeCounter
                          rw [(finalizeNode_board _ i _).2.2.2]
                          exact hcntmono
                        · constructor
                          · constructor
                            · intro hcontra
                              cases hcontra
                            · intro hcontra
                              exfalso
                              have hcontra2 : maxN < st3.nodeCounter := hcontra
                              omega
                          · intro hcontra
                            cases hcontra
                      · rw [Bool.not_eq_true] at hpic
                        rw [hpic] at h
                        simp only [Bool.false_eq_true, if_false] at h
                        have := dfsLoop_master ihrec rest depth (some i) rightmost
                          displayIdx (idx + 1) (subtree + ccount) true _ st' out h
                          (by
                            unfold Keys
                            rw [hst4.2.2, hst4.2.1]
                            exact hkeys)
                          (by
                            unfold unusedCount
                            rw [hst4.1]
                            exact hcount)
                          (by
                            show (unapplyT st3 name shifted).nodeCounter ≤ maxN
                            exact hcle)
                          (by
                            intro a ha
                            have := hhyg a (List.mem_cons_of_mem _ ha)
                            rw [hst4.1, hst4.2.1]
                            exact this)
                        refine ⟨?_, ?_, ?_, ?_, this.2.2.2.2⟩
                        · rw [this.1, hst4.1]
                        · rw [this.2.1, hst4.2.1]
                        · rw [this.2.2.1, hst4.2.2]
                        · exact Nat.le_trans hcntmono this.2.2.2.1
                    · rw [Bool.not_eq_true] at hsolved
                      rw [hsolved] at h
                      simp only [Bool.false_eq_true, if_false] at h
                      have := dfsLoop_master ihrec rest depth (some i) rightmost
                        displayIdx (idx + 1) (subtree + ccount) found _ st' out h
                        (by
                          unfold Keys
                          rw [hst4.2.2, hst4.2.1]
                          exact hkeys)
                        (by
                          unfold unusedCount
                          rw [hst4.1]
                          exact hcount)
                        (by
                          show (unapplyT st3 name shifted).nodeCounter ≤ maxN
                          exact hcle)
                        (by
                          intro a ha
                          have := hhyg a (List.mem_cons_of_mem _ ha)
                          rw [hst4.1, hst4.2.1]
                          exact this)
                      refine ⟨?_, ?_, ?_, ?_, this.2.2.2.2⟩
                      · rw [this.1, hst4.1]
                      · rw [this.2.1, hst4.2.1]
                      · rw [this.2.2.1, hst4.2.2]
                      · exact Nat.le_trans hcntmono this.2.2.2.1
        | none =>
          simp only at h
          cases hrec : dfsGo pb ep mdc maxN f (depth + 1) none (applyT st name shifted)
            with
          | mk st3 rest3 =>
            cases rest3 with
            | mk solved rest4 =>
              cases rest4 with
              | mk ccount aborted =>
                rw [hrec] at h
                simp only at h
                have hihres := ihrec (depth + 1) none (applyT st name shifted) st3
                  solved ccount aborted hrec (Keys_applyT hkeys name shifted)
                  (by
                    have hsame : (applyT st name shifted).used = st.used.insert name := rfl
                    show (pb.selected_pieces.filter
                      (fun n => decide (n ∉ (applyT st name shifted).used))).length < f
                    have hlt := @unusedCount_insert pb st name hhyg0.1 hhyg0.2.1
                    unfold unusedCount at hcount hlt
                    have hbridge :
                        (pb.selected_pieces.filter
                          (fun n => decide (n ∉ (applyT st name shifted).used))).length =
                        (pb.selected_pieces.filter
                          (fun n => decide (n ∉ st.used.insert name))).length := rfl
                    omega)
                have hst3u : st3.used = st.used.insert name := hihres.1
                have hst3f : st3.filled = st.filled ++ shifted := hihres.2.1
                have hst3b : st3.board = st.board ++ shifted.map (fun rc => (rc, name)) :=
                  hihres.2.2.1
                have hst4 := @unapplyT_fields st st3
                  name shifted hst3u hst3f hst3b
                  hhyg0.2.1 hhyg0.2.2 hkeys
                have hcntmono : st.nodeCounter ≤ st3.nodeCounter := hihres.2.2.2.1
                by_cases hab : aborted = true
                · rw [hab] at h
                  simp only [if_pos rfl] at h
                  have h1 := congrArg Prod.fst h
                  have h2 := congrArg Prod.snd h
                  simp only at h1 h2
                  subst h2
                  subst h1
                  refine ⟨hst4.1, hst4.2.1, hst4.2.2, hcntmono, ?_⟩
                  refine ⟨⟨fun _ => (hihres.2.2.2.2.1).mp hab, fun _ => rfl⟩, fun _ => rfl⟩
                · rw [Bool.not_eq_true] at hab
                  rw [hab] at h
                  simp only [Bool.false_eq_true, if_false] at h
                  have hcle : st3.nodeCounter ≤ maxN := by
                    have := hihres.2.2.2.2.1
                    rw [hab] at this
                    simp at this
                    omega
                  by_cases hsolved : solved = true
                  · rw [hsolved] at h
                    simp only [if_pos rfl] at h
                    have := dfsLoop_master ihrec rest depth none rightmost
                      displayIdx (idx + 1) (subtree + ccount) true _ st' out h
                      (by
                        unfold Keys
                        rw [hst4.2.2, hst4.2.1]
                        exact hkeys)
                      (by
                        unfold unusedCount
                        rw [hst4.1]
                        exact hcount)
                      (by
                        show (unapplyT st3 name shifted).nodeCounter ≤ maxN
                        exact hcle)
                      (by
                        intro a ha
                        have := hhyg a (List.mem_cons_of_mem _ ha)
                        rw [hst4.1, hst4.2.1]
                        exact this)
                    refine ⟨?_, ?_, ?_, ?_, this.2.2.2.2⟩
                    · rw [this.1, hst4.1]
                    · rw [this.2.1, hst4.2.1]
                    · rw [this.2.2.1, hst4.2.2]
                    · exact Nat.le_trans hcntmono this.2.2.2.1
                  · rw [Bool.not_eq_true] at hsolved
                    rw [hsolved] at h
                    simp only [Bool.false_eq_true, if_false] at h
                    have := dfsLoop_master ihrec rest depth none rightmost
                      displayIdx (idx + 1) (subtree + ccount) found _ st' out h
                      (by
                        unfold Keys
                        rw [hst4.2.2, hst4.2.1]
                        exact hkeys)
                      (by
                        unfold unusedCount
                        rw [hst4.1]
                        exact hcount)
                      (by
                        show (unapplyT st3 name shifted).nodeCounter ≤ maxN
                        exact hcle)
                      (by
                        intro a ha
                        have := hhyg a (List.mem_cons_of_mem _ ha)
                        rw [hst4.1, hst4.2.1]
                        exact this)
                    refine ⟨?_, ?_, ?_, ?_, this.2.2.2.2⟩
                    · rw [this.1, hst4.1]
                    · rw [this.2.1, hst4.2.1]
                    · rw [this.2.2.1, hst4.2.2]
                    · exact Nat.le_trans hcntmono this.2.2.2.1
    · rw [if_neg hdisp] at h
      exact dfsLoop_master ihrec rest depth did rightmost displayIdx (idx + 1) subtree
        found st st' out h hkeys hcount hentry
        (fun a ha => hhyg a (List.mem_cons_of_mem _ ha))

/-- Every attempt of `attemptsFor` names a selected unused piece whose cells
are all fresh. -/
theorem attemptsFor_hyg {pb : Problem} {ep : Bool} {st : TState} {ar ac : Int} :
    ∀ a ∈ attemptsFor pb ep st ar ac,
      a.2.1 ∈ pb.selected_pieces ∧ a.2.1 ∉ st.used ∧ ∀ x ∈ a.2.2, x ∉ st.filled :=
  fun a ha =>
    have hm := attemptsFor_mem ha
    ⟨hm.1, hm.2.1, fun x hx => (canPlaceT_spec hm.2.2.1 x hx).2⟩

/-- Fuel-indexed master lemma for `dfs`: any call restores the used set, the
filled set and the board, advances the node counter, reports abort exactly
when the counter has passed the budget, and never claims a solution while
aborting. -/
theorem dfsGo_master {pb : Problem} {ep : Bool} {mdc maxN : Nat} :
    ∀ (f depth : Nat) (did : Option Nat) (st st' : TState) (sv : Bool)
      (cnt : Nat) (ab : Bool),
      dfsGo pb ep mdc maxN f depth did st = (st', sv, cnt, ab) →
      Keys st → unusedCount pb st < f → DfsOut maxN st st' sv ab
  | 0, depth, did, st, st', sv, cnt, ab => fun _ _ hcount =>
      absurd hcount (Nat.not_lt_zero _)
  | f + 1, depth, did, st, st', sv, cnt, ab => by
    intro h hkeys hcount
    rw [dfsGo_succ] at h
    simp only [dfsBody] at h
    split at h
    · next hcond =>
      injection h with h1 h2
      injection h2 with h2 h3
      injection h3 with h3 h4
      subst h1; subst h2; subst h4
      exact ⟨rfl, rfl, rfl, Nat.le_succ _,
        ⟨fun _ => hcond, fun _ => rfl⟩, fun _ => rfl⟩
    · next hcond =>
      split at h
      · split at h
        · next i =>
          injection h with h1 h2
          injection h2 with h2 h3
          injection h3 with h3 h4
          subst h1; subst h2; subst h4
          exact ⟨rfl, rfl, rfl, Nat.le_succ _,
            ⟨fun hff => Bool.noConfusion hff, fun hlt => absurd hlt hcond⟩,
            fun hff => Bool.noConfusion hff⟩
        · injection h with h1 h2
          injection h2 with h2 h3
          injection h3 with h3 h4
          subst h1; subst h2; subst h4
          exact ⟨rfl, rfl, rfl, Nat.le_succ _,
            ⟨fun hff => Bool.noConfusion hff, fun hlt => absurd hlt hcond⟩,
            fun hff => Bool.noConfusion hff⟩
      · next anchor heqFE =>
        split at h
        · split at h
          · next st5 solved cnt2 aborted heq =>
            have hml := dfsLoop_master (fun d di s s2 v c a hh hk hc =>
                dfsGo_master f d di s s2 v c a hh hk hc)
              _ _ _ _ _ _ _ _ _ _ _ heq hkeys hcount
              (Nat.le_of_not_lt hcond) attemptsFor_hyg
            injection h with h1 h2
            injection h2 with h2 h3
            injection h3 with h3 h4
            subst h1; subst h2; subst h4
            exact ⟨hml.1, hml.2.1, hml.2.2.1,
              Nat.le_trans (Nat.le_succ _) hml.2.2.2.1,
              hml.2.2.2.2.1, hml.2.2.2.2.2⟩
          · next st5 found cnt2 heq =>
            have hml := dfsLoop_master (fun d di s s2 v c a hh hk hc =>
                dfsGo_master f d di s s2 v c a hh hk hc)
              _ _ _ _ _ _ _ _ _ _ _ heq hkeys hcount
              (Nat.le_of_not_lt hcond) attemptsFor_hyg
            split at h
            · next i =>
              injection h with h1 h2
              injection h2 with h2 h3
              injection h3 with h3 h4
              subst h1; subst h2; subst h4
              exact ⟨hml.1, hml.2.1, hml.2.2.1,
                Nat.le_trans (Nat.le_succ _) hml.2.2.2.1,
                ⟨fun hff => Bool.noConfusion hff,
                 fun hlt => absurd hlt (Nat.not_lt.mpr hml.2.2.2.2)⟩,
                fun hff => Bool.noConfusion hff⟩
            · injection h with h1 h2
              injection h2 with h2 h3
              injection h3 with h3 h4
              subst h1; subst h2; subst h4
              exact ⟨hml.1, hml.2.1, hml.2.2.1,
                Nat.le_trans (Nat.le_succ _) hml.2.2.2.1,
                ⟨fun hff => Bool.noConfusion hff,
                 fun hlt => absurd hlt (Nat.not_lt.mpr hml.2.2.2.2)⟩,
                fun hff => Bool.noConfusion hff⟩
        · split at h
          · next st5 solved cnt2 aborted heq =>
            have hml := dfsLoop_master (fun d di s s2 v c a hh hk hc =>
                dfsGo_master f d di s s2 v c a hh hk hc)
              _ _ _ _ _ _ _ _ _ _ _ heq hkeys hcount
              (Nat.le_of_not_lt hcond) attemptsFor_hyg
            injection h with h1 h2
            injection h2 with h2 h3
            injection h3 with h3 h4
            subst h1; subst h2; subst h4
            exact ⟨hml.1, hml.2.1, hml.2.2.1,
              Nat.le_trans (Nat.le_succ _) hml.2.2.2.1,
              hml.2.2.2.2.1, hml.2.2.2.2.2⟩
          · next st5 found cnt2 heq =>
            have hml := dfsLoop_master (fun d di s s2 v c a hh hk hc =>
                dfsGo_master f d di s s2 v c a hh hk hc)
              _ _ _ _ _ _ _ _ _ _ _ heq hkeys hcount
              (Nat.le_of_not_lt hcond) attemptsFor_hyg
            split at h
            · next i =>
              injection h with h1 h2
              injection h2 with h2 h3
              injection h3 with h3 h4
              subst h1; subst h2; subst h4
              exact ⟨hml.1, hml.2.1, hml.2.2.1,
                Nat.le_trans (Nat.le_succ _) hml.2.2.2.1,
                ⟨fun hff => Bool.noConfusion hff,
                 fun hlt => absurd hlt (Nat.not_lt.mpr hml.2.2.2.2)⟩,
                fun hff => Bool.noConfusion hff⟩
            · injection h with h1 h2
              injection h2 with h2 h3
              injection h3 with h3 h4
              subst h1; subst h2; subst h4
              exact ⟨hml.1, hml.2.1, hml.2.2.1,
                Nat.le_trans (Nat.le_succ _) hml.2.2.2.1,
                ⟨fun hff => Bool.noConfusion hff,
                 fun hlt => absurd hlt (Nat.not_lt.mpr hml.2.2.2.2)⟩,
                fun hff => Bool.noConfusion hff⟩

/-- A one-row five-cell problem with the single piece I, used to instantiate
the budget theorems concretely. -/
def pbW : Problem :=
  { rows := 1, cols := 5, mask_cells := [(0,0),(0,1),(0,2),(0,3),(0,4)]
    selected_pieces := [("I")] }

/-- C5: once the node counter passes `max_nodes` at the top of a recursive
call, `dfs` returns at once with the aborted signal and no solution (each
active frame then unwinds likewise, by the short-circuit in the attempt
loop), and at the `build_trace` level the discarded abort flag is exactly
recoverable by the caller as `total_steps > max_nodes`, with no solution
claimed when it is set — distinguishing budget exhaustion from a completed
fruitless search. -/
theorem claimC5 (pb : Problem) (ep : Bool) (mdd mdc maxN : Nat) :
    (∀ (f depth : Nat) (did : Option Nat) (st : TState),
       maxN < st.nodeCounter + 1 →
       dfsGo pb ep mdc maxN (f + 1) depth did st =
         ({ st with nodeCounter := st.nodeCounter + 1
                    stepElapsed := st.stepElapsed ++ [0] }, false, 1, true)) ∧
    (∀ tr solved cnt aborted,
       buildTraceFull pb ep mdd mdc maxN = (tr, solved, cnt, aborted) →
       (aborted = true ↔ maxN < tr.total_steps) ∧
       (aborted = true → solved = false)) := by
  constructor
  · intro f depth did st hcond
    rw [dfsGo_succ]
    simp only [dfsBody]
    rw [if_pos hcond]
  · intro tr solved cnt aborted htr
    unfold buildTraceFull at htr
    cases hc : createNode none 0 false false initTState with
    | mk rootId st1 =>
      rw [hc] at htr
      simp only at htr
      cases hgo : dfsGo pb ep mdc maxN (pb.selected_pieces.length + 1) 0 (some rootId)
          st1 with
      | mk st2 rest =>
        cases rest with
        | mk solved2 rest2 =>
          cases rest2 with
          | mk cnt2 aborted2 =>
            rw [hgo] at htr
            simp only at htr
            injection htr with h1 h2
            injection h2 with h2 h3
            injection h3 with h3 h4
            subst h1; subst h2; subst h4
            have hkeys1 : Keys st1 := by
              have h5 : st1 = (createNode none 0 false false initTState).2 := by
                rw [hc]
              rw [h5]; rfl
            have hml := dfsGo_master (pb.selected_pieces.length + 1) 0 (some rootId)
              st1 st2 solved2 cnt2 aborted2 hgo hkeys1
              (Nat.lt_succ_of_le (List.length_filter_le _ _))
            exact ⟨hml.2.2.2.2.1, hml.2.2.2.2.2⟩

/-- C5 at a concrete input: the first call on the five-cell problem with a
zero node budget aborts immediately, and the full run reports it. -/
theorem claimC5_witness :
    (0 < initTState.nodeCounter + 1 ∧
     dfsGo pbW true 3 0 1 0 none initTState =
       ({ initTState with nodeCounter := initTState.nodeCounter + 1
                          stepElapsed := initTState.stepElapsed ++ [0] },
        false, 1, true)) ∧
    buildTraceFull pbW true 3 3 0 =
      ((buildTraceFull pbW true 3 3 0).1, false, 1, true) ∧
    (true = true ↔ 0 < (buildTraceFull pbW true 3 3 0).1.total_steps) ∧
    (true = true → false = false) :=
  ⟨⟨by decide, (claimC5 pbW true 3 3 0).1 0 0 none initTState (by decide)⟩,
   by decide,
   (claimC5 pbW true 3 3 0).2 (buildTraceFull pbW true 3 3 0).1 false 1 true
     (by decide)⟩

/-- The filled-set invariant of the trace search: a multiple of five distinct
cells, all belonging to the mask. -/
def Fil (pb : Problem) (st : TState) : Prop :=
  st.filled.length % 5 = 0 ∧ st.filled.Nodup ∧ ∀ x ∈ st.filled, x ∈ pb.mask_cells

theorem Fil_applyT {pb : Problem} {st : TState} {name : String} {shifted : List Cell}
    (hfil : Fil pb st) (hmem : ∀ x ∈ shifted, x ∈ pb.mask_cells ∧ x ∉ st.filled)
    (hlen : shifted.length % 5 = 0) (hnd : shifted.Nodup) :
    Fil pb (applyT st name shifted) := by
  refine ⟨?_, ?_, ?_⟩
  · show (st.filled ++ shifted).length % 5 = 0
    rw [List.length_append]
    have h1 := hfil.1
    omega
  · show (st.filled ++ shifted).Nodup
    rw [List.nodup_append]
    exact ⟨hfil.2.1, hnd, fun x hx hx2 => (hmem x hx2).2 hx⟩
  · intro x hx
    have hx2 : x ∈ st.filled ++ shifted := hx
    rcases List.mem_append.mp hx2 with h1 | h2
    · exact hfil.2.2 x h1
    · exact (hmem x h2).1

/-- When the recorder finds no empty mask cell, the filled invariant forces
the mask size to be a multiple of five. -/
theorem mask_mod5_of_firstEmptyT_none {pb : Problem} {st : TState}
    (h : firstEmptyT pb st = none) (hfil : Fil pb st)
    (hnd : pb.mask_cells.Nodup) : pb.mask_cells.length % 5 = 0 := by
  unfold firstEmptyT at h
  have hsub : ∀ x ∈ pb.mask_cells, x ∈ st.filled := by
    intro x hx
    have hx2 : x ∈ sortCells pb.mask_cells := sortCells_mem.mpr hx
    have h3 := List.find?_eq_none.mp h x hx2
    simpa using h3
  have hperm : st.filled.Perm pb.mask_cells := by
    rw [List.perm_ext_iff_of_nodup hfil.2.1 hnd]
    intro a
    exact ⟨fun ha => hfil.2.2 a ha, fun ha => hsub a ha⟩
  rw [← hperm.length_eq]
  exact hfil.1

/-- The extended attempt hygiene: each attempt also keeps its cells inside
the mask with a five-multiple of distinct cells. -/
theorem attemptsFor_hygA {pb : Problem} {ep : Bool} {st : TState} {ar ac : Int} :
    ∀ a ∈ attemptsFor pb ep st ar ac,
      a.2.1 ∈ pb.selected_pieces ∧ a.2.1 ∉ st.used ∧
      (∀ x ∈ a.2.2, x ∈ pb.mask_cells ∧ x ∉ st.filled) ∧
      a.2.2.length % 5 = 0 ∧ a.2.2.Nodup :=
  fun a ha =>
    have hm := attemptsFor_mem ha
    ⟨hm.1, hm.2.1, fun x hx => canPlaceT_spec hm.2.2.1 x hx, hm.2.2.2.1, hm.2.2.2.2⟩

theorem dfsLoop_nosolve {pb : Problem} {ep : Bool} {mdc maxN : Nat} {f : Nat}
    (ihsolve : ∀ depth did st st' sv cnt ab,
      dfsGo pb ep mdc maxN f depth did st = (st', sv, cnt, ab) →
      Keys st → unusedCount pb st < f → Fil pb st → sv = false) :
    ∀ (attempts : List (AKind × String × List Cell)) (depth : Nat) (did : Option Nat)
      (rightmost : Int) (displayIdx : List Int) (idx subtree : Nat) (found : Bool)
      (st st' : TState) (out : LoopOut),
      dfsLoop pb ep maxN (dfsGo pb ep mdc maxN f) depth did rightmost displayIdx
        attempts idx subtree found st = (st', out) →
      Keys st → unusedCount pb st < f + 1 → Fil pb st →
      (∀ a ∈ attempts, a.2.1 ∈ pb.selected_pieces ∧ a.2.1 ∉ st.used ∧
        (∀ x ∈ a.2.2, x ∈ pb.mask_cells ∧ x ∉ st.filled) ∧
        a.2.2.length % 5 = 0 ∧ a.2.2.Nodup) →
      (match out with
       | LoopOut.early sv _ _ => sv = false
       | LoopOut.fell fnd _ => fnd = found)
  | [], depth, did, rightmost, displayIdx, idx, subtree, found, st, st', out => by
    intro h _ _ _ _
    rw [dfsLoop.eq_def] at h
    simp only at h
    have h2 := congrArg Prod.snd h
    simp only at h2
    subst h2
    rfl
  | (kind, name, shifted) :: rest, depth, did, rightmost, displayIdx, idx, subtree,
      found, st, st', out => by
    intro h hkeys hcount hfil hhyg
    have hhyg0 := hhyg (kind, name, shifted) (List.mem_cons_self _ _)
    rw [dfsLoop.eq_def] at h
    simp only at h
    by_cases hdisp : (idx : Int) ∈ displayIdx
    · rw [if_pos hdisp] at h
      cases kind with
      | pruned =>
        cases did with
        | some i =>
          simp only at h
          cases hcn : createNode (some i) (depth + 1) true
              ((decide (depth = 0) || (st.nodes.getD i dfltNode).rightmost_chain) &&
                decide ((idx : Int) = rightmost)) (applyT st name shifted) with
          | mk pid st2 =>
            rw [hcn] at h
            simp only at h
            have hst2 := createNode_board (some i) (depth + 1) true
              ((decide (depth = 0) || (st.nodes.getD i dfltNode).rightmost_chain) &&
                decide ((idx : Int) = rightmost)) (applyT st name shifted)
            rw [hcn] at hst2
            simp only at hst2
            have hst4 := @unapplyT_fields st
              ({ st2 with events := st2.events ++ [⟨EvKind.exit, pid⟩] })
              name shifted
              (by rw [hst2.1]; rfl) (by rw [hst2.2.1]; rfl) (by rw [hst2.2.2.1]; rfl)
              hhyg0.2.1 (fun x hx => (hhyg0.2.2.1 x hx).2) hkeys
            exact dfsLoop_nosolve ihsolve rest depth (some i) rightmost
              displayIdx (idx + 1) subtree found _ st' out h
              (by
                unfold Keys
                rw [hst4.2.2, hst4.2.1]
                exact hkeys)
              (by
                unfold unusedCount
                rw [hst4.1]
                exact hcount)
              (by
                unfold Fil
                rw [hst4.2.1]
                exact hfil)
              (by
                intro a ha
                have := hhyg a (List.mem_cons_of_mem _ ha)
                rw [hst4.1, hst4.2.1]
                exact this)
        | none =>
          simp only at h
          exact dfsLoop_nosolve ihsolve rest depth none rightmost displayIdx
            (idx + 1) subtree found st st' out h hkeys hcount hfil
            (fun a ha => hhyg a (List.mem_cons_of_mem _ ha))
      | valid =>
        simp only at h
        cases did with
        | some i =>
          simp only at h
          cases hcn : createNode (some i) (depth + 1) false
              ((decide (depth = 0) || (st.nodes.getD i dfltNode).rightmost_chain) &&
                decide ((idx : Int) = rightmost)) (applyT st name shifted) with
          | mk cid st2 =>
            rw [hcn] at h
            simp only at h
            have hst2 := createNode_board (some i) (depth + 1) false
              ((decide (depth = 0) || (st.nodes.getD i dfltNode).rightmost_chain) &&
                decide ((idx : Int) = rightmost)) (applyT st name shifted)
            rw [hcn] at hst2
            simp only at hst2
            cases hrec : dfsGo pb ep mdc maxN f (depth + 1) (some cid) st2 with
            | mk st3 rest3 =>
              cases rest3 with
              | mk solved rest4 =>
                cases rest4 with
                | mk ccount aborted =>
                  rw [hrec] at h
                  simp only at h
                  have hkeys2 : Keys st2 := by
                    unfold Keys
                    rw [hst2.2.2.1, hst2.2.1]
                    exact Keys_applyT hkeys name shifted
                  have hcount2 : unusedCount pb st2 < f := by
                    unfold unusedCount
                    have hsame : st2.used = st.used.insert name := by
                      rw [hst2.1]
                      rfl
                    have hlt := @unusedCount_insert pb st name hhyg0.1 hhyg0.2.1
                    unfold unusedCount at hcount hlt
                    have hbridge :
                        (pb.selected_pieces.filter
                          (fun n => decide (n ∉ st2.used))).length =
                        (pb.selected_pieces.filter
                          (fun n => decide (n ∉ st.used.insert name))).length := by
                      congr 1
                      apply List.filter_congr
                      intro n _
                      exact decide_eq_decide.mpr (by rw [hsame])
                    omega
                  have hfil2 : Fil pb st2 := by
                    unfold Fil
                    rw [hst2.2.1]
                    exact Fil_applyT hfil hhyg0.2.2.1 hhyg0.2.2.2.1 hhyg0.2.2.2.2
                  have hsolved := ihsolve (depth + 1) (some cid) st2 st3 solved ccount
                    aborted hrec hkeys2 hcount2 hfil2
                  have hml := dfsGo_master f (depth + 1) (some cid) st2 st3 solved
                    ccount aborted hrec hkeys2 hcount2
                  have hst3u : st3.used = st.used.insert name := by
                    rw [hml.1, hst2.1]
                    rfl
                  have hst3f : st3.filled = st.filled ++ shifted := by
                    rw [hml.2.1, hst2.2.1]
                    rfl
                  have hst3b : st3.board = st.board ++ shifted.map (fun rc => (rc, name)) := by
                    rw [hml.2.2.1, hst2.2.2.1]
                    rfl
                  have hst4 := @unapplyT_fields st st3
                    name shifted hst3u hst3f hst3b
                    hhyg0.2.1 (fun x hx => (hhyg0.2.2.1 x hx).2) hkeys
                  by_cases hab : aborted = true
                  · rw [hab] at h
                    simp only [if_pos rfl] at h
                    have h2 := congrArg Prod.snd h
                    simp only at h2
                    subst h2
                    rfl
                  · rw [Bool.not_eq_true] at hab
                    rw [hab] at h
                    simp only [Bool.false_eq_true, if_false] at h
                    rw [hsolved] at h
                    simp only [Bool.false_eq_true, if_false] at h
                    exact dfsLoop_nosolve ihsolve rest depth (some i) rightmost
                      displayIdx (idx + 1) (subtree + ccount) found _ st' out h
                      (by
                        unfold Keys
                        rw [hst4.2.2, hst4.2.1]
                        exact hkeys)
                      (by
                        unfold unusedCount
                        rw [hst4.1]
                        exact hcount)
                      (by
                        unfold Fil
                        rw [hst4.2.1]
                        exact hfil)
                      (by
                        intro a ha
                        have := hhyg a (List.mem_cons_of_mem _ ha)
                        rw [hst4.1, hst4.2.1]
                        exact this)
        | none =>
          simp only at h
          cases hrec : dfsGo pb ep mdc maxN f (depth + 1) none (applyT st name shifted)
            with
          | mk st3 rest3 =>
            cases rest3 with
            | mk solved rest4 =>
              cases rest4 with
              | mk ccount aborted =>
                rw [hrec] at h
                simp only at h
                have hkeys2 : Keys (applyT st name shifted) :=
                  Keys_applyT hkeys name shifted
                have hcount2 : unusedCount pb (applyT st name shifted) < f := by
                  have hsame : (applyT st name shifted).used = st.used.insert name := rfl
                  show (pb.selected_pieces.filter
                    (fun n => decide (n ∉ (applyT st name shifted).used))).length < f
                  have hlt := @unusedCount_insert pb st name hhyg0.1 hhyg0.2.1
                  unfold unusedCount at hcount hlt
                  have hbridge :
                      (pb.selected_pieces.filter
                        (fun n => decide (n ∉ (applyT st name shifted).used))).length =
                      (pb.selected_pieces.filter
                        (fun n => decide (n ∉ st.used.insert name))).length := rfl
                  omega
                have hfil2 : Fil pb (applyT st name shifted) :=
                  Fil_applyT hfil hhyg0.2.2.1 hhyg0.2.2.2.1 hhyg0.2.2.2.2
                have hsolved := ihsolve (depth + 1) none (applyT st name shifted) st3
                  solved ccount aborted hrec hkeys2 hcount2 hfil2
                have hml := dfsGo_master f (depth + 1) none (applyT st name shifted)
                  st3 solved ccount aborted hrec hkeys2 hcount2
                have hst3u : st3.used = st.used.insert name := hml.1
                have hst3f : st3.filled = st.filled ++ shifted := hml.2.1
                have hst3b : st3.board = st.board ++ shifted.map (fun rc => (rc, name)) :=
                  hml.2.2.1
                have hst4 := @unapplyT_fields st st3
                  name shifted hst3u hst3f hst3b
                  hhyg0.2.1 (fun x hx => (hhyg0.2.2.1 x hx).2) hkeys
                by_cases hab : aborted = true
                · rw [hab] at h
                  simp only [if_pos rfl] at h
                  have h2 := congrArg Prod.snd h
                  simp only at h2
                  subst h2
                  rfl
                · rw [Bool.not_eq_true] at hab
                  rw [hab] at h
                  simp only [Bool.false_eq_true, if_false] at h
                  rw [hsolved] at h
                  simp only [Bool.false_eq_true, if_false] at h
                  exact dfsLoop_nosolve ihsolve rest depth none rightmost
                    displayIdx (idx + 1) (subtree + ccount) found _ st' out h
                    (by
                      unfold Keys
                      rw [hst4.2.2, hst4.2.1]
                      exact hkeys)
                    (by
                      unfold unusedCount
                      rw [hst4.1]
                      exact hcount)
                    (by
                      unfold Fil
                      rw [hst4.2.1]
                      exact hfil)
                    (by
                      intro a ha
                      have := hhyg a (List.mem_cons_of_mem _ ha)
                      rw [hst4.1, hst4.2.1]
                      exact this)
    · rw [if_neg hdisp] at h
      exact dfsLoop_nosolve ihsolve rest depth did rightmost displayIdx (idx + 1)
        subtree found st st' out h hkeys hcount hfil
        (fun a ha => hhyg a (List.mem_cons_of_mem _ ha))

/-- On a mask whose size is not a multiple of five, no call of `dfs` ever
reports a solution. -/
theorem dfsGo_nosolve {pb : Problem} {ep : Bool} {mdc maxN : Nat}
    (hndm : pb.mask_cells.Nodup) (hmod : pb.mask_cells.length % 5 ≠ 0) :
    ∀ (f depth : Nat) (did : Option Nat) (st st' : TState) (sv : Bool)
      (cnt : Nat) (ab : Bool),
      dfsGo pb ep mdc maxN f depth did st = (st', sv, cnt, ab) →
      Keys st → unusedCount pb st < f → Fil pb st → sv = false
  | 0, depth, did, st, st', sv, cnt, ab => fun _ _ hcount _ =>
      absurd hcount (Nat.not_lt_zero _)
  | f + 1, depth, did, st, st', sv, cnt, ab => by
    intro h hkeys hcount hfil
    rw [dfsGo_succ] at h
    simp only [dfsBody] at h
    split at h
    · next hcond =>
      injection h with h1 h2
      injection h2 with h2 h3
      subst h2
      rfl
    · next hcond =>
      split at h
      · next heqFE =>
        exfalso
        have hfil0 : Fil pb ({ st with nodeCounter := st.nodeCounter + 1
                                       stepElapsed := st.stepElapsed ++ [0] } :
            TState) := hfil
        exact hmod (mask_mod5_of_firstEmptyT_none heqFE hfil0 hndm)
      · next anchor heqFE =>
        split at h
        · split at h
          · next st5 solved cnt2 aborted heq =>
            have hl := dfsLoop_nosolve (fun d di s s2 v c a hh hk hc hf =>
                dfsGo_nosolve hndm hmod f d di s s2 v c a hh hk hc hf)
              _ _ _ _ _ _ _ _ _ _ _ heq hkeys hcount hfil attemptsFor_hygA
            injection h with h1 h2
            injection h2 with h2 h3
            subst h2
            exact hl
          · next st5 found2 cnt2 heq =>
            have hl := dfsLoop_nosolve (fun d di s s2 v c a hh hk hc hf =>
                dfsGo_nosolve hndm hmod f d di s s2 v c a hh hk hc hf)
              _ _ _ _ _ _ _ _ _ _ _ heq hkeys hcount hfil attemptsFor_hygA
            split at h
            · next i =>
              injection h with h1 h2
              injection h2 with h2 h3
              subst h2
              exact hl
            · injection h with h1 h2
              injection h2 with h2 h3
              subst h2
              exact hl
        · split at h
          · next st5 solved cnt2 aborted heq =>
            have hl := dfsLoop_nosolve (fun d di s s2 v c a hh hk hc hf =>
                dfsGo_nosolve hndm hmod f d di s s2 v c a hh hk hc hf)
              _ _ _ _ _ _ _ _ _ _ _ heq hkeys hcount hfil attemptsFor_hygA
            injection h with h1 h2
            injection h2 with h2 h3
            subst h2
            exact hl
          · next st5 found2 cnt2 heq =>
            have hl := dfsLoop_nosolve (fun d di s s2 v c a hh hk hc hf =>
                dfsGo_nosolve hndm hmod f d di s s2 v c a hh hk hc hf)
              _ _ _ _ _ _ _ _ _ _ _ heq hkeys hcount hfil attemptsFor_hygA
            split at h
            · next i =>
              injection h with h1 h2
              injection h2 with h2 h3
              subst h2
              exact hl
            · injection h with h1 h2
              injection h2 with h2 h3
              subst h2
              exact hl

/-- A single-cell mask problem (cell count 1, not a multiple of five). -/
def pbW1 : Problem :=
  { rows := 1, cols := 1, mask_cells := [(0,0)], selected_pieces := [("I")] }

/-- C8: on any mask of distinct cells whose count is not a multiple of five,
the trace search never reports a solution, and the pruning oracle rejects the
completely empty board at once. -/
theorem claimC8 (pb : Problem) (ep : Bool) (mdd mdc maxN : Nat)
    (hnd : pb.mask_cells.Nodup) (hmod : pb.mask_cells.length % 5 ≠ 0) :
    (∀ tr solved cnt aborted,
       buildTraceFull pb ep mdd mdc maxN = (tr, solved, cnt, aborted) →
       solved = false) ∧
    has_only_five_multiple_void_regions pb.rows pb.cols pb.mask_cells
      (sortCells pb.mask_cells) [] = false := by
  constructor
  · intro tr solved cnt aborted htr
    unfold buildTraceFull at htr
    cases hc : createNode none 0 false false initTState with
    | mk rootId st1 =>
      rw [hc] at htr
      simp only at htr
      cases hgo : dfsGo pb ep mdc maxN (pb.selected_pieces.length + 1) 0 (some rootId)
          st1 with
      | mk st2 rest =>
        cases rest with
        | mk solved2 rest2 =>
          cases rest2 with
          | mk cnt2 aborted2 =>
            rw [hgo] at htr
            simp only at htr
            injection htr with h1 h2
            injection h2 with h2 h3
            subst h2
            have h5 : st1 = (createNode none 0 false false initTState).2 := by
              rw [hc]
            have hkeys1 : Keys st1 := by
              rw [h5]; rfl
            have hfil1 : Fil pb st1 := by
              rw [h5]
              exact ⟨rfl, List.nodup_nil, fun x hx => absurd hx (List.not_mem_nil x)⟩
            exact dfsGo_nosolve hnd hmod (pb.selected_pieces.length + 1) 0
              (some rootId) st1 st2 solved2 cnt2 aborted2 hgo hkeys1
              (Nat.lt_succ_of_le (List.length_filter_le _ _)) hfil1
  · exact oracle_rejects_nonmultiple pb.rows pb.cols pb.mask_cells hnd hmod

/-- C8 at a concrete input: the single-cell problem is never solved and its
empty board is rejected by the oracle. -/
theorem claimC8_witness :
    pbW1.mask_cells.Nodup ∧ pbW1.mask_cells.length % 5 ≠ 0 ∧
    (buildTraceFull pbW1 true 3 3 100).2.1 = false ∧
    has_only_five_multiple_void_regions pbW1.rows pbW1.cols pbW1.mask_cells
      (sortCells pbW1.mask_cells) [] = false :=
  ⟨by decide, by decide,
   (claimC8 pbW1 true 3 3 100 (by decide) (by decide)).1
     (buildTraceFull pbW1 true 3 3 100).1
     (buildTraceFull pbW1 true 3 3 100).2.1
     (buildTraceFull pbW1 true 3 3 100).2.2.1
     (buildTraceFull pbW1 true 3 3 100).2.2.2 rfl,
   (claimC8 pbW1 true 3 3 100 (by decide) (by decide)).2⟩

/-! Node-table bookkeeping for the display-tree shape claims. -/

theorem updateNode_length (nodes : List NodeData) (i : Nat) (f : NodeData → NodeData) :
    (updateNode nodes i f).length = nodes.length := by
  unfold updateNode
  cases h : nodes.get? i with
  | none => rfl
  | some nd => exact List.length_set _ _ _

theorem updateNode_ge (nodes : List NodeData) (i : Nat) (f : NodeData → NodeData)
    (h : nodes.length ≤ i) : updateNode nodes i f = nodes := by
  unfold updateNode
  have h2 : nodes.get? i = none := by
    rw [List.get?_eq_getElem?]
    exact List.getElem?_len_le h
  rw [h2]

theorem updateNode_getD_ne (nodes : List NodeData) (i : Nat) (f : NodeData → NodeData)
    (j : Nat) (hne : i ≠ j) :
    (updateNode nodes i f).getD j dfltNode = nodes.getD j dfltNode := by
  unfold updateNode
  cases h : nodes.get? i with
  | none => rfl
  | some nd =>
    rw [List.getD_eq_getElem?_getD, List.getD_eq_getElem?_getD, List.getElem?_set_ne hne]

theorem updateNode_getD_self (nodes : List NodeData) (i : Nat) (f : NodeData → NodeData)
    (hi : i < nodes.length) :
    (updateNode nodes i f).getD i dfltNode = f (nodes.getD i dfltNode) := by
  unfold updateNode
  cases h : nodes.get? i with
  | none =>
    exfalso
    rw [List.get?_eq_getElem?] at h
    rw [List.getElem?_eq_none_iff] at h
    omega
  | some nd =>
    rw [List.get?_eq_getElem?] at h
    rw [List.getD_eq_getElem?_getD, List.getElem?_set_self hi]
    rw [List.getD_eq_getElem?_getD, h]
    rfl

/-- The per-node display-shape property: at most three registered children,
and depth within the default display depth unless the node sits on the
highlighted rightmost chain. -/
def NodeOK (nd : NodeData) : Prop :=
  nd.children.length ≤ 3 ∧ (nd.depth ≤ DEFAULT_DISPLAY_DEPTH ∨ nd.rightmost_chain = true)

/-- The node-table invariant: every entry satisfies `NodeOK`. -/
def NTab (nodes : List NodeData) : Prop :=
  ∀ j, j < nodes.length → NodeOK (nodes.getD j dfltNode)

theorem applyT_nodes (st : TState) (name : String) (cells : List Cell) :
    (applyT st name cells).nodes = st.nodes := rfl

theorem unapplyT_nodes (st : TState) (name : String) (cells : List Cell) :
    (unapplyT st name cells).nodes = st.nodes := rfl

theorem createNode_some_effects (i d : Nat) (pr rm : Bool) (st : TState) :
    (createNode (some i) d pr rm st).1 = st.nodes.length ∧
    (createNode (some i) d pr rm st).2.nodes.length = st.nodes.length + 1 ∧
    (∀ j, j < st.nodes.length → j ≠ i →
      (createNode (some i) d pr rm st).2.nodes.getD j dfltNode =
        st.nodes.getD j dfltNode) ∧
    (i < st.nodes.length →
      ((createNode (some i) d pr rm st).2.nodes.getD i dfltNode).children =
        (st.nodes.getD i dfltNode).children ++ [st.nodes.length] ∧
      ((createNode (some i) d pr rm st).2.nodes.getD i dfltNode).depth =
        (st.nodes.getD i dfltNode).depth ∧
      ((createNode (some i) d pr rm st).2.nodes.getD i dfltNode).rightmost_chain =
        (st.nodes.getD i dfltNode).rightmost_chain) ∧
    (i < st.nodes.length →
      ((createNode (some i) d pr rm st).2.nodes.getD st.nodes.length dfltNode).children
          = [] ∧
      ((createNode (some i) d pr rm st).2.nodes.getD st.nodes.length dfltNode).depth = d ∧
      ((createNode (some i) d pr rm st).2.nodes.getD st.nodes.length
          dfltNode).rightmost_chain = rm) := by
  unfold createNode
  dsimp only
  refine ⟨rfl, ?_, ?_, ?_, ?_⟩
  · rw [updateNode_length, List.length_append]
    rfl
  · intro j hj hji
    rw [updateNode_getD_ne _ _ _ _ (fun he => hji he.symm)]
    exact List.getD_append _ _ _ j hj
  · intro hi
    rw [updateNode_getD_self]
    · rw [List.getD_append _ _ _ i hi]
      exact ⟨rfl, rfl, rfl⟩
    · rw [List.length_append]
      omega
  · intro hi
    have hne : i ≠ st.nodes.length := Nat.ne_of_lt hi
    rw [updateNode_getD_ne _ _ _ _ hne]
    rw [List.getD_eq_getElem?_getD, List.getElem?_concat_length]
    exact ⟨rfl, rfl, rfl⟩

theorem createNode_none_effects (d : Nat) (pr rm : Bool) (st : TState) :
    (createNode none d pr rm st).1 = st.nodes.length ∧
    (createNode none d pr rm st).2.nodes.length = st.nodes.length + 1 ∧
    (∀ j, j < st.nodes.length →
      (createNode none d pr rm st).2.nodes.getD j dfltNode =
        st.nodes.getD j dfltNode) ∧
    ((createNode none d pr rm st).2.nodes.getD st.nodes.length dfltNode).children = [] ∧
    ((createNode none d pr rm st).2.nodes.getD st.nodes.length dfltNode).depth = d ∧
    ((createNode none d pr rm st).2.nodes.getD st.nodes.length
        dfltNode).rightmost_chain = rm := by
  unfold createNode
  dsimp only
  refine ⟨rfl, by rw [List.length_append]; rfl, ?_, ?_, ?_, ?_⟩
  · intro j hj
    exact List.getD_append _ _ _ j hj
  · rw [List.getD_eq_getElem?_getD, List.getElem?_concat_length]
    rfl
  · rw [List.getD_eq_getElem?_getD, List.getElem?_concat_length]
    rfl
  · rw [List.getD_eq_getElem?_getD, List.getElem?_concat_length]
    rfl

theorem finalizeNode_getD (st : TState) (i s j : Nat) :
    ((finalizeNode st i s).nodes.getD j dfltNode).children =
      (st.nodes.getD j dfltNode).children ∧
    ((finalizeNode st i s).nodes.getD j dfltNode).depth =
      (st.nodes.getD j dfltNode).depth ∧
    ((finalizeNode st i s).nodes.getD j dfltNode).rightmost_chain =
      (st.nodes.getD j dfltNode).rightmost_chain := by
  unfold finalizeNode
  dsimp only
  by_cases hij : i = j
  · subst hij
    by_cases hi : i < st.nodes.length
    · rw [updateNode_getD_self _ _ _ hi]
      exact ⟨rfl, rfl, rfl⟩
    · rw [updateNode_ge _ _ _ (Nat.le_of_not_lt hi)]
      exact ⟨rfl, rfl, rfl⟩
  · rw [updateNode_getD_ne _ _ _ _ hij]
    exact ⟨rfl, rfl, rfl⟩

theorem finalizeNode_nlength (st : TState) (i s : Nat) :
    (finalizeNode st i s).nodes.length = st.nodes.length := by
  unfold finalizeNode
  dsimp only
  exact updateNode_length _ _ _

theorem finalizeNode_NTab {st : TState} (i s : Nat) (h : NTab st.nodes) :
    NTab (finalizeNode st i s).nodes := by
  intro j hj
  rw [finalizeNode_nlength] at hj
  have hf := finalizeNode_getD st i s j
  have := h j hj
  unfold NodeOK at this ⊢
  rw [hf.1, hf.2.1, hf.2.2]
  exact this

theorem displayFor_length {mdc : Nat} (hmdc : mdc ≤ 3) (pic : Bool)
    (attempts : List (AKind × String × List Cell)) (r : Int) :
    (displayFor mdc pic attempts r).length ≤ 3 := by
  unfold displayFor
  by_cases hp : pic = true
  · rw [if_pos hp]
    exact Nat.le_succ_of_le (Nat.le_succ _)
  · rw [if_neg hp]
    by_cases hl : attempts.length ≤ mdc
    · rw [if_pos hl]
      rw [List.length_map, List.length_range]
      omega
    · rw [if_neg hl]
      exact Nat.le_refl _

theorem displayFor_chain_mem {mdc : Nat} {attempts : List (AKind × String × List Cell)}
    {r v : Int} (h : v ∈ displayFor mdc true attempts r) : v = r := by
  unfold displayFor at h
  rw [if_pos rfl] at h
  simpa using h

theorem finalizeNode_getD_ne (st : TState) (i s j : Nat) (hne : i ≠ j) :
    (finalizeNode st i s).nodes.getD j dfltNode = st.nodes.getD j dfltNode := by
  unfold finalizeNode
  dsimp only
  exact updateNode_getD_ne _ _ _ _ hne

/-- One step of the display-budget bookkeeping: consuming a displayed index
removes it from the budget list. -/
theorem bdg_step {B displayIdx : List Int} {idx : Nat} (hnd : B.Nodup)
    (hcov : ∀ v : Int, v ∈ displayIdx → (idx : Int) ≤ v → v ∈ B)
    (hmem : (idx : Int) ∈ displayIdx) :
    (B.erase (idx : Int)).Nodup ∧
    (∀ v : Int, v ∈ displayIdx → ((idx + 1 : Nat) : Int) ≤ v →
      v ∈ B.erase (idx : Int)) ∧
    (B.erase (idx : Int)).length + 1 = B.length ∧ 1 ≤ B.length := by
  have hmB : (idx : Int) ∈ B := hcov _ hmem (Int.le_refl _)
  have hpos : 1 ≤ B.length := List.length_pos.mpr (List.ne_nil_of_mem hmB)
  refine ⟨hnd.erase _, ?_, ?_, hpos⟩
  · intro v hv hle
    have h1 : (idx : Int) ≤ v := by push_cast at hle; omega
    have h2 : v ≠ (idx : Int) := by push_cast at hle; omega
    exact (List.mem_erase_of_ne h2).mpr (hcov v hv h1)
  · rw [List.length_erase_of_mem hmB]
    omega

/-- Effect of registering one display child under parent `i` on the node
table. -/
theorem NTab_after_create {st : TState} {dep : Nat} {pr rm : Bool}
    {name : String} {shifted : List Cell} {pid : Nat} {st2 : TState} {i : Nat}
    (hcn : createNode (some i) dep pr rm (applyT st name shifted) = (pid, st2))
    (hntab : NTab st.nodes) (hi : i < st.nodes.length)
    (hchild : (st.nodes.getD i dfltNode).children.length ≤ 2)
    (hok : dep ≤ DEFAULT_DISPLAY_DEPTH ∨ rm = true) :
    NTab st2.nodes ∧ st2.nodes.length = st.nodes.length + 1 ∧
    pid = st.nodes.length ∧
    (∀ j, j < st.nodes.length → j ≠ i →
      st2.nodes.getD j dfltNode = st.nodes.getD j dfltNode) ∧
    (st2.nodes.getD i dfltNode).children =
      (st.nodes.getD i dfltNode).children ++ [st.nodes.length] ∧
    (st2.nodes.getD i dfltNode).depth = (st.nodes.getD i dfltNode).depth ∧
    (st2.nodes.getD i dfltNode).rightmost_chain =
      (st.nodes.getD i dfltNode).rightmost_chain ∧
    (st2.nodes.getD st.nodes.length dfltNode).children = [] := by
  have hce := createNode_some_effects i dep pr rm (applyT st name shifted)
  rw [applyT_nodes] at hce
  rw [hcn] at hce
  dsimp only at hce
  have h2 := hce.2.1
  have h3 := hce.2.2.1
  have h4 := hce.2.2.2.1 hi
  have h5 := hce.2.2.2.2 hi
  refine ⟨?_, h2, hce.1, h3, h4.1, h4.2.1, h4.2.2, h5.1⟩
  intro j hj
  rw [h2] at hj
  by_cases hji : j = i
  · rw [hji]
    unfold NodeOK
    rw [h4.1, h4.2.1, h4.2.2]
    refine ⟨?_, (hntab i hi).2⟩
    rw [List.length_append, List.length_singleton]
    omega
  · by_cases hjn : j = st.nodes.length
    · rw [hjn]
      unfold NodeOK
      rw [h5.1, h5.2.1, h5.2.2]
      exact ⟨by simp, hok⟩
    · have hjlt : j < st.nodes.length := by omega
      rw [h3 j hjlt hji]
      exact hntab j hjlt

theorem dfsLoop_nodes {pb : Problem} {ep : Bool} {mdc maxN : Nat} {f : Nat}
    (ihrec : ∀ depth did st st' sv cnt ab,
      dfsGo pb ep mdc maxN f depth did st = (st', sv, cnt, ab) →
      NTab st.nodes →
      (∀ c, did = some c → c < st.nodes.length ∧
        (st.nodes.getD c dfltNode).children = []) →
      NTab st'.nodes ∧ st.nodes.length ≤ st'.nodes.length ∧
      (∀ j, j < st.nodes.length → did ≠ some j →
        st'.nodes.getD j dfltNode = st.nodes.getD j dfltNode)) :
    ∀ (attempts : List (AKind × String × List Cell)) (depth : Nat) (did : Option Nat)
      (rightmost : Int) (displayIdx : List Int) (idx subtree : Nat) (found : Bool)
      (st st' : TState) (out : LoopOut) (B : List Int),
      dfsLoop pb ep maxN (dfsGo pb ep mdc maxN f) depth did rightmost displayIdx
        attempts idx subtree found st = (st', out) →
      NTab st.nodes →
      (∀ i, did = some i → i < st.nodes.length ∧
        B.Nodup ∧
        (∀ v : Int, v ∈ displayIdx → (idx : Int) ≤ v → v ∈ B) ∧
        (st.nodes.getD i dfltNode).children.length + B.length ≤ 3 ∧
        (∀ k : Nat, idx ≤ k → ((k : Int) ∈ displayIdx) →
          depth + 1 ≤ DEFAULT_DISPLAY_DEPTH ∨
            ((decide (depth = 0) || (st.nodes.getD i dfltNode).rightmost_chain) &&
              decide ((k : Int) = rightmost)) = true)) →
      NTab st'.nodes ∧ st.nodes.length ≤ st'.nodes.length ∧
      (∀ j, j < st.nodes.length → did ≠ some j →
        st'.nodes.getD j dfltNode = st.nodes.getD j dfltNode)
  | [], depth, did, rightmost, displayIdx, idx, subtree, found, st, st', out, B => by
    intro h hntab _
    rw [dfsLoop.eq_def] at h
    simp only at h
    have h1 := congrArg Prod.fst h
    simp only at h1
    subst h1
    exact ⟨hntab, Nat.le_refl _, fun j _ _ => rfl⟩
  | (kind, name, shifted) :: rest, depth, did, rightmost, displayIdx, idx, subtree,
      found, st, st', out, B => by
    intro h hntab hB
    rw [dfsLoop.eq_def] at h
    simp only at h
    by_cases hdisp : (idx : Int) ∈ displayIdx
    · rw [if_pos hdisp] at h
      cases kind with
      | pruned =>
        cases did with
        | some i =>
          simp only at h
          cases hcn : createNode (some i) (depth + 1) true
              ((decide (depth = 0) || (st.nodes.getD i dfltNode).rightmost_chain) &&
                decide ((idx : Int) = rightmost)) (applyT st name shifted) with
          | mk pid st2 =>
            rw [hcn] at h
            simp only at h
            have hBi := hB i rfl
            have hmB : (idx : Int) ∈ B := hBi.2.2.1 _ hdisp (Int.le_refl _)
            have hbd := bdg_step hBi.2.1 hBi.2.2.1 hdisp
            have hchild : (st.nodes.getD i dfltNode).children.length ≤ 2 := by
              have hc1 := hBi.2.2.2.1
              have hc2 := hbd.2.2.2
              omega
            have hca := NTab_after_create hcn hntab hBi.1 hchild
              (hBi.2.2.2.2 idx (Nat.le_refl _) hdisp)
            have hrest := dfsLoop_nodes ihrec rest depth (some i) rightmost
              displayIdx (idx + 1) subtree found _ st' out (B.erase (idx : Int)) h
              (by
                show NTab st2.nodes
                exact hca.1)
              (by
                intro i2 hdid
                injection hdid with hdid
                subst hdid
                refine ⟨?_, hbd.1, hbd.2.1, ?_, ?_⟩
                · show i < st2.nodes.length
                  rw [hca.2.1]
                  omega
                · show (st2.nodes.getD i dfltNode).children.length +
                    (B.erase (idx : Int)).length ≤ 3
                  have hc5 : (st2.nodes.getD i dfltNode).children.length =
                      (st.nodes.getD i dfltNode).children.length + 1 := by
                    rw [hca.2.2.2.2.1, List.length_append, List.length_singleton]
                  have hc1 := hBi.2.2.2.1
                  have hc2 := hbd.2.2.1
                  omega
                · intro k hk hkmem
                  have hd := hBi.2.2.2.2 k (Nat.le_of_succ_le hk) hkmem
                  rcases hd with hl | hr
                  · exact Or.inl hl
                  · refine Or.inr ?_
                    show ((decide (depth = 0) ||
                      (st2.nodes.getD i dfltNode).rightmost_chain) &&
                      decide ((k : Int) = rightmost)) = true
                    rw [hca.2.2.2.2.2.2.1]
                    exact hr)
            refine ⟨hrest.1, ?_, ?_⟩
            · have h1 := hrest.2.1
              have h2 : (unapplyT { st2 with
                  events := st2.events ++ [⟨EvKind.exit, pid⟩] }
                  name shifted).nodes.length = st.nodes.length + 1 := by
                show st2.nodes.length = st.nodes.length + 1
                exact hca.2.1
              omega
            · intro j hj hdidj
              have hji : j ≠ i := by
                intro he
                exact hdidj (by rw [he])
              rw [hrest.2.2 j (by
                show j < st2.nodes.length
                rw [hca.2.1]
                omega) hdidj]
              show st2.nodes.getD j dfltNode = st.nodes.getD j dfltNode
              exact hca.2.2.2.1 j hj hji
        | none =>
          simp only at h
          exact dfsLoop_nodes ihrec rest depth none rightmost displayIdx
            (idx + 1) subtree found st st' out B h hntab
            (fun i hdid => Option.noConfusion hdid)
      | valid =>
        simp only at h
        cases did with
        | some i =>
          simp only at h
          cases hcn : createNode (some i) (depth + 1) false
              ((decide (depth = 0) || (st.nodes.getD i dfltNode).rightmost_chain) &&
                decide ((idx : Int) = rightmost)) (applyT st name shifted) with
          | mk cid st2 =>
            rw [hcn] at h
            simp only at h
            have hBi := hB i rfl
            have hmB : (idx : Int) ∈ B := hBi.2.2.1 _ hdisp (Int.le_refl _)
            have hbd := bdg_step hBi.2.1 hBi.2.2.1 hdisp
            have hchild : (st.nodes.getD i dfltNode).children.length ≤ 2 := by
              have hc1 := hBi.2.2.2.1
              have hc2 := hbd.2.2.2
              omega
            have hca := NTab_after_create hcn hntab hBi.1 hchild
              (hBi.2.2.2.2 idx (Nat.le_refl _) hdisp)
            cases hrec : dfsGo pb ep mdc maxN f (depth + 1) (some cid) st2 with
            | mk st3 rest3 =>
              cases rest3 with
              | mk solved rest4 =>
                cases rest4 with
                | mk ccount aborted =>
                  rw [hrec] at h
                  simp only at h
                  have hih := ihrec (depth + 1) (some cid) st2 st3 solved ccount
                    aborted hrec hca.1
                    (by
                      intro c hc
                      injection hc with hc
                      subst hc
                      constructor
                      · rw [hca.2.2.1, hca.2.1]
                        omega
                      · rw [hca.2.2.1]
                        exact hca.2.2.2.2.2.2.2)
                  have hcidi : some cid ≠ some i := by
                    rw [hca.2.2.1]
                    intro he
                    injection he with he2
                    omega
                  have hilt2 : i < st2.nodes.length := by
                    rw [hca.2.1]
                    omega
                  have hst3i : st3.nodes.getD i dfltNode =
                      st2.nodes.getD i dfltNode :=
                    hih.2.2 i hilt2 hcidi
                  by_cases hab : aborted = true
                  · rw [hab] at h
                    rw [if_pos rfl] at h
                    have h1 := congrArg Prod.fst h
                    simp only at h1
                    subst h1
                    refine ⟨?_, ?_, ?_⟩
                    · exact finalizeNode_NTab _ _ hih.1
                    · rw [finalizeNode_nlength]
                      show st.nodes.length ≤ st3.nodes.length
                      have h1 := hih.2.1
                      have h2 := hca.2.1
                      omega
                    · intro j hj hdidj
                      have hji : j ≠ i := by
                        intro he
                        exact hdidj (by rw [he])
                      rw [finalizeNode_getD_ne _ _ _ j (fun he => hji he.symm)]
                      show st3.nodes.getD j dfltNode = st.nodes.getD j dfltNode
                      rw [hih.2.2 j (by rw [hca.2.1]; omega) (by
                        rw [hca.2.2.1]
                        intro he
                        injection he with he2
                        omega)]
                      exact hca.2.2.2.1 j hj hji
                  · rw [Bool.not_eq_true] at hab
                    rw [hab] at h
                    simp only [Bool.false_eq_true, if_false] at h
                    have hkont : ∀ (fnd : Bool),
                        dfsLoop pb ep maxN (dfsGo pb ep mdc maxN f) depth (some i)
                          rightmost displayIdx rest (idx + 1) (subtree + ccount) fnd
                          (unapplyT st3 name shifted) = (st', out) →
                        NTab st'.nodes ∧ st.nodes.length ≤ st'.nodes.length ∧
                        (∀ j, j < st.nodes.length → (some i : Option Nat) ≠ some j →
                          st'.nodes.getD j dfltNode = st.nodes.getD j dfltNode) := by
                      intro fnd hloop
                      have hrest := dfsLoop_nodes ihrec rest depth (some i) rightmost
                        displayIdx (idx + 1) (subtree + ccount) fnd _ st' out
                        (B.erase (idx : Int)) hloop
                        (by
                          show NTab st3.nodes
                          exact hih.1)
                        (by
                          intro i2 hdid
                          injection hdid with hdid
                          subst hdid
                          refine ⟨?_, hbd.1, hbd.2.1, ?_, ?_⟩
                          · show i < st3.nodes.length
                            have h1 := hih.2.1
                            have h2 := hca.2.1
                            omega
                          · show (st3.nodes.getD i dfltNode).children.length +
                              (B.erase (idx : Int)).length ≤ 3
                            rw [hst3i]
                            have hc5 : (st2.nodes.getD i dfltNode).children.length =
                                (st.nodes.getD i dfltNode).children.length + 1 := by
                              rw [hca.2.2.2.2.1, List.length_append,
                                List.length_singleton]
                            have hc1 := hBi.2.2.2.1
                            have hc2 := hbd.2.2.1
                            omega
                          · intro k hk hkmem
                            have hd := hBi.2.2.2.2 k (Nat.le_of_succ_le hk) hkmem
                            rcases hd with hl | hr
                            · exact Or.inl hl
                            · refine Or.inr ?_
                              show ((decide (depth = 0) ||
                                (st3.nodes.getD i dfltNode).rightmost_chain) &&
                                decide ((k : Int) = rightmost)) = true
                              rw [hst3i, hca.2.2.2.2.2.2.1]
                              exact hr)
                      refine ⟨hrest.1, ?_, ?_⟩
                      · have h1 := hrest.2.1
                        have h2 : (unapplyT st3 name shifted).nodes.length =
                            st3.nodes.length := rfl
                        have h3 := hih.2.1
                        have h4 := hca.2.1
                        omega
                      · intro j hj hdidj
                        have hji : j ≠ i := by
                          intro he
                          exact hdidj (by rw [he])
                        rw [hrest.2.2 j (by
                          show j < st3.nodes.length
                          have h3 := hih.2.1
                          have h4 := hca.2.1
                          omega) hdidj]
                        show st3.nodes.getD j dfltNode = st.nodes.getD j dfltNode
                        rw [hih.2.2 j (by rw [hca.2.1]; omega) (by
                          rw [hca.2.2.1]
                          intro he
                          injection he with he2
                          omega)]
                        exact hca.2.2.2.1 j hj hji
                    by_cases hsolved : solved = true
                    · rw [hsolved] at h
                      rw [if_pos rfl] at h
                      by_cases hpic : (st.nodes.getD i dfltNode).rightmost_chain = true
                      · rw [hpic] at h
                        rw [if_pos rfl] at h
                        have h1 := congrArg Prod.fst h
                        simp only at h1
                        subst h1
                        refine ⟨?_, ?_, ?_⟩
                        · exact finalizeNode_NTab _ _ hih.1
                        · rw [finalizeNode_nlength]
                          show st.nodes.length ≤ st3.nodes.length
                          have h1 := hih.2.1
                          have h2 := hca.2.1
                          omega
                        · intro j hj hdidj
                          have hji : j ≠ i := by
                            intro he
                            exact hdidj (by rw [he])
                          rw [finalizeNode_getD_ne _ _ _ j (fun he => hji he.symm)]
                          show st3.nodes.getD j dfltNode = st.nodes.getD j dfltNode
                          rw [hih.2.2 j (by rw [hca.2.1]; omega) (by
                            rw [hca.2.2.1]
                            intro he
                            injection he with he2
                            omega)]
                          exact hca.2.2.2.1 j hj hji
                      · rw [Bool.not_eq_true] at hpic
                        rw [hpic] at h
                        simp only [Bool.false_eq_true, if_false] at h
                        exact hkont true h
                    · rw [Bool.not_eq_true] at hsolved
                      rw [hsolved] at h
                      simp only [Bool.false_eq_true, if_false] at h
                      exact hkont found h
        | none =>
          simp only at h
          cases hrec : dfsGo pb ep mdc maxN f (depth + 1) none (applyT st name shifted)
            with
          | mk st3 rest3 =>
            cases rest3 with
            | mk solved rest4 =>
              cases rest4 with
              | mk ccount aborted =>
                rw [hrec] at h
                simp only at h
                have hih := ihrec (depth + 1) none (applyT st name shifted) st3 solved
                  ccount aborted hrec hntab (fun c hc => Option.noConfusion hc)
                by_cases hab : aborted = true
                · rw [hab] at h
                  rw [if_pos rfl] at h
                  have h1 := congrArg Prod.fst h
                  simp only at h1
                  subst h1
                  refine ⟨hih.1, hih.2.1, ?_⟩
                  intro j hj _
                  show st3.nodes.getD j dfltNode = st.nodes.getD j dfltNode
                  exact hih.2.2 j hj (fun he => Option.noConfusion he)
                · rw [Bool.not_eq_true] at hab
                  rw [hab] at h
                  simp only [Bool.false_eq_true, if_false] at h
                  have hkont : ∀ (fnd : Bool),
                      dfsLoop pb ep maxN (dfsGo pb ep mdc maxN f) depth none
                        rightmost displayIdx rest (idx + 1) (subtree + ccount) fnd
                        (unapplyT st3 name shifted) = (st', out) →
                      NTab st'.nodes ∧ st.nodes.length ≤ st'.nodes.length ∧
                      (∀ j, j < st.nodes.length → (none : Option Nat) ≠ some j →
                        st'.nodes.getD j dfltNode = st.nodes.getD j dfltNode) := by
                    intro fnd hloop
                    have hrest := dfsLoop_nodes ihrec rest depth none rightmost
                      displayIdx (idx + 1) (subtree + ccount) fnd _ st' out B hloop
                      (by
                        show NTab st3.nodes
                        exact hih.1)
                      (fun i hdid => Option.noConfusion hdid)
                    refine ⟨hrest.1, ?_, ?_⟩
                    · have h1 := hrest.2.1
                      have h2 : (unapplyT st3 name shifted).nodes.length =
                          st3.nodes.length := rfl
                      have h3 := hih.2.1
                      have h4 : (applyT st name shifted).nodes.length =
                          st.nodes.length := rfl
                      omega
                    · intro j hj _
                      rw [hrest.2.2 j (by
                        show j < st3.nodes.length
                        have h3 := hih.2.1
                        have h4 : (applyT st name shifted).nodes.length =
                            st.nodes.length := rfl
                        omega) (fun he => Option.noConfusion he)]
                      show st3.nodes.getD j dfltNode = st.nodes.getD j dfltNode
                      exact hih.2.2 j hj (fun he => Option.noConfusion he)
                  by_cases hsolved : solved = true
                  · rw [hsolved] at h
                    rw [if_pos rfl] at h
                    exact hkont true h
                  · rw [Bool.not_eq_true] at hsolved
                    rw [hsolved] at h
                    simp only [Bool.false_eq_true, if_false] at h
                    exact hkont found h
    · rw [if_neg hdisp] at h
      refine dfsLoop_nodes ihrec rest depth did rightmost displayIdx (idx + 1)
        subtree found st st' out B h hntab ?_
      intro i hdid
      have hBi := hB i hdid
      refine ⟨hBi.1, hBi.2.1, ?_, hBi.2.2.2.1, ?_⟩
      · intro v hv hle
        refine hBi.2.2.1 v hv ?_
        have : ((idx : Nat) : Int) ≤ ((idx + 1 : Nat) : Int) := by push_cast; omega
        omega
      · intro k hk hkmem
        exact hBi.2.2.2.2 k (Nat.le_of_succ_le hk) hkmem

theorem dfsLoop_nodes_start {pb : Problem} {ep : Bool} {mdc maxN : Nat} {f : Nat}
    (ihrec : ∀ depth did st st' sv cnt ab,
      dfsGo pb ep mdc maxN f depth did st = (st', sv, cnt, ab) →
      NTab st.nodes →
      (∀ c, did = some c → c < st.nodes.length ∧
        (st.nodes.getD c dfltNode).children = []) →
      NTab st'.nodes ∧ st.nodes.length ≤ st'.nodes.length ∧
      (∀ j, j < st.nodes.length → did ≠ some j →
        st'.nodes.getD j dfltNode = st.nodes.getD j dfltNode))
    {attempts : List (AKind × String × List Cell)} {depth : Nat} {did : Option Nat}
    {rightmost : Int} {displayIdx : List Int} {st st' : TState} {out : LoopOut}
    (h : dfsLoop pb ep maxN (dfsGo pb ep mdc maxN f) depth did rightmost displayIdx
      attempts 0 1 false st = (st', out))
    (hntab : NTab st.nodes)
    (hdid0 : ∀ c, did = some c → c < st.nodes.length ∧
      (st.nodes.getD c dfltNode).children = [])
    (hlen : displayIdx.length ≤ 3)
    (hdepthOK : ∀ i, did = some i → ∀ k : Nat, ((k : Int) ∈ displayIdx) →
      depth + 1 ≤ DEFAULT_DISPLAY_DEPTH ∨
        ((decide (depth = 0) || (st.nodes.getD i dfltNode).rightmost_chain) &&
          decide ((k : Int) = rightmost)) = true) :
    NTab st'.nodes ∧ st.nodes.length ≤ st'.nodes.length ∧
    (∀ j, j < st.nodes.length → did ≠ some j →
      st'.nodes.getD j dfltNode = st.nodes.getD j dfltNode) := by
  refine dfsLoop_nodes ihrec attempts depth did rightmost displayIdx 0 1 false
    st st' out displayIdx.dedup h hntab ?_
  intro i hdid
  refine ⟨(hdid0 i hdid).1, List.nodup_dedup _, ?_, ?_, ?_⟩
  · intro v hv _
    exact List.mem_dedup.mpr hv
  · rw [(hdid0 i hdid).2]
    have h2 : displayIdx.dedup.length ≤ displayIdx.length :=
      (List.dedup_sublist _).length_le
    simp only [List.length_nil]
    omega
  · intro k _ hkmem
    exact hdepthOK i hdid k hkmem

/-- The state at the head of a `dfs` call: the node counter stepped and the
step-elapsed list extended. -/
def bump (st : TState) : TState :=
  { st with nodeCounter := st.nodeCounter + 1, stepElapsed := st.stepElapsed ++ [0] }

/-- Fuel-indexed node-table lemma for `dfs` at display caps of at most three:
the table keeps every node at three children or fewer and within the default
display depth unless flagged on the rightmost chain; existing nodes other
than the current display node are untouched. -/
theorem dfsGo_nodes {pb : Problem} {ep : Bool} {mdc maxN : Nat} (hmdc : mdc ≤ 3) :
    ∀ (f depth : Nat) (did : Option Nat) (st st' : TState) (sv : Bool)
      (cnt : Nat) (ab : Bool),
      dfsGo pb ep mdc maxN f depth did st = (st', sv, cnt, ab) →
      NTab st.nodes →
      (∀ c, did = some c → c < st.nodes.length ∧
        (st.nodes.getD c dfltNode).children = []) →
      NTab st'.nodes ∧ st.nodes.length ≤ st'.nodes.length ∧
      (∀ j, j < st.nodes.length → did ≠ some j →
        st'.nodes.getD j dfltNode = st.nodes.getD j dfltNode)
  | 0, depth, did, st, st', sv, cnt, ab => by
    intro h hntab _
    have h0 : dfsGo pb ep mdc maxN 0 depth did st = (st, false, 1, false) := rfl
    rw [h0] at h
    injection h with h1 h2
    subst h1
    exact ⟨hntab, Nat.le_refl _, fun j _ _ => rfl⟩
  | f + 1, depth, did, st, st', sv, cnt, ab => by
    intro h hntab hdid0
    rw [dfsGo_succ] at h
    simp only [dfsBody] at h
    split at h
    · next hcond =>
      injection h with h1 h2
      subst h1
      exact ⟨hntab, Nat.le_refl _, fun j _ _ => rfl⟩
    · next hcond =>
      split at h
      · split at h
        · next i =>
          injection h with h1 h2
          subst h1
          refine ⟨?_, ?_, ?_⟩
          · exact finalizeNode_NTab _ _ hntab
          · rw [finalizeNode_nlength]
          · intro j hj hdj
            have hji : j ≠ i := by
              intro he
              exact hdj (by rw [he])
            rw [finalizeNode_getD_ne _ _ _ j (fun he => hji he.symm)]
        · injection h with h1 h2
          subst h1
          exact ⟨hntab, Nat.le_refl _, fun j _ _ => rfl⟩
      · next anchor heqFE =>
        split at h
        · next hcond2 =>
          have hdid1 : ∀ c, did = some c → c < (bump st).nodes.length ∧
              ((bump st).nodes.getD c dfltNode).children = [] := hdid0
          have hdOK : ∀ i, did = some i → ∀ k : Nat,
              ((k : Int) ∈ displayFor mdc (chainFlag (bump st) did)
                (attemptsFor pb ep (bump st) anchor.1 anchor.2)
                (rightmostFor pb ep (f + 1) (bump st)
                  (attemptsFor pb ep (bump st) anchor.1 anchor.2))) →
              depth + 1 ≤ DEFAULT_DISPLAY_DEPTH ∨
                ((decide (depth = 0) ||
                  ((bump st).nodes.getD i dfltNode).rightmost_chain) &&
                  decide ((k : Int) = rightmostFor pb ep (f + 1) (bump st)
                    (attemptsFor pb ep (bump st) anchor.1 anchor.2))) = true := by
            intro i hdid k hkmem
            subst hdid
            have hcf : chainFlag (bump st) (some i) =
                ((bump st).nodes.getD i dfltNode).rightmost_chain := rfl
            rw [hcf] at hkmem
            by_cases hpic : ((bump st).nodes.getD i dfltNode).rightmost_chain = true
            · rw [hpic] at hkmem
              have hkR := displayFor_chain_mem hkmem
              refine Or.inr ?_
              rw [hkR, hpic]
              simp
            · have hand := hcond2
              rw [Bool.and_eq_true] at hand
              have hcd : decide (depth <
                  (if ((bump st).nodes.getD i dfltNode).rightmost_chain then
                    RIGHTMOST_BRANCH_DEPTH else DEFAULT_DISPLAY_DEPTH)) = true :=
                hand.1
              rw [Bool.not_eq_true] at hpic
              rw [hpic] at hcd
              simp only [Bool.false_eq_true, if_false] at hcd
              have hlt := of_decide_eq_true hcd
              refine Or.inl ?_
              unfold DEFAULT_DISPLAY_DEPTH at hlt ⊢
              omega
          split at h
          · next st5 solved2 cnt2 aborted2 heq =>
            have hstart := dfsLoop_nodes_start
              (fun d di s s2 v c a hh hn hd =>
                dfsGo_nodes hmdc f d di s s2 v c a hh hn hd)
              heq hntab hdid1 (displayFor_length hmdc _ _ _) hdOK
            injection h with h1 h2
            subst h1
            exact hstart
          · next st5 found2 cnt2 heq =>
            have hstart := dfsLoop_nodes_start
              (fun d di s s2 v c a hh hn hd =>
                dfsGo_nodes hmdc f d di s s2 v c a hh hn hd)
              heq hntab hdid1 (displayFor_length hmdc _ _ _) hdOK
            split at h
            · next i =>
              injection h with h1 h2
              subst h1
              refine ⟨?_, ?_, ?_⟩
              · exact finalizeNode_NTab _ _ hstart.1
              · rw [finalizeNode_nlength]
                exact hstart.2.1
              · intro j hj hdj
                have hji : j ≠ i := by
                  intro he
                  exact hdj (by rw [he])
                rw [finalizeNode_getD_ne _ _ _ j (fun he => hji he.symm)]
                exact hstart.2.2 j hj hdj
            · injection h with h1 h2
              subst h1
              exact hstart
        · next hcondE =>
          split at h
          · next st5 solved2 cnt2 aborted2 heq =>
            have hstart := dfsLoop_nodes_start
              (fun d di s s2 v c a hh hn hd =>
                dfsGo_nodes hmdc f d di s s2 v c a hh hn hd)
              heq hntab hdid0 (by simp)
              (fun i hdid k hk => absurd hk (List.not_mem_nil _))
            injection h with h1 h2
            subst h1
            exact hstart
          · next st5 found2 cnt2 heq =>
            have hstart := dfsLoop_nodes_start
              (fun d di s s2 v c a hh hn hd =>
                dfsGo_nodes hmdc f d di s s2 v c a hh hn hd)
              heq hntab hdid0 (by simp)
              (fun i hdid k hk => absurd hk (List.not_mem_nil _))
            split at h
            · next i =>
              injection h with h1 h2
              subst h1
              refine ⟨?_, ?_, ?_⟩
              · exact finalizeNode_NTab _ _ hstart.1
              · rw [finalizeNode_nlength]
                exact hstart.2.1
              · intro j hj hdj
                have hji : j ≠ i := by
                  intro he
                  exact hdj (by rw [he])
                rw [finalizeNode_getD_ne _ _ _ j (fun he => hji he.symm)]
                exact hstart.2.2 j hj hdj
            · injection h with h1 h2
              subst h1
              exact hstart

theorem append_update_effects (nodes : List NodeData) (pid : Nat) (x : NodeData)
    (hpid : pid < nodes.length) :
    (updateNode (nodes ++ [x]) pid
      (fun nd => { nd with children := nd.children ++ [nodes.length] })).length =
        nodes.length + 1 ∧
    (∀ j, j < nodes.length → j ≠ pid →
      (updateNode (nodes ++ [x]) pid
        (fun nd => { nd with children := nd.children ++ [nodes.length] })).getD j
          dfltNode = nodes.getD j dfltNode) ∧
    ((updateNode (nodes ++ [x]) pid
      (fun nd => { nd with children := nd.children ++ [nodes.length] })).getD pid
        dfltNode).children = (nodes.getD pid dfltNode).children ++ [nodes.length] ∧
    ((updateNode (nodes ++ [x]) pid
      (fun nd => { nd with children := nd.children ++ [nodes.length] })).getD pid
        dfltNode).depth = (nodes.getD pid dfltNode).depth ∧
    ((updateNode (nodes ++ [x]) pid
      (fun nd => { nd with children := nd.children ++ [nodes.length] })).getD pid
        dfltNode).rightmost_chain = (nodes.getD pid dfltNode).rightmost_chain ∧
    (updateNode (nodes ++ [x]) pid
      (fun nd => { nd with children := nd.children ++ [nodes.length] })).getD
        nodes.length dfltNode = x := by
  refine ⟨?_, ?_, ?_, ?_, ?_, ?_⟩
  · rw [updateNode_length, List.length_append]
    rfl
  · intro j hj hjp
    rw [updateNode_getD_ne _ _ _ _ (fun he => hjp he.symm)]
    exact List.getD_append _ _ _ j hj
  · rw [updateNode_getD_self]
    · rw [List.getD_append _ _ _ pid hpid]
    · rw [List.length_append]
      omega
  · rw [updateNode_getD_self]
    · rw [List.getD_append _ _ _ pid hpid]
    · rw [List.length_append]
      omega
  · rw [updateNode_getD_self]
    · rw [List.getD_append _ _ _ pid hpid]
    · rw [List.length_append]
      omega
  · rw [updateNode_getD_ne _ _ _ _ (Nat.ne_of_lt hpid)]
    rw [List.getD_eq_getElem?_getD, List.getElem?_concat_length]
    rfl

theorem cloneChildren_pres {unNodes : List NodeData} {mdd mdc : Nat} {f : Nat}
    (hmdd : mdd ≤ 3) (hmdc : mdc ≤ 3)
    (ihrec : ∀ unId pid nodes events nodes2 events2,
      cloneSubtree unNodes mdd mdc f unId pid nodes events = (nodes2, events2) →
      NTab nodes → pid < nodes.length →
      NTab nodes2 ∧ nodes.length ≤ nodes2.length ∧
      (∀ j, j < nodes.length → j ≠ pid →
        nodes2.getD j dfltNode = nodes.getD j dfltNode) ∧
      (nodes2.getD pid dfltNode).depth = (nodes.getD pid dfltNode).depth ∧
      (nodes2.getD pid dfltNode).rightmost_chain =
        (nodes.getD pid dfltNode).rightmost_chain) :
    ∀ (unChildren : List Nat) (pid : Nat) (nodes : List NodeData)
      (events : List Event) (nodes2 : List NodeData) (events2 : List Event),
      cloneChildren unNodes mdc (cloneSubtree unNodes mdd mdc f) unChildren pid
        nodes events = (nodes2, events2) →
      NTab nodes → pid < nodes.length →
      (nodes.getD pid dfltNode).depth + 1 ≤ 3 →
      NTab nodes2 ∧ nodes.length ≤ nodes2.length ∧
      (∀ j, j < nodes.length → j ≠ pid →
        nodes2.getD j dfltNode = nodes.getD j dfltNode) ∧
      (nodes2.getD pid dfltNode).depth = (nodes.getD pid dfltNode).depth ∧
      (nodes2.getD pid dfltNode).rightmost_chain =
        (nodes.getD pid dfltNode).rightmost_chain
  | [], pid, nodes, events, nodes2, events2 => by
    intro h hn hpid hd1
    injection h with h1 h2
    subst h1
    exact ⟨hn, Nat.le_refl _, fun j _ _ => rfl, rfl, rfl⟩
  | unChild :: rest, pid, nodes, events, nodes2, events2 => by
    intro h hn hpid hd1
    rw [cloneChildren.eq_def] at h
    simp only at h
    split at h
    · injection h with h1 h2
      subst h1
      exact ⟨hn, Nat.le_refl _, fun j _ _ => rfl, rfl, rfl⟩
    · next hguard =>
      rw [Nat.not_le] at hguard
      have hau := append_update_effects nodes pid
        { node_id := nodes.length, parent_id := some pid
          depth := (nodes.getD pid dfltNode).depth + 1
          board := (unNodes.getD unChild dfltNode).board, pruned := false
          counterfactual := true
          rightmost_chain := (unNodes.getD unChild dfltNode).rightmost_chain
          step_at_enter := (unNodes.getD unChild dfltNode).step_at_enter
          elapsed_ms_at_enter := (unNodes.getD unChild dfltNode).elapsed_ms_at_enter
          children := [], elapsed_ms := none, explored_subnodes := 0 } hpid
      cases hcs : cloneSubtree unNodes mdd mdc f unChild nodes.length
          (updateNode (nodes ++
            [{ node_id := nodes.length, parent_id := some pid
               depth := (nodes.getD pid dfltNode).depth + 1
               board := (unNodes.getD unChild dfltNode).board, pruned := false
               counterfactual := true
               rightmost_chain := (unNodes.getD unChild dfltNode).rightmost_chain
               step_at_enter := (unNodes.getD unChild dfltNode).step_at_enter
               elapsed_ms_at_enter :=
                 (unNodes.getD unChild dfltNode).elapsed_ms_at_enter
               children := [], elapsed_ms := none, explored_subnodes := 0 }]) pid
            (fun nd => { nd with children := nd.children ++ [nodes.length] }))
          (events ++ [⟨EvKind.enter, nodes.length⟩]) with
      | mk nodes3 events3 =>
        rw [hcs] at h
        simp only at h
        have hih := ihrec unChild nodes.length _ _ nodes3 events3 hcs
          (by
            intro j hj
            rw [hau.1] at hj
            by_cases hjp : j = pid
            · rw [hjp]
              unfold NodeOK
              rw [hau.2.2.1, hau.2.2.2.1, hau.2.2.2.2.1]
              refine ⟨?_, (hn pid hpid).2⟩
              rw [List.length_append, List.length_singleton]
              omega
            · by_cases hjn : j = nodes.length
              · rw [hjn, hau.2.2.2.2.2]
                unfold NodeOK
                refine ⟨by simp, Or.inl ?_⟩
                show (nodes.getD pid dfltNode).depth + 1 ≤ DEFAULT_DISPLAY_DEPTH
                unfold DEFAULT_DISPLAY_DEPTH
                omega
              · have hjlt : j < nodes.length := by omega
                rw [hau.2.1 j hjlt hjp]
                exact hn j hjlt)
          (by rw [hau.1]; omega)
        have hp3 := hih.2.2.1 pid (by rw [hau.1]; omega) (Nat.ne_of_lt hpid)
        have hrest := cloneChildren_pres hmdd hmdc ihrec rest pid nodes3
          (events3 ++ [⟨EvKind.exit, nodes.length⟩]) nodes2 events2 h hih.1
          (by
            have h1 := hih.2.1
            rw [hau.1] at h1
            omega)
          (by
            rw [hp3, hau.2.2.2.1]
            exact hd1)
        refine ⟨hrest.1, ?_, ?_, ?_, ?_⟩
        · have h1 := hrest.2.1
          have h2 := hih.2.1
          rw [hau.1] at h2
          omega
        · intro j hj hjp
          rw [hrest.2.2.1 j (by
            have h2 := hih.2.1
            rw [hau.1] at h2
            omega) hjp]
          rw [hih.2.2.1 j (by rw [hau.1]; omega) (by
            intro he
            omega)]
          exact hau.2.1 j hj hjp
        · rw [hrest.2.2.2.1, hp3, hau.2.2.2.1]
        · rw [hrest.2.2.2.2, hp3, hau.2.2.2.2.1]

theorem cloneSubtree_pres {unNodes : List NodeData} {mdd mdc : Nat}
    (hmdd : mdd ≤ 3) (hmdc : mdc ≤ 3) :
    ∀ (f : Nat) (unId pid : Nat) (nodes : List NodeData) (events : List Event)
      (nodes2 : List NodeData) (events2 : List Event),
      cloneSubtree unNodes mdd mdc f unId pid nodes events = (nodes2, events2) →
      NTab nodes → pid < nodes.length →
      NTab nodes2 ∧ nodes.length ≤ nodes2.length ∧
      (∀ j, j < nodes.length → j ≠ pid →
        nodes2.getD j dfltNode = nodes.getD j dfltNode) ∧
      (nodes2.getD pid dfltNode).depth = (nodes.getD pid dfltNode).depth ∧
      (nodes2.getD pid dfltNode).rightmost_chain =
        (nodes.getD pid dfltNode).rightmost_chain
  | 0, unId, pid, nodes, events, nodes2, events2 => by
    intro h hn hpid
    injection h with h1 h2
    subst h1
    exact ⟨hn, Nat.le_refl _, fun j _ _ => rfl, rfl, rfl⟩
  | f + 1, unId, pid, nodes, events, nodes2, events2 => by
    intro h hn hpid
    rw [cloneSubtree_succ] at h
    split at h
    · injection h with h1 h2
      subst h1
      exact ⟨hn, Nat.le_refl _, fun j _ _ => rfl, rfl, rfl⟩
    · next hguard =>
      rw [Nat.not_le] at hguard
      exact cloneChildren_pres hmdd hmdc
        (fun unId2 pid2 ns evs ns2 evs2 hh hN hp =>
          cloneSubtree_pres hmdd hmdc f unId2 pid2 ns evs ns2 evs2 hh hN hp)
        ((unNodes.getD unId dfltNode).children.take mdc) pid nodes events
        nodes2 events2 h hn hpid (by omega)

theorem addPrunedAux_pres {unNodes : List NodeData}
    {sigMap : List (List (Cell × String) × Nat)} {mdd mdc : Nat}
    (hmdd : mdd ≤ 3) (hmdc : mdc ≤ 3) :
    ∀ (evs : List Event) (nodes : List NodeData) (events : List Event)
      (nodes2 : List NodeData) (events2 : List Event),
      addPrunedAux unNodes sigMap mdd mdc evs nodes events = (nodes2, events2) →
      NTab nodes → NTab nodes2
  | [], nodes, events, nodes2, events2 => by
    intro h hn
    injection h with h1 h2
    subst h1
    exact hn
  | ev :: evs, nodes, events, nodes2, events2 => by
    intro h hn
    rw [addPrunedAux.eq_def] at h
    simp only at h
    split at h
    · next hcnd =>
      split at h
      · next pr hfind =>
        cases hcs : cloneSubtree unNodes mdd mdc (mdd + 1) pr.2 ev.node_id nodes
            (events ++ [ev]) with
        | mk nodesA eventsA =>
          rw [hcs] at h
          simp only at h
          have hpid : ev.node_id < nodes.length := by
            by_contra hge
            rw [Nat.not_lt] at hge
            have hdf : nodes.getD ev.node_id dfltNode = dfltNode := by
              rw [List.getD_eq_getElem?_getD, List.getElem?_len_le hge]
              rfl
            rw [hdf] at hcnd
            exact absurd hcnd.2 (by decide)
          have hcsp := cloneSubtree_pres hmdd hmdc (mdd + 1) pr.2 ev.node_id nodes
            (events ++ [ev]) nodesA eventsA hcs hn hpid
          exact addPrunedAux_pres hmdd hmdc evs nodesA eventsA nodes2 events2 h hcsp.1
      · exact addPrunedAux_pres hmdd hmdc evs nodes (events ++ [ev]) nodes2 events2
          h hn
    · exact addPrunedAux_pres hmdd hmdc evs nodes (events ++ [ev]) nodes2 events2
        h hn

instance (nd : NodeData) : Decidable (NodeOK nd) := by
  unfold NodeOK
  infer_instance

instance (nodes : List NodeData) : Decidable (NTab nodes) := by
  unfold NTab
  infer_instance

/-- C6: with display caps `max_display_depth = max_display_children = 3` (the
depth cap being the module constant), every node table produced by
`build_trace` — and any grafting of counterfactual descendants onto it —
keeps every node at three children or fewer, and within depth 3 unless the
node is flagged on the highlighted rightmost chain. -/
theorem claimC6 (pb : Problem) (ep : Bool) (mdd mdc maxN : Nat)
    (hmdd : mdd ≤ 3) (hmdc : mdc ≤ 3) :
    NTab (build_trace pb ep mdd mdc maxN).nodes ∧
    ∀ un : TraceResult,
      NTab (add_pruned_descendants_from_unpruned
        (build_trace pb ep mdd mdc maxN) un mdd mdc).nodes := by
  have hbt : NTab (build_trace pb ep mdd mdc maxN).nodes := by
    unfold build_trace buildTraceFull
    cases hc : createNode none 0 false false initTState with
    | mk rootId st1 =>
      simp only
      cases hgo : dfsGo pb ep mdc maxN (pb.selected_pieces.length + 1) 0 (some rootId)
          st1 with
      | mk st2 rest =>
        cases rest with
        | mk solved2 rest2 =>
          cases rest2 with
          | mk cnt2 aborted2 =>
            simp only
            have h5 : st1 = (createNode none 0 false false initTState).2 := by
              rw [hc]
            have h6 : rootId = (createNode none 0 false false initTState).1 := by
              rw [hc]
            have hN1 : NTab st1.nodes := by
              rw [h5]
              decide
            have hcnd : ∀ c, (some rootId : Option Nat) = some c →
                c < st1.nodes.length ∧ (st1.nodes.getD c dfltNode).children = [] := by
              intro c hcc
              injection hcc with hcc
              subst hcc
              rw [h5, h6]
              exact ⟨by decide, by decide⟩
            exact (dfsGo_nodes hmdc (pb.selected_pieces.length + 1) 0 (some rootId)
              st1 st2 solved2 cnt2 aborted2 hgo hN1 hcnd).1
  refine ⟨hbt, ?_⟩
  intro un
  unfold add_pruned_descendants_from_unpruned
  cases hap : addPrunedAux un.nodes (buildSigMap un.nodes un.events []) mdd mdc
      (build_trace pb ep mdd mdc maxN).events (build_trace pb ep mdd mdc maxN).nodes
      [] with
  | mk nodesA eventsA =>
    simp only
    exact addPrunedAux_pres hmdd hmdc _ _ _ _ _ hap hbt

/-- C6 at a concrete input: the five-cell problem's trace and a grafted
version of it. -/
theorem claimC6_witness :
    3 ≤ 3 ∧ NTab (build_trace pbW true 3 3 1000).nodes ∧
    NTab (add_pruned_descendants_from_unpruned (build_trace pbW true 3 3 1000)
      (build_trace pbW false 3 3 1000) 3 3).nodes :=
  ⟨Nat.le_refl 3, (claimC6 pbW true 3 3 1000 (Nat.le_refl 3) (Nat.le_refl 3)).1,
   (claimC6 pbW true 3 3 1000 (Nat.le_refl 3) (Nat.le_refl 3)).2
     (build_trace pbW false 3 3 1000)⟩

/-! A stack checker for the well-nestedness of enter/exit event streams. -/

/-- One step of the nesting checker: an enter pushes an id never seen before,
an exit pops exactly the innermost open id. -/
def checkEv : List Nat × List Nat → Event → Option (List Nat × List Nat)
  | (stack, seen), ⟨EvKind.enter, i⟩ =>
    if i ∈ seen then none else some (i :: stack, i :: seen)
  | (stack, seen), ⟨EvKind.exit, i⟩ =>
    match stack with
    | [] => none
    | top :: rest => if top = i then some (rest, seen) else none

/-- Run the nesting checker over an event list. -/
def runCheck : List Event → List Nat × List Nat → Option (List Nat × List Nat)
  | [], s => some s
  | ev :: evs, s =>
    match checkEv s ev with
    | some s2 => runCheck evs s2
    | none => none

/-- A stream is well nested when the checker accepts it from the empty state
and every opened id is closed: every enter has exactly one later matching
exit, exits pop in parenthesis order, and a child id opened inside its parent
is closed before the parent. -/
def wellNested (evs : List Event) : Bool :=
  match runCheck evs ([], []) with
  | some ([], _) => true
  | _ => false

theorem runCheck_append : ∀ (a b : List Event) (s : List Nat × List Nat),
    runCheck (a ++ b) s =
      match runCheck a s with
      | some s2 => runCheck b s2
      | none => none
  | [], b, s => rfl
  | ev :: evs, b, s => by
    cases h : checkEv s ev with
    | some s2 =>
      have h1 : runCheck ((ev :: evs) ++ b) s = runCheck (evs ++ b) s2 := by
        show runCheck (ev :: (evs ++ b)) s = _
        simp only [runCheck]
        rw [h]
      have h2 : runCheck (ev :: evs) s = runCheck evs s2 := by
        simp only [runCheck]
        rw [h]
      rw [h1, h2]
      exact runCheck_append evs b s2
    | none =>
      have h1 : runCheck ((ev :: evs) ++ b) s = none := by
        show runCheck (ev :: (evs ++ b)) s = _
        simp only [runCheck]
        rw [h]
      have h2 : runCheck (ev :: evs) s = none := by
        simp only [runCheck]
        rw [h]
      rw [h1, h2]

theorem createNode_events (p : Option Nat) (d : Nat) (pr rm : Bool) (st : TState) :
    (createNode p d pr rm st).2.events =
      st.events ++ [⟨EvKind.enter, st.nodes.length⟩] := by
  cases p <;> rfl

theorem finalizeNode_events (st : TState) (i s : Nat) :
    (finalizeNode st i s).events = st.events ++ [⟨EvKind.exit, i⟩] := rfl

/-- The stack against which a segment is checked: a display-node call runs
with its own id pushed. -/
def pushStack : Option Nat → List Nat → List Nat
  | some i, s => i :: s
  | none, s => s

theorem runCheck_enter (i : Nat) (evs : List Event) (stack seen : List Nat)
    (h : i ∉ seen) :
    runCheck (⟨EvKind.enter, i⟩ :: evs) (stack, seen) =
      runCheck evs (i :: stack, i :: seen) := by
  simp only [runCheck, checkEv]
  rw [if_neg h]

theorem runCheck_exit (i : Nat) (evs : List Event) (stack seen : List Nat) :
    runCheck (⟨EvKind.exit, i⟩ :: evs) (i :: stack, seen) =
      runCheck evs (stack, seen) := by
  simp [runCheck, checkEv]

/-- The parent pointer recorded in a node table. -/
def parentOf (nodes : List NodeData) (j : Nat) : Option Nat :=
  (nodes.getD j dfltNode).parent_id

theorem updateNode_parentOf (nodes : List NodeData) (i : Nat) (f : NodeData → NodeData)
    (hf : ∀ nd, (f nd).parent_id = nd.parent_id) :
    ∀ j, parentOf (updateNode nodes i f) j = parentOf nodes j := by
  intro j
  by_cases hji : j = i
  · subst hji
    by_cases hlt : j < nodes.length
    · unfold parentOf
      rw [updateNode_getD_self _ _ _ hlt, hf]
    · rw [updateNode_ge _ _ _ (Nat.le_of_not_lt hlt)]
  · unfold parentOf
    rw [updateNode_getD_ne _ _ _ _ (fun he => hji he.symm)]

theorem getD_concat_self (nodes : List NodeData) (x : NodeData) :
    (nodes ++ [x]).getD nodes.length dfltNode = x := by
  rw [List.getD_eq_getElem?_getD, List.getElem?_concat_length]
  rfl

/-- `create_node` records the requested parent on the new node and keeps every
existing node's parent pointer. -/
theorem createNode_parents (p : Option Nat) (d : Nat) (pr rm : Bool) (st : TState) :
    parentOf (createNode p d pr rm st).2.nodes st.nodes.length = p ∧
    ∀ j, j < st.nodes.length →
      parentOf (createNode p d pr rm st).2.nodes j = parentOf st.nodes j := by
  cases p with
  | none =>
    unfold createNode
    dsimp only
    refine ⟨?_, ?_⟩
    · unfold parentOf
      rw [getD_concat_self]
    · intro j hj
      unfold parentOf
      rw [List.getD_append _ _ _ j hj]
  | some i =>
    unfold createNode
    dsimp only
    refine ⟨?_, ?_⟩
    · rw [updateNode_parentOf]
      · unfold parentOf
        rw [getD_concat_self]
      · intro nd
        rfl
    · intro j hj
      rw [updateNode_parentOf]
      · unfold parentOf
        rw [List.getD_append _ _ _ j hj]
      · intro nd
        rfl

theorem finalizeNode_parent (st : TState) (i s : Nat) :
    ∀ j, parentOf (finalizeNode st i s).nodes j = parentOf st.nodes j :=
  fun j => updateNode_parentOf st.nodes i
    (fun nd => { nd with elapsed_ms := some 0, explored_subnodes := s - 1 })
    (fun _ => rfl) j

/-- One step of the parent-verifying nesting checker: an enter pushes an id
never seen before whose recorded parent is the innermost open node (the top
of the stack, or none at top level), an exit pops exactly the innermost open
id. -/
def checkEvP (pm : Nat → Option Nat) :
    List Nat × List Nat → Event → Option (List Nat × List Nat)
  | (stack, seen), ⟨EvKind.enter, i⟩ =>
    if i ∈ seen then none
    else if pm i = stack.head? then some (i :: stack, i :: seen) else none
  | (stack, seen), ⟨EvKind.exit, i⟩ =>
    match stack with
    | [] => none
    | top :: rest => if top = i then some (rest, seen) else none

/-- Run the parent-verifying nesting checker over an event list. -/
def runCheckP (pm : Nat → Option Nat) :
    List Event → List Nat × List Nat → Option (List Nat × List Nat)
  | [], s => some s
  | ev :: evs, s =>
    match checkEvP pm s ev with
    | some s2 => runCheckP pm evs s2
    | none => none

theorem runCheckP_append (pm : Nat → Option Nat) :
    ∀ (a b : List Event) (s : List Nat × List Nat),
    runCheckP pm (a ++ b) s =
      match runCheckP pm a s with
      | some s2 => runCheckP pm b s2
      | none => none
  | [], b, s => rfl
  | ev :: evs, b, s => by
    cases h : checkEvP pm s ev with
    | some s2 =>
      have h1 : runCheckP pm ((ev :: evs) ++ b) s = runCheckP pm (evs ++ b) s2 := by
        show runCheckP pm (ev :: (evs ++ b)) s = _
        simp only [runCheckP]
        rw [h]
      have h2 : runCheckP pm (ev :: evs) s = runCheckP pm evs s2 := by
        simp only [runCheckP]
        rw [h]
      rw [h1, h2]
      exact runCheckP_append pm evs b s2
    | none =>
      have h1 : runCheckP pm ((ev :: evs) ++ b) s = none := by
        show runCheckP pm (ev :: (evs ++ b)) s = _
        simp only [runCheckP]
        rw [h]
      have h2 : runCheckP pm (ev :: evs) s = none := by
        simp only [runCheckP]
        rw [h]
      rw [h1, h2]

theorem runCheckP_enter (pm : Nat → Option Nat) (i : Nat) (evs : List Event)
    (stack seen : List Nat) (h : i ∉ seen) (hp : pm i = stack.head?) :
    runCheckP pm (⟨EvKind.enter, i⟩ :: evs) (stack, seen) =
      runCheckP pm evs (i :: stack, i :: seen) := by
  simp only [runCheckP, checkEvP]
  rw [if_neg h, if_pos hp]

theorem runCheckP_exit (pm : Nat → Option Nat) (i : Nat) (evs : List Event)
    (stack seen : List Nat) :
    runCheckP pm (⟨EvKind.exit, i⟩ :: evs) (i :: stack, seen) =
      runCheckP pm evs (stack, seen) := by
  simp [runCheckP, checkEvP]

/-- The parent-verifying checker is stricter than the plain one: whatever it
accepts, the plain checker accepts with the same final state. -/
theorem runCheckP_sim (pm : Nat → Option Nat) :
    ∀ (E : List Event) (s s2 : List Nat × List Nat),
      runCheckP pm E s = some s2 → runCheck E s = some s2
  | [], s, s2 => fun h => h
  | ev :: evs, s, s2 => by
    intro h
    obtain ⟨stack, seen⟩ := s
    obtain ⟨k, i⟩ := ev
    cases k with
    | enter =>
      by_cases hmem : i ∈ seen
      · exfalso
        simp only [runCheckP, checkEvP] at h
        rw [if_pos hmem] at h
        exact Option.noConfusion h
      · by_cases hp : pm i = stack.head?
        · rw [runCheckP_enter pm i evs stack seen hmem hp] at h
          rw [runCheck_enter i evs stack seen hmem]
          exact runCheckP_sim pm evs _ s2 h
        · exfalso
          simp only [runCheckP, checkEvP] at h
          rw [if_neg hmem, if_neg hp] at h
          exact Option.noConfusion h
    | exit =>
      cases stack with
      | nil =>
        exfalso
        have hnone : (none : Option (List Nat × List Nat)) = some s2 := h
        exact Option.noConfusion hnone
      | cons top rest =>
        by_cases htop : top = i
        · subst htop
          rw [runCheckP_exit] at h
          rw [runCheck_exit]
          exact runCheckP_sim pm evs _ s2 h
        · exfalso
          simp only [runCheckP, checkEvP] at h
          rw [if_neg htop] at h
          exact Option.noConfusion h

/-- The open stack of the parent-verifying checker is always a parent chain:
each open node's recorded parent is the node right below it. -/
def ChainP (pm : Nat → Option Nat) : List Nat → Prop
  | [] => True
  | a :: rest => pm a = rest.head? ∧ ChainP pm rest

theorem runCheckP_chain (pm : Nat → Option Nat) :
    ∀ (E : List Event) (s s2 : List Nat × List Nat),
      runCheckP pm E s = some s2 → ChainP pm s.1 → ChainP pm s2.1
  | [], s, s2 => by
    intro h hc
    injection h with h
    subst h
    exact hc
  | ev :: evs, s, s2 => by
    intro h hc
    obtain ⟨stack, seen⟩ := s
    obtain ⟨k, i⟩ := ev
    cases k with
    | enter =>
      by_cases hmem : i ∈ seen
      · exfalso
        simp only [runCheckP, checkEvP] at h
        rw [if_pos hmem] at h
        exact Option.noConfusion h
      · by_cases hp : pm i = stack.head?
        · rw [runCheckP_enter pm i evs stack seen hmem hp] at h
          exact runCheckP_chain pm evs _ s2 h ⟨hp, hc⟩
        · exfalso
          simp only [runCheckP, checkEvP] at h
          rw [if_neg hmem, if_neg hp] at h
          exact Option.noConfusion h
    | exit =>
      cases stack with
      | nil =>
        exfalso
        have hnone : (none : Option (List Nat × List Nat)) = some s2 := h
        exact Option.noConfusion hnone
      | cons top rest =>
        by_cases htop : top = i
        · subst htop
          rw [runCheckP_exit] at h
          exact runCheckP_chain pm evs _ s2 h hc.2
        · exfalso
          simp only [runCheckP, checkEvP] at h
          rw [if_neg htop] at h
          exact Option.noConfusion h

/-- Every id on the checker's final stack was already open or entered within
the processed events. -/
theorem runCheckP_enters (pm : Nat → Option Nat) :
    ∀ (E : List Event) (s s2 : List Nat × List Nat),
      runCheckP pm E s = some s2 →
      ∀ x ∈ s2.1, x ∈ s.1 ∨ ⟨EvKind.enter, x⟩ ∈ E
  | [], s, s2 => by
    intro h x hx
    injection h with h
    subst h
    exact Or.inl hx
  | ev :: evs, s, s2 => by
    intro h x hx
    obtain ⟨stack, seen⟩ := s
    obtain ⟨k, i⟩ := ev
    cases k with
    | enter =>
      by_cases hmem : i ∈ seen
      · exfalso
        simp only [runCheckP, checkEvP] at h
        rw [if_pos hmem] at h
        exact Option.noConfusion h
      · by_cases hp : pm i = stack.head?
        · rw [runCheckP_enter pm i evs stack seen hmem hp] at h
          rcases runCheckP_enters pm evs _ s2 h x hx with h1 | h1
          · rcases List.mem_cons.mp h1 with h2 | h2
            · subst h2
              exact Or.inr (List.mem_cons_self _ _)
            · exact Or.inl h2
          · exact Or.inr (List.mem_cons_of_mem _ h1)
        · exfalso
          simp only [runCheckP, checkEvP] at h
          rw [if_neg hmem, if_neg hp] at h
          exact Option.noConfusion h
    | exit =>
      cases stack with
      | nil =>
        exfalso
        have hnone : (none : Option (List Nat × List Nat)) = some s2 := h
        exact Option.noConfusion hnone
      | cons top rest =>
        by_cases htop : top = i
        · subst htop
          rw [runCheckP_exit] at h
          rcases runCheckP_enters pm evs _ s2 h x hx with h1 | h1
          · exact Or.inl (List.mem_cons_of_mem _ h1)
          · exact Or.inr (List.mem_cons_of_mem _ h1)
        · exfalso
          simp only [runCheckP, checkEvP] at h
          rw [if_neg htop] at h
          exact Option.noConfusion h

/-- Every id open at the start of a checker run is still open at the end or
was exited within the processed events. -/
theorem runCheckP_pops (pm : Nat → Option Nat) :
    ∀ (E : List Event) (s s2 : List Nat × List Nat),
      runCheckP pm E s = some s2 →
      ∀ x ∈ s.1, x ∈ s2.1 ∨ ⟨EvKind.exit, x⟩ ∈ E
  | [], s, s2 => by
    intro h x hx
    injection h with h
    subst h
    exact Or.inl hx
  | ev :: evs, s, s2 => by
    intro h x hx
    obtain ⟨stack, seen⟩ := s
    obtain ⟨k, i⟩ := ev
    cases k with
    | enter =>
      by_cases hmem : i ∈ seen
      · exfalso
        simp only [runCheckP, checkEvP] at h
        rw [if_pos hmem] at h
        exact Option.noConfusion h
      · by_cases hp : pm i = stack.head?
        · rw [runCheckP_enter pm i evs stack seen hmem hp] at h
          rcases runCheckP_pops pm evs _ s2 h x (List.mem_cons_of_mem _ hx)
            with h1 | h1
          · exact Or.inl h1
          · exact Or.inr (List.mem_cons_of_mem _ h1)
        · exfalso
          simp only [runCheckP, checkEvP] at h
          rw [if_neg hmem, if_neg hp] at h
          exact Option.noConfusion h
    | exit =>
      cases stack with
      | nil =>
        exfalso
        have hnone : (none : Option (List Nat × List Nat)) = some s2 := h
        exact Option.noConfusion hnone
      | cons top rest =>
        by_cases htop : top = i
        · subst htop
          rw [runCheckP_exit] at h
          rcases List.mem_cons.mp hx with h2 | h2
          · subst h2
            exact Or.inr (List.mem_cons_self _ _)
          · rcases runCheckP_pops pm evs _ s2 h x h2 with h1 | h1
            · exact Or.inl h1
            · exact Or.inr (List.mem_cons_of_mem _ h1)
        · exfalso
          simp only [runCheckP, checkEvP] at h
          rw [if_neg htop] at h
          exact Option.noConfusion h

/-- The parenthesis bridge: if the parent-verifying checker accepts a stream
from the empty state and closes every node, then every enter or exit event of
a node with a recorded parent happens strictly after the parent's enter and
strictly before the parent's exit. -/
theorem runCheckP_containment (pm : Nat → Option Nat) (E : List Event)
    (S : List Nat) (hacc : runCheckP pm E ([], []) = some ([], S)) :
    ∀ (pre : List Event) (k : EvKind) (c : Nat) (post : List Event),
      E = pre ++ ⟨k, c⟩ :: post → ∀ p, pm c = some p →
      ⟨EvKind.enter, p⟩ ∈ pre ∧ ⟨EvKind.exit, p⟩ ∈ post := by
  intro pre k c post hE p hp
  rw [hE, runCheckP_append] at hacc
  cases hpre : runCheckP pm pre ([], []) with
  | none =>
    rw [hpre] at hacc
    exact absurd hacc (by simp)
  | some s1 =>
    rw [hpre] at hacc
    obtain ⟨stack1, seen1⟩ := s1
    replace hacc : runCheckP pm (⟨k, c⟩ :: post) (stack1, seen1) = some ([], S) :=
      hacc
    have hchain := runCheckP_chain pm pre ([], []) (stack1, seen1) hpre trivial
    have hent := runCheckP_enters pm pre ([], []) (stack1, seen1) hpre
    cases k with
    | enter =>
      by_cases hmem : c ∈ seen1
      · exfalso
        simp only [runCheckP, checkEvP] at hacc
        rw [if_pos hmem] at hacc
        exact Option.noConfusion hacc
      · by_cases hph : pm c = stack1.head?
        · have hhead : stack1.head? = some p := by
            rw [← hph]
            exact hp
          cases stack1 with
          | nil => exact absurd hhead (by simp)
          | cons a t =>
            have ha : a = p := by
              injection hhead
            subst ha
            constructor
            · rcases hent a (List.mem_cons_self a t) with h1 | h1
              · exact absurd h1 (List.not_mem_nil a)
              · exact h1
            · rw [runCheckP_enter pm c post (a :: t) seen1 hmem hph] at hacc
              have hpop := runCheckP_pops pm post (c :: a :: t, c :: seen1)
                ([], S) hacc
              rcases hpop a (List.mem_cons_of_mem _ (List.mem_cons_self a t))
                with h1 | h1
              · exact absurd h1 (List.not_mem_nil a)
              · exact h1
        · exfalso
          simp only [runCheckP, checkEvP] at hacc
          rw [if_neg hmem, if_neg hph] at hacc
          exact Option.noConfusion hacc
    | exit =>
      cases stack1 with
      | nil =>
        exfalso
        have hnone : (none : Option (List Nat × List Nat)) = some ([], S) := hacc
        exact Option.noConfusion hnone
      | cons top t =>
        by_cases htop : top = c
        · subst htop
          have hth : t.head? = some p := by
            rw [← hchain.1]
            exact hp
          cases t with
          | nil => exact absurd hth (by simp)
          | cons b t2 =>
            have hb : b = p := by
              injection hth
            subst hb
            constructor
            · rcases hent b (List.mem_cons_of_mem _ (List.mem_cons_self b t2))
                with h1 | h1
              · exact absurd h1 (List.not_mem_nil b)
              · exact h1
            · rw [runCheckP_exit] at hacc
              have hpop := runCheckP_pops pm post (b :: t2, seen1) ([], S) hacc
              rcases hpop b (List.mem_cons_self b t2) with h1 | h1
              · exact absurd h1 (List.not_mem_nil b)
              · exact h1
        · exfalso
          simp only [runCheckP, checkEvP] at hacc
          rw [if_neg htop] at hacc
          exact Option.noConfusion hacc

/-- The head requirement under which a segment is checked: `none` imposes
nothing, `some i` requires the innermost open node to be `i`. -/
def headOK : Option Nat → List Nat → Prop
  | none, _ => True
  | some i, s => s.head? = some i

/-- A checked event segment: its fresh ids lie in `[lo, hi)`, every id it
mentions is below `hi`, and from any state whose seen ids lie below `lo`
(and whose innermost open node, after pushing `push`, meets `req`), the
parent-verifying checker runs to completion, closing `push` if one is
given. -/
def SegOKP (pm : Nat → Option Nat) (lo hi : Nat) (E : List Event)
    (seenNew : List Nat) (push req : Option Nat) : Prop :=
  (∀ x ∈ seenNew, lo ≤ x ∧ x < hi) ∧
  (∀ ev ∈ E, ev.node_id < hi) ∧
  (∀ stack seen, headOK req (pushStack push stack) → (∀ x ∈ seen, x < lo) →
    runCheckP pm E (pushStack push stack, seen) = some (stack, seenNew ++ seen))

/-- What the attempt loop guarantees for the event stream, by outcome: on a
non-aborted early return the segment closes the display node, and on falling
through it leaves the stack unchanged; in both cases existing parent
pointers are preserved and the parent-verifying checker accepts. -/
def LoopEvOut (pm : Nat → Option Nat) (st st' : TState) (did : Option Nat) :
    LoopOut → Prop
  | LoopOut.early _ _ ab =>
    ab = false →
    (∀ j, j < st.nodes.length → parentOf st'.nodes j = parentOf st.nodes j) ∧
    ∃ E seenNew, st'.events = st.events ++ E ∧
      st.nodes.length ≤ st'.nodes.length ∧
      SegOKP pm st.nodes.length st'.nodes.length E seenNew did none
  | LoopOut.fell _ _ =>
    (∀ j, j < st.nodes.length → parentOf st'.nodes j = parentOf st.nodes j) ∧
    ∃ E seenNew, st'.events = st.events ++ E ∧
      st.nodes.length ≤ st'.nodes.length ∧
      SegOKP pm st.nodes.length st'.nodes.length E seenNew none did

theorem dfsLoop_events {pb : Problem} {ep : Bool} {mdc maxN : Nat} {f : Nat}
    (ihrec : ∀ (depth : Nat) (did : Option Nat) (st st' : TState) (sv : Bool)
      (cnt : Nat) (ab : Bool) (pm : Nat → Option Nat),
      dfsGo pb ep mdc maxN f depth did st = (st', sv, cnt, ab) →
      Keys st → unusedCount pb st < f →
      (∀ c, did = some c → c < st.nodes.length) →
      (∀ j, st.nodes.length ≤ j → j < st'.nodes.length →
        pm j = parentOf st'.nodes j) →
      ab = false →
      (∀ j, j < st.nodes.length → parentOf st'.nodes j = parentOf st.nodes j) ∧
      ∃ E seenNew, st'.events = st.events ++ E ∧
        st.nodes.length ≤ st'.nodes.length ∧
        SegOKP pm st.nodes.length st'.nodes.length E seenNew did none) :
    ∀ (attempts : List (AKind × String × List Cell)) (depth : Nat) (did : Option Nat)
      (rightmost : Int) (displayIdx : List Int) (idx subtree : Nat) (found : Bool)
      (st st' : TState) (out : LoopOut) (pm : Nat → Option Nat),
      dfsLoop pb ep maxN (dfsGo pb ep mdc maxN f) depth did rightmost displayIdx
        attempts idx subtree found st = (st', out) →
      Keys st → unusedCount pb st < f + 1 →
      (∀ c, did = some c → c < st.nodes.length) →
      (∀ a ∈ attempts, a.2.1 ∈ pb.selected_pieces ∧ a.2.1 ∉ st.used ∧
        (∀ x ∈ a.2.2, x ∉ st.filled)) →
      (∀ j, st.nodes.length ≤ j → j < st'.nodes.length →
        pm j = parentOf st'.nodes j) →
      LoopEvOut pm st st' did out
  | [], depth, did, rightmost, displayIdx, idx, subtree, found, st, st', out, pm => by
    intro h _ _ _ _ _
    rw [dfsLoop.eq_def] at h
    simp only at h
    have h1 := congrArg Prod.fst h
    have h2 := congrArg Prod.snd h
    simp only at h1 h2
    subst h1
    subst h2
    refine ⟨fun j _ => rfl, [], [], (List.append_nil _).symm, Nat.le_refl _,
      ?_, ?_, ?_⟩
    · intro x hx
      exact absurd hx (List.not_mem_nil x)
    · intro ev hev
      exact absurd hev (List.not_mem_nil ev)
    · intro stack seen _ _
      rfl
  | (kind, name, shifted) :: rest, depth, did, rightmost, displayIdx, idx, subtree,
      found, st, st', out, pm => by
    intro h hkeys hcount hdid hhyg hpm
    have hhyg0 := hhyg (kind, name, shifted) (List.mem_cons_self _ _)
    rw [dfsLoop.eq_def] at h
    simp only at h
    by_cases hdisp : (idx : Int) ∈ displayIdx
    · rw [if_pos hdisp] at h
      cases kind with
      | pruned =>
        cases did with
        | some i =>
          simp only at h
          cases hcn : createNode (some i) (depth + 1) true
              ((decide (depth = 0) || (st.nodes.getD i dfltNode).rightmost_chain) &&
                decide ((idx : Int) = rightmost)) (applyT st name shifted) with
          | mk pid st2 =>
            rw [hcn] at h
            simp only at h
            have hce := createNode_some_effects i (depth + 1) true
              ((decide (depth = 0) || (st.nodes.getD i dfltNode).rightmost_chain) &&
                decide ((idx : Int) = rightmost)) (applyT st name shifted)
            rw [applyT_nodes] at hce
            rw [hcn] at hce
            dsimp only at hce
            have hcp := createNode_parents (some i) (depth + 1) true
              ((decide (depth = 0) || (st.nodes.getD i dfltNode).rightmost_chain) &&
                decide ((idx : Int) = rightmost)) (applyT st name shifted)
            rw [applyT_nodes] at hcp
            rw [hcn] at hcp
            dsimp only at hcp
            have hpid := hce.1
            subst hpid
            have hev2 : st2.events =
                st.events ++ [⟨EvKind.enter, st.nodes.length⟩] := by
              have h3 := createNode_events (some i) (depth + 1) true
                ((decide (depth = 0) ||
                  (st.nodes.getD i dfltNode).rightmost_chain) &&
                  decide ((idx : Int) = rightmost)) (applyT st name shifted)
              rw [hcn] at h3
              exact h3
            have hst2 := createNode_board (some i) (depth + 1) true
              ((decide (depth = 0) || (st.nodes.getD i dfltNode).rightmost_chain) &&
                decide ((idx : Int) = rightmost)) (applyT st name shifted)
            rw [hcn] at hst2
            simp only at hst2
            have hst4 := @unapplyT_fields st
              ({ st2 with
                events := st2.events ++ [⟨EvKind.exit, st.nodes.length⟩] })
              name shifted
              (by rw [hst2.1]; rfl) (by rw [hst2.2.1]; rfl) (by rw [hst2.2.2.1]; rfl)
              hhyg0.2.1 hhyg0.2.2 hkeys
            have hnext_ev : (unapplyT { st2 with
                events := st2.events ++ [⟨EvKind.exit, st.nodes.length⟩] }
                name shifted).events =
                st.events ++ [⟨EvKind.enter, st.nodes.length⟩,
                  ⟨EvKind.exit, st.nodes.length⟩] := by
              show st2.events ++ [⟨EvKind.exit, st.nodes.length⟩] = _
              rw [hev2, List.append_assoc]
              rfl
            have hnext_len : (unapplyT { st2 with
                events := st2.events ++ [⟨EvKind.exit, st.nodes.length⟩] }
                name shifted).nodes.length = st.nodes.length + 1 := by
              show st2.nodes.length = st.nodes.length + 1
              exact hce.2.1
            have hrest := dfsLoop_events ihrec rest depth (some i) rightmost
              displayIdx (idx + 1) subtree found _ st' out pm h
              (by
                unfold Keys
                rw [hst4.2.2, hst4.2.1]
                exact hkeys)
              (by
                unfold unusedCount
                rw [hst4.1]
                exact hcount)
              (by
                intro c hc
                have := hdid c hc
                show c < st2.nodes.length
                rw [hce.2.1]
                omega)
              (by
                intro a ha
                have := hhyg a (List.mem_cons_of_mem _ ha)
                rw [hst4.1, hst4.2.1]
                exact this)
              (by
                intro j h1 h2
                refine hpm j ?_ h2
                rw [hnext_len] at h1
                omega)
            cases out with
            | early sv2 cnt2 ab2 =>
              intro hab2
              rcases hrest hab2 with ⟨hPF1, E1, sn1, hev1, hmono1, hsg1⟩
              have hparent : pm st.nodes.length = some i := by
                rw [hpm st.nodes.length (Nat.le_refl _)
                  (by rw [hnext_len] at hmono1; omega)]
                rw [hPF1 st.nodes.length (by rw [hnext_len]; omega)]
                exact hcp.1
              refine ⟨?_, ⟨EvKind.enter, st.nodes.length⟩ ::
                ⟨EvKind.exit, st.nodes.length⟩ :: E1,
                sn1 ++ [st.nodes.length], ?_, ?_, ?_, ?_, ?_⟩
              · intro j hj
                rw [hPF1 j (by rw [hnext_len]; omega)]
                exact hcp.2 j hj
              · rw [hev1, hnext_ev, List.append_assoc]
                rfl
              · rw [hnext_len] at hmono1
                omega
              · intro x hx
                rcases List.mem_append.mp hx with h1 | h1
                · have := hsg1.1 x h1
                  rw [hnext_len] at this
                  omega
                · rw [List.mem_singleton] at h1
                  subst h1
                  rw [hnext_len] at hmono1
                  omega
              · intro ev hev
                rcases List.mem_cons.mp hev with h1 | h1
                · subst h1
                  rw [hnext_len] at hmono1
                  simp only
                  omega
                · rcases List.mem_cons.mp h1 with h2 | h2
                  · subst h2
                    rw [hnext_len] at hmono1
                    simp only
                    omega
                  · exact hsg1.2.1 ev h2
              · intro stack seen hreq hseen
                simp only [pushStack]
                rw [runCheckP_enter pm st.nodes.length
                  (⟨EvKind.exit, st.nodes.length⟩ :: E1) (i :: stack) seen
                  (fun hm => absurd (hseen _ hm) (Nat.lt_irrefl _))
                  (by rw [hparent]; rfl)]
                rw [runCheckP_exit]
                have hsg := hsg1.2.2 stack (st.nodes.length :: seen) True.intro
                  (by
                    intro x hx
                    rcases List.mem_cons.mp hx with h1 | h1
                    · rw [h1, hnext_len]
                      omega
                    · have := hseen x h1
                      rw [hnext_len]
                      omega)
                simp only [pushStack] at hsg
                rw [hsg]
                simp [List.append_assoc]
            | fell fnd2 cnt2 =>
              rcases hrest with ⟨hPF1, E1, sn1, hev1, hmono1, hsg1⟩
              have hparent : pm st.nodes.length = some i := by
                rw [hpm st.nodes.length (Nat.le_refl _)
                  (by rw [hnext_len] at hmono1; omega)]
                rw [hPF1 st.nodes.length (by rw [hnext_len]; omega)]
                exact hcp.1
              refine ⟨?_, ⟨EvKind.enter, st.nodes.length⟩ ::
                ⟨EvKind.exit, st.nodes.length⟩ :: E1,
                sn1 ++ [st.nodes.length], ?_, ?_, ?_, ?_, ?_⟩
              · intro j hj
                rw [hPF1 j (by rw [hnext_len]; omega)]
                exact hcp.2 j hj
              · rw [hev1, hnext_ev, List.append_assoc]
                rfl
              · rw [hnext_len] at hmono1
                omega
              · intro x hx
                rcases List.mem_append.mp hx with h1 | h1
                · have := hsg1.1 x h1
                  rw [hnext_len] at this
                  omega
                · rw [List.mem_singleton] at h1
                  subst h1
                  rw [hnext_len] at hmono1
                  omega
              · intro ev hev
                rcases List.mem_cons.mp hev with h1 | h1
                · subst h1
                  rw [hnext_len] at hmono1
                  simp only
                  omega
                · rcases List.mem_cons.mp h1 with h2 | h2
                  · subst h2
                    rw [hnext_len] at hmono1
                    simp only
                    omega
                  · exact hsg1.2.1 ev h2
              · intro stack seen hreq hseen
                simp only [pushStack, headOK] at hreq
                simp only [pushStack]
                rw [runCheckP_enter pm st.nodes.length
                  (⟨EvKind.exit, st.nodes.length⟩ :: E1) stack seen
                  (fun hm => absurd (hseen _ hm) (Nat.lt_irrefl _))
                  (by rw [hparent, hreq])]
                rw [runCheckP_exit]
                have hsg := hsg1.2.2 stack (st.nodes.length :: seen)
                  (by
                    simp only [pushStack, headOK]
                    exact hreq)
                  (by
                    intro x hx
                    rcases List.mem_cons.mp hx with h1 | h1
                    · rw [h1, hnext_len]
                      omega
                    · have := hseen x h1
                      rw [hnext_len]
                      omega)
                simp only [pushStack] at hsg
                rw [hsg]
                simp [List.append_assoc]
        | none =>
          simp only at h
          exact dfsLoop_events ihrec rest depth none rightmost displayIdx
            (idx + 1) subtree found st st' out pm h hkeys hcount hdid
            (fun a ha => hhyg a (List.mem_cons_of_mem _ ha)) hpm
      | valid =>
        simp only at h
        cases did with
        | some i =>
          simp only at h
          cases hcn : createNode (some i) (depth + 1) false
              ((decide (depth = 0) || (st.nodes.getD i dfltNode).rightmost_chain) &&
                decide ((idx : Int) = rightmost)) (applyT st name shifted) with
          | mk cid st2 =>
            rw [hcn] at h
            simp only at h
            have hce := createNode_some_effects i (depth + 1) false
              ((decide (depth = 0) || (st.nodes.getD i dfltNode).rightmost_chain) &&
                decide ((idx : Int) = rightmost)) (applyT st name shifted)
            rw [applyT_nodes] at hce
            rw [hcn] at hce
            dsimp only at hce
            have hcp := createNode_parents (some i) (depth + 1) false
              ((decide (depth = 0) || (st.nodes.getD i dfltNode).rightmost_chain) &&
                decide ((idx : Int) = rightmost)) (applyT st name shifted)
            rw [applyT_nodes] at hcp
            rw [hcn] at hcp
            dsimp only at hcp
            have hcid := hce.1
            subst hcid
            have hev2 : st2.events =
                st.events ++ [⟨EvKind.enter, st.nodes.length⟩] := by
              have h3 := createNode_events (some i) (depth + 1) false
                ((decide (depth = 0) ||
                  (st.nodes.getD i dfltNode).rightmost_chain) &&
                  decide ((idx : Int) = rightmost)) (applyT st name shifted)
              rw [hcn] at h3
              exact h3
            have hst2 := createNode_board (some i) (depth + 1) false
              ((decide (depth = 0) || (st.nodes.getD i dfltNode).rightmost_chain) &&
                decide ((idx : Int) = rightmost)) (applyT st name shifted)
            rw [hcn] at hst2
            simp only at hst2
            cases hrec : dfsGo pb ep mdc maxN f (depth + 1) (some st.nodes.length)
                st2 with
            | mk st3 rest3 =>
              cases rest3 with
              | mk solved rest4 =>
                cases rest4 with
                | mk ccount aborted =>
                  rw [hrec] at h
                  simp only at h
                  have hkeys2 : Keys st2 := by
                    unfold Keys
                    rw [hst2.2.2.1, hst2.2.1]
                    exact Keys_applyT hkeys name shifted
                  have hcount2 : unusedCount pb st2 < f := by
                    unfold unusedCount
                    have hsame : st2.used = st.used.insert name := by
                      rw [hst2.1]
                      rfl
                    have hlt := @unusedCount_insert pb st name hhyg0.1 hhyg0.2.1
                    unfold unusedCount at hcount hlt
                    have hbridge :
                        (pb.selected_pieces.filter
                          (fun n => decide (n ∉ st2.used))).length =
                        (pb.selected_pieces.filter
                          (fun n => decide (n ∉ st.used.insert name))).length := by
                      congr 1
                      apply List.filter_congr
                      intro n _
                      exact decide_eq_decide.mpr (by rw [hsame])
                    omega
                  have hml := dfsGo_master f (depth + 1) (some st.nodes.length)
                    st2 st3 solved ccount aborted hrec hkeys2 hcount2
                  have hst3u : st3.used = st.used.insert name := by
                    rw [hml.1, hst2.1]
                    rfl
                  have hst3f : st3.filled = st.filled ++ shifted := by
                    rw [hml.2.1, hst2.2.1]
                    rfl
                  have hst3b : st3.board =
                      st.board ++ shifted.map (fun rc => (rc, name)) := by
                    rw [hml.2.2.1, hst2.2.2.1]
                    rfl
                  have hst4 := @unapplyT_fields st st3
                    name shifted hst3u hst3f hst3b
                    hhyg0.2.1 hhyg0.2.2 hkeys
                  by_cases hab : aborted = true
                  · rw [hab] at h
                    rw [if_pos rfl] at h
                    have h2 := congrArg Prod.snd h
                    simp only at h2
                    subst h2
                    exact fun habs => Bool.noConfusion habs
                  · rw [Bool.not_eq_true] at hab
                    rw [hab] at h
                    simp only [Bool.false_eq_true, if_false] at h
                    have hdid2 : ∀ c, (some st.nodes.length : Option Nat) = some c →
                        c < st2.nodes.length := by
                      intro c hc
                      injection hc with hc
                      subst hc
                      rw [hce.2.1]
                      omega
                    rcases ihrec (depth + 1) (some st.nodes.length) st2 st3 solved
                      ccount aborted (fun j2 => parentOf st3.nodes j2) hrec hkeys2
                      hcount2 hdid2 (fun j _ _ => rfl) hab with
                      ⟨hPFr0, Er0, snr0, hevr0, hmonor0, hsgr0⟩
                    have hkont : ∀ (fnd : Bool),
                        dfsLoop pb ep maxN (dfsGo pb ep mdc maxN f) depth (some i)
                          rightmost displayIdx rest (idx + 1) (subtree + ccount) fnd
                          (unapplyT st3 name shifted) = (st', out) →
                        LoopEvOut pm st st' (some i) out := by
                      intro fnd hloop
                      have hlen4 : (unapplyT st3 name shifted).nodes.length =
                          st3.nodes.length := rfl
                      have hrest := dfsLoop_events ihrec rest depth (some i)
                        rightmost displayIdx (idx + 1) (subtree + ccount) fnd _ st'
                        out pm hloop
                        (by
                          unfold Keys
                          rw [hst4.2.2, hst4.2.1]
                          exact hkeys)
                        (by
                          unfold unusedCount
                          rw [hst4.1]
                          exact hcount)
                        (by
                          intro c hc
                          have := hdid c hc
                          show c < st3.nodes.length
                          have h1 := hmonor0
                          have h2 := hce.2.1
                          omega)
                        (by
                          intro a ha
                          have := hhyg a (List.mem_cons_of_mem _ ha)
                          rw [hst4.1, hst4.2.1]
                          exact this)
                        (by
                          intro j h1 h2
                          refine hpm j ?_ h2
                          rw [hlen4] at h1
                          have h2b := hce.2.1
                          have h3b := hmonor0
                          omega)
                      cases out with
                      | early sv2 cnt2 ab2 =>
                        intro hab2
                        rcases hrest hab2 with ⟨hPF2, E2, sn2, hev2r, hmono2, hsg2⟩
                        have hpmc : ∀ j, st2.nodes.length ≤ j →
                            j < st3.nodes.length →
                            pm j = parentOf st3.nodes j := by
                          intro j h1 h2
                          rw [hpm j (by have := hce.2.1; omega)
                            (by rw [hlen4] at hmono2; omega)]
                          rw [hPF2 j (by rw [hlen4]; exact h2)]
                          rfl
                        rcases ihrec (depth + 1) (some st.nodes.length) st2 st3
                          solved ccount aborted pm hrec hkeys2 hcount2 hdid2
                          hpmc hab with ⟨hPFr, Er, snr, hevr, hmonor, hsgr⟩
                        have hev4 : (unapplyT st3 name shifted).events =
                            st2.events ++ Er := hevr
                        have hparent : pm st.nodes.length = some i := by
                          rw [hpm st.nodes.length (Nat.le_refl _)
                            (by
                              rw [hlen4] at hmono2
                              have h2b := hce.2.1
                              omega)]
                          rw [hPF2 st.nodes.length
                            (by
                              rw [hlen4]
                              have h2b := hce.2.1
                              omega)]
                          show parentOf st3.nodes st.nodes.length = some i
                          rw [hPFr st.nodes.length (by rw [hce.2.1]; omega)]
                          exact hcp.1
                        refine ⟨?_, ⟨EvKind.enter, st.nodes.length⟩ :: (Er ++ E2),
                          sn2 ++ (snr ++ [st.nodes.length]), ?_, ?_, ?_, ?_, ?_⟩
                        · intro j hj
                          rw [hPF2 j (by
                            rw [hlen4]
                            have h2b := hce.2.1
                            omega)]
                          show parentOf st3.nodes j = _
                          rw [hPFr j (by rw [hce.2.1]; omega)]
                          exact hcp.2 j hj
                        · rw [hev2r, hev4, hev2]
                          simp [List.append_assoc]
                        · rw [hlen4] at hmono2
                          have h2 := hce.2.1
                          omega
                        · intro x hx
                          rw [hlen4] at hmono2
                          have h2 := hce.2.1
                          rcases List.mem_append.mp hx with h1 | h1
                          · have := hsg2.1 x h1
                            rw [hlen4] at this
                            omega
                          · rcases List.mem_append.mp h1 with h3 | h3
                            · have := hsgr.1 x h3
                              omega
                            · rw [List.mem_singleton] at h3
                              subst h3
                              omega
                        · intro ev hev
                          rw [hlen4] at hmono2
                          have h2 := hce.2.1
                          rcases List.mem_cons.mp hev with h1 | h1
                          · subst h1
                            simp only
                            omega
                          · rcases List.mem_append.mp h1 with h3 | h3
                            · have := hsgr.2.1 ev h3
                              omega
                            · have := hsg2.2.1 ev h3
                              omega
                        · intro stack seen hreq hseen
                          simp only [pushStack]
                          rw [runCheckP_enter pm st.nodes.length (Er ++ E2)
                            (i :: stack) seen
                            (fun hm => absurd (hseen _ hm) (Nat.lt_irrefl _))
                            (by rw [hparent]; rfl)]
                          rw [runCheckP_append]
                          have hsgra := hsgr.2.2 (i :: stack)
                            (st.nodes.length :: seen) True.intro
                            (by
                              intro x hx
                              have h2 := hce.2.1
                              rcases List.mem_cons.mp hx with h1 | h1
                              · rw [h1]
                                omega
                              · have := hseen x h1
                                omega)
                          simp only [pushStack] at hsgra
                          rw [hsgra]
                          show runCheckP pm E2 (i :: stack,
                            snr ++ (st.nodes.length :: seen)) = _
                          have hsg2a := hsg2.2.2 stack
                            (snr ++ (st.nodes.length :: seen)) True.intro
                            (by
                              intro x hx
                              rw [hlen4]
                              have h2 := hce.2.1
                              rcases List.mem_append.mp hx with h1 | h1
                              · have := hsgr.1 x h1
                                omega
                              · rcases List.mem_cons.mp h1 with h3 | h3
                                · rw [h3]
                                  omega
                                · have := hseen x h3
                                  omega)
                          simp only [pushStack] at hsg2a
                          rw [hsg2a]
                          simp [List.append_assoc]
                      | fell fnd2 cnt2 =>
                        rcases hrest with ⟨hPF2, E2, sn2, hev2r, hmono2, hsg2⟩
                        have hpmc : ∀ j, st2.nodes.length ≤ j →
                            j < st3.nodes.length →
                            pm j = parentOf st3.nodes j := by
                          intro j h1 h2
                          rw [hpm j (by have := hce.2.1; omega)
                            (by rw [hlen4] at hmono2; omega)]
                          rw [hPF2 j (by rw [hlen4]; exact h2)]
                          rfl
                        rcases ihrec (depth + 1) (some st.nodes.length) st2 st3
                          solved ccount aborted pm hrec hkeys2 hcount2 hdid2
                          hpmc hab with ⟨hPFr, Er, snr, hevr, hmonor, hsgr⟩
                        have hev4 : (unapplyT st3 name shifted).events =
                            st2.events ++ Er := hevr
                        have hparent : pm st.nodes.length = some i := by
                          rw [hpm st.nodes.length (Nat.le_refl _)
                            (by
                              rw [hlen4] at hmono2
                              have h2b := hce.2.1
                              omega)]
                          rw [hPF2 st.nodes.length
                            (by
                              rw [hlen4]
                              have h2b := hce.2.1
                              omega)]
                          show parentOf st3.nodes st.nodes.length = some i
                          rw [hPFr st.nodes.length (by rw [hce.2.1]; omega)]
                          exact hcp.1
                        refine ⟨?_, ⟨EvKind.enter, st.nodes.length⟩ :: (Er ++ E2),
                          sn2 ++ (snr ++ [st.nodes.length]), ?_, ?_, ?_, ?_, ?_⟩
                        · intro j hj
                          rw [hPF2 j (by
                            rw [hlen4]
                            have h2b := hce.2.1
                            omega)]
                          show parentOf st3.nodes j = _
                          rw [hPFr j (by rw [hce.2.1]; omega)]
                          exact hcp.2 j hj
                        · rw [hev2r, hev4, hev2]
                          simp [List.append_assoc]
                        · rw [hlen4] at hmono2
                          have h2 := hce.2.1
                          omega
                        · intro x hx
                          rw [hlen4] at hmono2
                          have h2 := hce.2.1
                          rcases List.mem_append.mp hx with h1 | h1
                          · have := hsg2.1 x h1
                            rw [hlen4] at this
                            omega
                          · rcases List.mem_append.mp h1 with h3 | h3
                            · have := hsgr.1 x h3
                              omega
                            · rw [List.mem_singleton] at h3
                              subst h3
                              omega
                        · intro ev hev
                          rw [hlen4] at hmono2
                          have h2 := hce.2.1
                          rcases List.mem_cons.mp hev with h1 | h1
                          · subst h1
                            simp only
                            omega
                          · rcases List.mem_append.mp h1 with h3 | h3
                            · have := hsgr.2.1 ev h3
                              omega
                            · have := hsg2.2.1 ev h3
                              omega
                        · intro stack seen hreq hseen
                          simp only [pushStack, headOK] at hreq
                          simp only [pushStack]
                          rw [runCheckP_enter pm st.nodes.length (Er ++ E2)
                            stack seen
                            (fun hm => absurd (hseen _ hm) (Nat.lt_irrefl _))
                            (by rw [hparent, hreq])]
                          rw [runCheckP_append]
                          have hsgra := hsgr.2.2 stack (st.nodes.length :: seen)
                            True.intro
                            (by
                              intro x hx
                              have h2 := hce.2.1
                              rcases List.mem_cons.mp hx with h1 | h1
                              · rw [h1]
                                omega
                              · have := hseen x h1
                                omega)
                          simp only [pushStack] at hsgra
                          rw [hsgra]
                          show runCheckP pm E2 (stack,
                            snr ++ (st.nodes.length :: seen)) = _
                          have hsg2a := hsg2.2.2 stack
                            (snr ++ (st.nodes.length :: seen))
                            (by
                              simp only [pushStack, headOK]
                              exact hreq)
                            (by
                              intro x hx
                              rw [hlen4]
                              have h2 := hce.2.1
                              rcases List.mem_append.mp hx with h1 | h1
                              · have := hsgr.1 x h1
                                omega
                              · rcases List.mem_cons.mp h1 with h3 | h3
                                · rw [h3]
                                  omega
                                · have := hseen x h3
                                  omega)
                          simp only [pushStack] at hsg2a
                          rw [hsg2a]
                          simp [List.append_assoc]
                    by_cases hsolved : solved = true
                    · rw [hsolved] at h
                      rw [if_pos rfl] at h
                      by_cases hpic :
                          (st.nodes.getD i dfltNode).rightmost_chain = true
                      · rw [hpic] at h
                        rw [if_pos rfl] at h
                        have h2 := congrArg Prod.snd h
                        have h1 := congrArg Prod.fst h
                        simp only at h1 h2
                        subst h2
                        subst h1
                        intro hab2
                        have hdidi := hdid i rfl
                        have hpmc : ∀ j, st2.nodes.length ≤ j →
                            j < st3.nodes.length →
                            pm j = parentOf st3.nodes j := by
                          intro j h1 h2
                          rw [hpm j (by have := hce.2.1; omega)
                            (by rw [finalizeNode_nlength]; exact h2)]
                          rw [finalizeNode_parent]
                          rfl
                        rcases ihrec (depth + 1) (some st.nodes.length) st2 st3
                          solved ccount aborted pm hrec hkeys2 hcount2 hdid2
                          hpmc hab with ⟨hPFr, Er, snr, hevr, hmonor, hsgr⟩
                        have hparent : pm st.nodes.length = some i := by
                          rw [hpm st.nodes.length (Nat.le_refl _)
                            (by
                              rw [finalizeNode_nlength]
                              show st.nodes.length <
                                (unapplyT st3 name shifted).nodes.length
                              show st.nodes.length < st3.nodes.length
                              have h2b := hce.2.1
                              have h3b := hmonor0
                              omega)]
                          rw [finalizeNode_parent]
                          show parentOf st3.nodes st.nodes.length = some i
                          rw [hPFr st.nodes.length (by rw [hce.2.1]; omega)]
                          exact hcp.1
                        refine ⟨?_, ⟨EvKind.enter, st.nodes.length⟩ ::
                          (Er ++ [⟨EvKind.exit, i⟩]),
                          snr ++ [st.nodes.length], ?_, ?_, ?_, ?_, ?_⟩
                        · intro j hj
                          rw [finalizeNode_parent]
                          show parentOf st3.nodes j = _
                          rw [hPFr j (by rw [hce.2.1]; omega)]
                          exact hcp.2 j hj
                        · rw [finalizeNode_events]
                          show st3.events ++ _ = _
                          rw [hevr, hev2]
                          simp [List.append_assoc]
                        · rw [finalizeNode_nlength]
                          show st.nodes.length ≤ st3.nodes.length
                          have h2 := hce.2.1
                          omega
                        · intro x hx
                          rw [finalizeNode_nlength]
                          show _ ∧ x < st3.nodes.length
                          have h2 := hce.2.1
                          rcases List.mem_append.mp hx with h1 | h1
                          · have := hsgr.1 x h1
                            omega
                          · rw [List.mem_singleton] at h1
                            subst h1
                            omega
                        · intro ev hev
                          rw [finalizeNode_nlength]
                          show ev.node_id < st3.nodes.length
                          have h2 := hce.2.1
                          rcases List.mem_cons.mp hev with h1 | h1
                          · subst h1
                            simp only
                            omega
                          · rcases List.mem_append.mp h1 with h3 | h3
                            · exact hsgr.2.1 ev h3
                            · rw [List.mem_singleton] at h3
                              subst h3
                              simp only
                              omega
                        · intro stack seen hreq hseen
                          simp only [pushStack]
                          rw [runCheckP_enter pm st.nodes.length _
                            (i :: stack) seen
                            (fun hm => absurd (hseen _ hm) (Nat.lt_irrefl _))
                            (by rw [hparent]; rfl)]
                          rw [runCheckP_append]
                          have hsgra := hsgr.2.2 (i :: stack)
                            (st.nodes.length :: seen) True.intro
                            (by
                              intro x hx
                              have h2 := hce.2.1
                              rcases List.mem_cons.mp hx with h1 | h1
                              · rw [h1]
                                omega
                              · have := hseen x h1
                                omega)
                          simp only [pushStack] at hsgra
                          rw [hsgra]
                          show runCheckP pm [⟨EvKind.exit, i⟩] (i :: stack,
                            snr ++ (st.nodes.length :: seen)) = _
                          rw [runCheckP_exit]
                          simp [runCheckP, List.append_assoc]
                      · rw [Bool.not_eq_true] at hpic
                        rw [hpic] at h
                        simp only [Bool.false_eq_true, if_false] at h
                        exact hkont true h
                    · rw [Bool.not_eq_true] at hsolved
                      rw [hsolved] at h
                      simp only [Bool.false_eq_true, if_false] at h
                      exact hkont found h
        | none =>
          simp only at h
          cases hrec : dfsGo pb ep mdc maxN f (depth + 1) none (applyT st name shifted)
            with
          | mk st3 rest3 =>
            cases rest3 with
            | mk solved rest4 =>
              cases rest4 with
              | mk ccount aborted =>
                rw [hrec] at h
                simp only at h
                have hkeys2 : Keys (applyT st name shifted) :=
                  Keys_applyT hkeys name shifted
                have hcount2 : unusedCount pb (applyT st name shifted) < f := by
                  have hsame : (applyT st name shifted).used =
                      st.used.insert name := rfl
                  show (pb.selected_pieces.filter
                    (fun n => decide (n ∉ (applyT st name shifted).used))).length < f
                  have hlt := @unusedCount_insert pb st name hhyg0.1 hhyg0.2.1
                  unfold unusedCount at hcount hlt
                  have hbridge :
                      (pb.selected_pieces.filter
                        (fun n => decide (n ∉ (applyT st name shifted).used))).length =
                      (pb.selected_pieces.filter
                        (fun n => decide (n ∉ st.used.insert name))).length := rfl
                  omega
                have hml := dfsGo_master f (depth + 1) none (applyT st name shifted)
                  st3 solved ccount aborted hrec hkeys2 hcount2
                have hst4 := @unapplyT_fields st st3
                  name shifted hml.1 hml.2.1 hml.2.2.1
                  hhyg0.2.1 hhyg0.2.2 hkeys
                by_cases hab : aborted = true
                · rw [hab] at h
                  rw [if_pos rfl] at h
                  have h2 := congrArg Prod.snd h
                  simp only at h2
                  subst h2
                  exact fun habs => Bool.noConfusion habs
                · rw [Bool.not_eq_true] at hab
                  rw [hab] at h
                  simp only [Bool.false_eq_true, if_false] at h
                  rcases ihrec (depth + 1) none (applyT st name shifted) st3 solved
                    ccount aborted (fun j2 => parentOf st3.nodes j2) hrec hkeys2
                    hcount2 (fun c hc => Option.noConfusion hc)
                    (fun j _ _ => rfl) hab with
                    ⟨hPFr0, Er0, snr0, hevr0, hmonor0, hsgr0⟩
                  have hkont : ∀ (fnd : Bool),
                      dfsLoop pb ep maxN (dfsGo pb ep mdc maxN f) depth none
                        rightmost displayIdx rest (idx + 1) (subtree + ccount) fnd
                        (unapplyT st3 name shifted) = (st', out) →
                      LoopEvOut pm st st' none out := by
                    intro fnd hloop
                    have hlen4 : (unapplyT st3 name shifted).nodes.length =
                        st3.nodes.length := rfl
                    have happ : (applyT st name shifted).nodes.length =
                        st.nodes.length := rfl
                    have hrest := dfsLoop_events ihrec rest depth none rightmost
                      displayIdx (idx + 1) (subtree + ccount) fnd _ st' out pm hloop
                      (by
                        unfold Keys
                        rw [hst4.2.2, hst4.2.1]
                        exact hkeys)
                      (by
                        unfold unusedCount
                        rw [hst4.1]
                        exact hcount)
                      (fun c hc => Option.noConfusion hc)
                      (by
                        intro a ha
                        have := hhyg a (List.mem_cons_of_mem _ ha)
                        rw [hst4.1, hst4.2.1]
                        exact this)
                      (by
                        intro j h1 h2
                        refine hpm j ?_ h2
                        rw [hlen4] at h1
                        rw [happ] at hmonor0
                        omega)
                    cases out with
                    | early sv2 cnt2 ab2 =>
                      intro hab2
                      rcases hrest hab2 with ⟨hPF2, E2, sn2, hev2r, hmono2, hsg2⟩
                      have hpmc : ∀ j, (applyT st name shifted).nodes.length ≤ j →
                          j < st3.nodes.length →
                          pm j = parentOf st3.nodes j := by
                        intro j h1 h2
                        rw [hpm j (by rw [happ] at h1; exact h1)
                          (by rw [hlen4] at hmono2; omega)]
                        rw [hPF2 j (by rw [hlen4]; exact h2)]
                        rfl
                      rcases ihrec (depth + 1) none (applyT st name shifted) st3
                        solved ccount aborted pm hrec hkeys2 hcount2
                        (fun c hc => Option.noConfusion hc) hpmc hab with
                        ⟨hPFr, Er, snr, hevr, hmonor, hsgr⟩
                      have hev4 : (unapplyT st3 name shifted).events =
                          (applyT st name shifted).events ++ Er := hevr
                      refine ⟨?_, Er ++ E2, sn2 ++ snr, ?_, ?_, ?_, ?_, ?_⟩
                      · intro j hj
                        rw [hPF2 j (by
                          rw [hlen4]
                          rw [happ] at hmonor
                          omega)]
                        show parentOf st3.nodes j = _
                        rw [hPFr j (by rw [happ]; exact hj)]
                        rfl
                      · rw [hev2r, hev4]
                        show (st.events ++ Er) ++ E2 = _
                        rw [List.append_assoc]
                      · rw [hlen4] at hmono2
                        rw [happ] at hmonor
                        omega
                      · intro x hx
                        rw [hlen4] at hmono2
                        rw [happ] at hmonor
                        rcases List.mem_append.mp hx with h1 | h1
                        · have := hsg2.1 x h1
                          rw [hlen4] at this
                          omega
                        · have := hsgr.1 x h1
                          rw [happ] at this
                          omega
                      · intro ev hev
                        rw [hlen4] at hmono2
                        rcases List.mem_append.mp hev with h1 | h1
                        · have := hsgr.2.1 ev h1
                          omega
                        · have := hsg2.2.1 ev h1
                          omega
                      · intro stack seen hreq hseen
                        simp only [pushStack]
                        rw [runCheckP_append]
                        have hsgra := hsgr.2.2 stack seen True.intro
                          (by
                            intro x hx
                            rw [happ]
                            exact hseen x hx)
                        simp only [pushStack] at hsgra
                        rw [hsgra]
                        show runCheckP pm E2 (stack, snr ++ seen) = _
                        have hsg2a := hsg2.2.2 stack (snr ++ seen) True.intro
                          (by
                            intro x hx
                            rw [hlen4]
                            rw [happ] at hmonor
                            rcases List.mem_append.mp hx with h1 | h1
                            · have := hsgr.1 x h1
                              rw [happ] at this
                              omega
                            · have := hseen x h1
                              omega)
                        simp only [pushStack] at hsg2a
                        rw [hsg2a]
                        simp [List.append_assoc]
                    | fell fnd2 cnt2 =>
                      rcases hrest with ⟨hPF2, E2, sn2, hev2r, hmono2, hsg2⟩
                      have hpmc : ∀ j, (applyT st name shifted).nodes.length ≤ j →
                          j < st3.nodes.length →
                          pm j = parentOf st3.nodes j := by
                        intro j h1 h2
                        rw [hpm j (by rw [happ] at h1; exact h1)
                          (by rw [hlen4] at hmono2; omega)]
                        rw [hPF2 j (by rw [hlen4]; exact h2)]
                        rfl
                      rcases ihrec (depth + 1) none (applyT st name shifted) st3
                        solved ccount aborted pm hrec hkeys2 hcount2
                        (fun c hc => Option.noConfusion hc) hpmc hab with
                        ⟨hPFr, Er, snr, hevr, hmonor, hsgr⟩
                      have hev4 : (unapplyT st3 name shifted).events =
                          (applyT st name shifted).events ++ Er := hevr
                      refine ⟨?_, Er ++ E2, sn2 ++ snr, ?_, ?_, ?_, ?_, ?_⟩
                      · intro j hj
                        rw [hPF2 j (by
                          rw [hlen4]
                          rw [happ] at hmonor
                          omega)]
                        show parentOf st3.nodes j = _
                        rw [hPFr j (by rw [happ]; exact hj)]
                        rfl
                      · rw [hev2r, hev4]
                        show (st.events ++ Er) ++ E2 = _
                        rw [List.append_assoc]
                      · rw [hlen4] at hmono2
                        rw [happ] at hmonor
                        omega
                      · intro x hx
                        rw [hlen4] at hmono2
                        rw [happ] at hmonor
                        rcases List.mem_append.mp hx with h1 | h1
                        · have := hsg2.1 x h1
                          rw [hlen4] at this
                          omega
                        · have := hsgr.1 x h1
                          rw [happ] at this
                          omega
                      · intro ev hev
                        rw [hlen4] at hmono2
                        rcases List.mem_append.mp hev with h1 | h1
                        · have := hsgr.2.1 ev h1
                          omega
                        · have := hsg2.2.1 ev h1
                          omega
                      · intro stack seen hreq hseen
                        simp only [pushStack]
                        rw [runCheckP_append]
                        have hsgra := hsgr.2.2 stack seen True.intro
                          (by
                            intro x hx
                            rw [happ]
                            exact hseen x hx)
                        simp only [pushStack] at hsgra
                        rw [hsgra]
                        show runCheckP pm E2 (stack, snr ++ seen) = _
                        have hsg2a := hsg2.2.2 stack (snr ++ seen) True.intro
                          (by
                            intro x hx
                            rw [hlen4]
                            rw [happ] at hmonor
                            rcases List.mem_append.mp hx with h1 | h1
                            · have := hsgr.1 x h1
                              rw [happ] at this
                              omega
                            · have := hseen x h1
                              omega)
                        simp only [pushStack] at hsg2a
                        rw [hsg2a]
                        simp [List.append_assoc]
                  by_cases hsolved : solved = true
                  · rw [hsolved] at h
                    rw [if_pos rfl] at h
                    exact hkont true h
                  · rw [Bool.not_eq_true] at hsolved
                    rw [hsolved] at h
                    simp only [Bool.false_eq_true, if_false] at h
                    exact hkont found h
    · rw [if_neg hdisp] at h
      exact dfsLoop_events ihrec rest depth did rightmost displayIdx (idx + 1)
        subtree found st st' out pm h hkeys hcount hdid
        (fun a ha => hhyg a (List.mem_cons_of_mem _ ha)) hpm

theorem dfsGo_events {pb : Problem} {ep : Bool} {mdc maxN : Nat} :
    ∀ (f depth : Nat) (did : Option Nat) (st st' : TState) (sv : Bool)
      (cnt : Nat) (ab : Bool) (pm : Nat → Option Nat),
      dfsGo pb ep mdc maxN f depth did st = (st', sv, cnt, ab) →
      Keys st → unusedCount pb st < f →
      (∀ c, did = some c → c < st.nodes.length) →
      (∀ j, st.nodes.length ≤ j → j < st'.nodes.length →
        pm j = parentOf st'.nodes j) →
      ab = false →
      (∀ j, j < st.nodes.length → parentOf st'.nodes j = parentOf st.nodes j) ∧
      ∃ E seenNew, st'.events = st.events ++ E ∧
        st.nodes.length ≤ st'.nodes.length ∧
        SegOKP pm st.nodes.length st'.nodes.length E seenNew did none
  | 0, depth, did, st, st', sv, cnt, ab, pm => fun _ _ hcount _ _ _ =>
      absurd hcount (Nat.not_lt_zero _)
  | f + 1, depth, did, st, st', sv, cnt, ab, pm => by
    intro h hkeys hcount hdid hpm hab
    rw [dfsGo_succ] at h
    simp only [dfsBody] at h
    split at h
    · next hcond =>
      exfalso
      injection h with h1 h2
      injection h2 with h2 h3
      injection h3 with h3 h4
      subst h4
      exact Bool.noConfusion hab
    · next hcond =>
      split at h
      · split at h
        · next i =>
          injection h with h1 h2
          subst h1
          refine ⟨?_, [⟨EvKind.exit, i⟩], [], ?_, ?_, ?_, ?_, ?_⟩
          · intro j hj
            rw [finalizeNode_parent]
          · rw [finalizeNode_events]
          · rw [finalizeNode_nlength]
          · intro x hx
            exact absurd hx (List.not_mem_nil x)
          · intro ev hev
            have hev1 := List.mem_singleton.mp hev
            subst hev1
            rw [finalizeNode_nlength]
            exact hdid i rfl
          · intro stack seen hreq hseen
            show runCheckP pm [⟨EvKind.exit, i⟩] (i :: stack, seen) =
              some (stack, [] ++ seen)
            rw [runCheckP_exit]
            rfl
        · injection h with h1 h2
          subst h1
          refine ⟨fun j _ => rfl, [], [], (List.append_nil _).symm, Nat.le_refl _,
            ?_, ?_, ?_⟩
          · intro x hx
            exact absurd hx (List.not_mem_nil x)
          · intro ev hev
            exact absurd hev (List.not_mem_nil ev)
          · intro stack seen hreq hseen
            rfl
      · next anchor heqFE =>
        split at h
        · next hcond2 =>
          split at h
          · next st5 solved2 cnt2 aborted2 heq =>
            injection h with h1 h2
            injection h2 with h2 h3
            injection h3 with h3 h4
            subst h1
            subst h4
            have hl := dfsLoop_events
              (fun d di s s2 v c a pm2 hh hk hc hd hp2 ha =>
                dfsGo_events f d di s s2 v c a pm2 hh hk hc hd hp2 ha)
              _ _ _ _ _ _ _ _ _ _ _ pm heq hkeys hcount hdid attemptsFor_hyg hpm
            exact hl hab
          · next st5 found2 cnt2 heq =>
            split at h
            · next i =>
              injection h with h1 h2
              subst h1
              have hpml : ∀ j, st.nodes.length ≤ j → j < st5.nodes.length →
                  pm j = parentOf st5.nodes j := by
                intro j h1 h2
                rw [hpm j h1 (by rw [finalizeNode_nlength]; exact h2)]
                rw [finalizeNode_parent]
              have hl := dfsLoop_events
                (fun d di s s2 v c a pm2 hh hk hc hd hp2 ha =>
                  dfsGo_events f d di s s2 v c a pm2 hh hk hc hd hp2 ha)
                _ _ _ _ _ _ _ _ _ _ _ pm heq hkeys hcount hdid attemptsFor_hyg hpml
              have hl2 : (∀ j, j < st.nodes.length →
                  parentOf st5.nodes j = parentOf st.nodes j) ∧
                  ∃ E seenNew, st5.events = st.events ++ E ∧
                    st.nodes.length ≤ st5.nodes.length ∧
                    SegOKP pm st.nodes.length st5.nodes.length E seenNew none
                      (some i) := hl
              obtain ⟨hPF5, E, snw, hev, hmono, hsg⟩ := hl2
              refine ⟨?_, E ++ [⟨EvKind.exit, i⟩], snw, ?_, ?_, ?_, ?_, ?_⟩
              · intro j hj
                rw [finalizeNode_parent]
                exact hPF5 j hj
              · rw [finalizeNode_events, hev, List.append_assoc]
              · rw [finalizeNode_nlength]
                exact hmono
              · intro x hx
                rw [finalizeNode_nlength]
                exact hsg.1 x hx
              · intro ev hev2
                rw [finalizeNode_nlength]
                rcases List.mem_append.mp hev2 with h1 | h1
                · exact hsg.2.1 ev h1
                · have h1b := List.mem_singleton.mp h1
                  subst h1b
                  show i < st5.nodes.length
                  exact Nat.lt_of_lt_of_le (hdid i rfl) hmono
              · intro stack seen hreq hseen
                show runCheckP pm (E ++ [⟨EvKind.exit, i⟩]) (i :: stack, seen) =
                  some (stack, snw ++ seen)
                rw [runCheckP_append]
                have h1 := hsg.2.2 (i :: stack) seen rfl hseen
                simp only [pushStack] at h1
                rw [h1]
                show runCheckP pm [⟨EvKind.exit, i⟩] (i :: stack, snw ++ seen) = _
                rw [runCheckP_exit]
                rfl
            · injection h with h1 h2
              subst h1
              have hl := dfsLoop_events
                (fun d di s s2 v c a pm2 hh hk hc hd hp2 ha =>
                  dfsGo_events f d di s s2 v c a pm2 hh hk hc hd hp2 ha)
                _ _ _ _ _ _ _ _ _ _ _ pm heq hkeys hcount hdid attemptsFor_hyg hpm
              exact hl
        · next hcondE =>
          split at h
          · next st5 solved2 cnt2 aborted2 heq =>
            injection h with h1 h2
            injection h2 with h2 h3
            injection h3 with h3 h4
            subst h1
            subst h4
            have hl := dfsLoop_events
              (fun d di s s2 v c a pm2 hh hk hc hd hp2 ha =>
                dfsGo_events f d di s s2 v c a pm2 hh hk hc hd hp2 ha)
              _ _ _ _ _ _ _ _ _ _ _ pm heq hkeys hcount hdid attemptsFor_hyg hpm
            exact hl hab
          · next st5 found2 cnt2 heq =>
            split at h
            · next i =>
              injection h with h1 h2
              subst h1
              have hpml : ∀ j, st.nodes.length ≤ j → j < st5.nodes.length →
                  pm j = parentOf st5.nodes j := by
                intro j h1 h2
                rw [hpm j h1 (by rw [finalizeNode_nlength]; exact h2)]
                rw [finalizeNode_parent]
              have hl := dfsLoop_events
                (fun d di s s2 v c a pm2 hh hk hc hd hp2 ha =>
                  dfsGo_events f d di s s2 v c a pm2 hh hk hc hd hp2 ha)
                _ _ _ _ _ _ _ _ _ _ _ pm heq hkeys hcount hdid attemptsFor_hyg hpml
              have hl2 : (∀ j, j < st.nodes.length →
                  parentOf st5.nodes j = parentOf st.nodes j) ∧
                  ∃ E seenNew, st5.events = st.events ++ E ∧
                    st.nodes.length ≤ st5.nodes.length ∧
                    SegOKP pm st.nodes.length st5.nodes.length E seenNew none
                      (some i) := hl
              obtain ⟨hPF5, E, snw, hev, hmono, hsg⟩ := hl2
              refine ⟨?_, E ++ [⟨EvKind.exit, i⟩], snw, ?_, ?_, ?_, ?_, ?_⟩
              · intro j hj
                rw [finalizeNode_parent]
                exact hPF5 j hj
              · rw [finalizeNode_events, hev, List.append_assoc]
              · rw [finalizeNode_nlength]
                exact hmono
              · intro x hx
                rw [finalizeNode_nlength]
                exact hsg.1 x hx
              · intro ev hev2
                rw [finalizeNode_nlength]
                rcases List.mem_append.mp hev2 with h1 | h1
                · exact hsg.2.1 ev h1
                · have h1b := List.mem_singleton.mp h1
                  subst h1b
                  show i < st5.nodes.length
                  exact Nat.lt_of_lt_of_le (hdid i rfl) hmono
              · intro stack seen hreq hseen
                show runCheckP pm (E ++ [⟨EvKind.exit, i⟩]) (i :: stack, seen) =
                  some (stack, snw ++ seen)
                rw [runCheckP_append]
                have h1 := hsg.2.2 (i :: stack) seen rfl hseen
                simp only [pushStack] at h1
                rw [h1]
                show runCheckP pm [⟨EvKind.exit, i⟩] (i :: stack, snw ++ seen) = _
                rw [runCheckP_exit]
                rfl
            · injection h with h1 h2
              subst h1
              have hl := dfsLoop_events
                (fun d di s s2 v c a pm2 hh hk hc hd hp2 ha =>
                  dfsGo_events f d di s s2 v c a pm2 hh hk hc hd hp2 ha)
                _ _ _ _ _ _ _ _ _ _ _ pm heq hkeys hcount hdid attemptsFor_hyg hpm
              exact hl

theorem cloneChildren_mono {unNodes : List NodeData} {mdc : Nat}
    {recur : Nat → Nat → List NodeData → List Event → List NodeData × List Event}
    (ihrec : ∀ unId pid nodes events,
      nodes.length ≤ (recur unId pid nodes events).1.length) :
    ∀ (unChildren : List Nat) (pid : Nat) (nodes : List NodeData)
      (events : List Event),
      nodes.length ≤
        (cloneChildren unNodes mdc recur unChildren pid nodes events).1.length
  | [], pid, nodes, events => Nat.le_refl _
  | unChild :: rest, pid, nodes, events => by
    rw [cloneChildren.eq_def]
    simp only
    split
    · exact Nat.le_refl _
    · cases hcs : recur unChild nodes.length
          (updateNode (nodes ++
            [{ node_id := nodes.length, parent_id := some pid
               depth := (nodes.getD pid dfltNode).depth + 1
               board := (unNodes.getD unChild dfltNode).board, pruned := false
               counterfactual := true
               rightmost_chain := (unNodes.getD unChild dfltNode).rightmost_chain
               step_at_enter := (unNodes.getD unChild dfltNode).step_at_enter
               elapsed_ms_at_enter :=
                 (unNodes.getD unChild dfltNode).elapsed_ms_at_enter
               children := [], elapsed_ms := none, explored_subnodes := 0 }]) pid
            (fun nd => { nd with children := nd.children ++ [nodes.length] }))
          (events ++ [⟨EvKind.enter, nodes.length⟩]) with
      | mk nodes3 events3 =>
        simp only
        have h1 := ihrec unChild nodes.length
          (updateNode (nodes ++
            [{ node_id := nodes.length, parent_id := some pid
               depth := (nodes.getD pid dfltNode).depth + 1
               board := (unNodes.getD unChild dfltNode).board, pruned := false
               counterfactual := true
               rightmost_chain := (unNodes.getD unChild dfltNode).rightmost_chain
               step_at_enter := (unNodes.getD unChild dfltNode).step_at_enter
               elapsed_ms_at_enter :=
                 (unNodes.getD unChild dfltNode).elapsed_ms_at_enter
               children := [], elapsed_ms := none, explored_subnodes := 0 }]) pid
            (fun nd => { nd with children := nd.children ++ [nodes.length] }))
          (events ++ [⟨EvKind.enter, nodes.length⟩])
        rw [hcs] at h1
        rw [updateNode_length, List.length_append] at h1
        have h3 := @cloneChildren_mono unNodes mdc _ ihrec rest pid nodes3
          (events3 ++ [⟨EvKind.exit, nodes.length⟩])
        simp only [List.length_append, List.length_singleton] at h1
        omega

theorem cloneSubtree_mono {unNodes : List NodeData} {mdd mdc : Nat} :
    ∀ (f : Nat) (unId pid : Nat) (nodes : List NodeData) (events : List Event),
      nodes.length ≤ (cloneSubtree unNodes mdd mdc f unId pid nodes events).1.length
  | 0, unId, pid, nodes, events => Nat.le_refl _
  | f + 1, unId, pid, nodes, events => by
    rw [cloneSubtree_succ]
    split
    · exact Nat.le_refl _
    · exact cloneChildren_mono
        (fun unId2 pid2 ns evs => cloneSubtree_mono f unId2 pid2 ns evs)
        ((unNodes.getD unId dfltNode).children.take mdc) pid nodes events

theorem cloneChildren_events {unNodes : List NodeData} {mdd mdc : Nat} {f : Nat}
    {pm : Nat → Option Nat}
    (ihrec : ∀ unId pid nodes events nodes2 events2,
      cloneSubtree unNodes mdd mdc f unId pid nodes events = (nodes2, events2) →
      (∀ j, nodes.length ≤ j → j < nodes2.length → pm j = parentOf nodes2 j) →
      (∀ j, j < nodes.length → parentOf nodes2 j = parentOf nodes j) ∧
      ∃ D snw, events2 = events ++ D ∧ nodes.length ≤ nodes2.length ∧
        SegOKP pm nodes.length nodes2.length D snw none (some pid)) :
    ∀ (unChildren : List Nat) (pid : Nat) (nodes : List NodeData)
      (events : List Event) (nodes2 : List NodeData) (events2 : List Event),
      cloneChildren unNodes mdc (cloneSubtree unNodes mdd mdc f) unChildren pid
        nodes events = (nodes2, events2) →
      (∀ j, nodes.length ≤ j → j < nodes2.length → pm j = parentOf nodes2 j) →
      (∀ j, j < nodes.length → parentOf nodes2 j = parentOf nodes j) ∧
      ∃ D snw, events2 = events ++ D ∧ nodes.length ≤ nodes2.length ∧
        SegOKP pm nodes.length nodes2.length D snw none (some pid)
  | [], pid, nodes, events, nodes2, events2 => by
    intro h hpm
    injection h with h1 h2
    subst h1
    subst h2
    exact ⟨fun j _ => rfl, [], [], (List.append_nil _).symm, Nat.le_refl _,
      fun x hx => absurd hx (List.not_mem_nil x),
      fun ev hev => absurd hev (List.not_mem_nil ev),
      fun stack seen _ _ => rfl⟩
  | unChild :: rest, pid, nodes, events, nodes2, events2 => by
    intro h hpm
    rw [cloneChildren.eq_def] at h
    simp only at h
    split at h
    · injection h with h1 h2
      subst h1
      subst h2
      exact ⟨fun j _ => rfl, [], [], (List.append_nil _).symm, Nat.le_refl _,
        fun x hx => absurd hx (List.not_mem_nil x),
        fun ev hev => absurd hev (List.not_mem_nil ev),
        fun stack seen _ _ => rfl⟩
    · next hguard =>
      cases hcs : cloneSubtree unNodes mdd mdc f unChild nodes.length
          (updateNode (nodes ++
            [{ node_id := nodes.length, parent_id := some pid
               depth := (nodes.getD pid dfltNode).depth + 1
               board := (unNodes.getD unChild dfltNode).board, pruned := false
               counterfactual := true
               rightmost_chain := (unNodes.getD unChild dfltNode).rightmost_chain
               step_at_enter := (unNodes.getD unChild dfltNode).step_at_enter
               elapsed_ms_at_enter :=
                 (unNodes.getD unChild dfltNode).elapsed_ms_at_enter
               children := [], elapsed_ms := none, explored_subnodes := 0 }]) pid
            (fun nd => { nd with children := nd.children ++ [nodes.length] }))
          (events ++ [⟨EvKind.enter, nodes.length⟩]) with
      | mk nodes3 events3 =>
        rw [hcs] at h
        simp only at h
        have hlenU : (updateNode (nodes ++
            [{ node_id := nodes.length, parent_id := some pid
               depth := (nodes.getD pid dfltNode).depth + 1
               board := (unNodes.getD unChild dfltNode).board, pruned := false
               counterfactual := true
               rightmost_chain := (unNodes.getD unChild dfltNode).rightmost_chain
               step_at_enter := (unNodes.getD unChild dfltNode).step_at_enter
               elapsed_ms_at_enter :=
                 (unNodes.getD unChild dfltNode).elapsed_ms_at_enter
               children := [], elapsed_ms := none, explored_subnodes := 0 }]) pid
            (fun nd => { nd with children := nd.children ++ [nodes.length] })).length =
            nodes.length + 1 := by
          rw [updateNode_length, List.length_append]
          rfl
        have hmono3 : nodes.length + 1 ≤ nodes3.length := by
          have hm := @cloneSubtree_mono unNodes mdd mdc f unChild nodes.length
            (updateNode (nodes ++
              [{ node_id := nodes.length, parent_id := some pid
                 depth := (nodes.getD pid dfltNode).depth + 1
                 board := (unNodes.getD unChild dfltNode).board, pruned := false
                 counterfactual := true
                 rightmost_chain := (unNodes.getD unChild dfltNode).rightmost_chain
                 step_at_enter := (unNodes.getD unChild dfltNode).step_at_enter
                 elapsed_ms_at_enter :=
                   (unNodes.getD unChild dfltNode).elapsed_ms_at_enter
                 children := [], elapsed_ms := none, explored_subnodes := 0 }]) pid
              (fun nd => { nd with children := nd.children ++ [nodes.length] }))
            (events ++ [⟨EvKind.enter, nodes.length⟩])
          rw [hcs] at hm
          rw [hlenU] at hm
          exact hm
        obtain ⟨hPF2, D2, snw2, hev2, hmono2, hsg2⟩ := cloneChildren_events ihrec
          rest pid nodes3 (events3 ++ [⟨EvKind.exit, nodes.length⟩]) nodes2
          events2 h
          (by
            intro j h1 h2
            exact hpm j (by omega) h2)
        obtain ⟨hPFr, D1, snw1, hev1, hmono1, hsg1⟩ := ihrec unChild nodes.length
          _ _ nodes3 events3 hcs
          (by
            intro j h1 h2
            rw [hpm j (by rw [hlenU] at h1; omega) (by omega)]
            exact hPF2 j h2)
        rw [hlenU] at hmono1 hsg1
        have hparent : pm nodes.length = some pid := by
          rw [hpm nodes.length (Nat.le_refl _) (by omega)]
          rw [hPF2 nodes.length (by omega)]
          rw [hPFr nodes.length (by rw [hlenU]; omega)]
          rw [updateNode_parentOf]
          · unfold parentOf
            rw [getD_concat_self]
          · intro nd
            rfl
        refine ⟨?_, ⟨EvKind.enter, nodes.length⟩ ::
            (D1 ++ (⟨EvKind.exit, nodes.length⟩ :: D2)),
          snw2 ++ (snw1 ++ [nodes.length]), ?_, ?_, ?_, ?_, ?_⟩
        · intro j hj
          rw [hPF2 j (by omega)]
          rw [hPFr j (by rw [hlenU]; omega)]
          rw [updateNode_parentOf]
          · unfold parentOf
            rw [List.getD_append _ _ _ j hj]
          · intro nd
            rfl
        · rw [hev2, hev1]
          simp [List.append_assoc]
        · omega
        · intro x hx
          rcases List.mem_append.mp hx with h1 | h1
          · have := hsg2.1 x h1
            omega
          · rcases List.mem_append.mp h1 with h2 | h2
            · have := hsg1.1 x h2
              omega
            · have h3 := List.mem_singleton.mp h2
              subst h3
              omega
        · intro ev hev
          rcases List.mem_cons.mp hev with h1 | h1
          · subst h1
            show nodes.length < nodes2.length
            omega
          · rcases List.mem_append.mp h1 with h2 | h2
            · have := hsg1.2.1 ev h2
              omega
            · rcases List.mem_cons.mp h2 with h3 | h3
              · subst h3
                show nodes.length < nodes2.length
                omega
              · exact hsg2.2.1 ev h3
        · intro stack seen hreq hseen
          simp only [pushStack, headOK] at hreq
          simp only [pushStack]
          rw [runCheckP_enter pm nodes.length _ stack seen
            (fun hmem => absurd (hseen _ hmem) (Nat.lt_irrefl _))
            (by rw [hparent, hreq])]
          rw [runCheckP_append]
          have h1 := hsg1.2.2 (nodes.length :: stack) (nodes.length :: seen)
            rfl
            (by
              intro x hx
              rcases List.mem_cons.mp hx with h2 | h2
              · omega
              · have := hseen x h2
                omega)
          simp only [pushStack] at h1
          rw [h1]
          show runCheckP pm (⟨EvKind.exit, nodes.length⟩ :: D2)
            (nodes.length :: stack, snw1 ++ nodes.length :: seen) = _
          rw [runCheckP_exit]
          have h2 := hsg2.2.2 stack (snw1 ++ nodes.length :: seen)
            (by
              simp only [pushStack, headOK]
              exact hreq)
            (by
              intro x hx
              rcases List.mem_append.mp hx with h3 | h3
              · have := hsg1.1 x h3
                omega
              · rcases List.mem_cons.mp h3 with h4 | h4
                · omega
                · have := hseen x h4
                  omega)
          simp only [pushStack] at h2
          rw [h2]
          simp [List.append_assoc]

theorem cloneSubtree_events {unNodes : List NodeData} {mdd mdc : Nat}
    {pm : Nat → Option Nat} :
    ∀ (f : Nat) (unId pid : Nat) (nodes : List NodeData) (events : List Event)
      (nodes2 : List NodeData) (events2 : List Event),
      cloneSubtree unNodes mdd mdc f unId pid nodes events = (nodes2, events2) →
      (∀ j, nodes.length ≤ j → j < nodes2.length → pm j = parentOf nodes2 j) →
      (∀ j, j < nodes.length → parentOf nodes2 j = parentOf nodes j) ∧
      ∃ D snw, events2 = events ++ D ∧ nodes.length ≤ nodes2.length ∧
        SegOKP pm nodes.length nodes2.length D snw none (some pid)
  | 0, unId, pid, nodes, events, nodes2, events2 => by
    intro h hpm
    injection h with h1 h2
    subst h1
    subst h2
    exact ⟨fun j _ => rfl, [], [], (List.append_nil _).symm, Nat.le_refl _,
      fun x hx => absurd hx (List.not_mem_nil x),
      fun ev hev => absurd hev (List.not_mem_nil ev),
      fun stack seen _ _ => rfl⟩
  | f + 1, unId, pid, nodes, events, nodes2, events2 => by
    intro h hpm
    rw [cloneSubtree_succ] at h
    split at h
    · injection h with h1 h2
      subst h1
      subst h2
      exact ⟨fun j _ => rfl, [], [], (List.append_nil _).symm, Nat.le_refl _,
        fun x hx => absurd hx (List.not_mem_nil x),
        fun ev hev => absurd hev (List.not_mem_nil ev),
        fun stack seen _ _ => rfl⟩
    · exact cloneChildren_events
        (fun unId2 pid2 ns evs ns2 evs2 hh hp =>
          cloneSubtree_events f unId2 pid2 ns evs ns2 evs2 hh hp)
        ((unNodes.getD unId dfltNode).children.take mdc) pid nodes events
        nodes2 events2 h hpm

theorem addPrunedAux_events {unNodes : List NodeData}
    {sigMap : List (List (Cell × String) × Nat)} {mdd mdc L0 : Nat}
    {pm : Nat → Option Nat} :
    ∀ (evs : List Event) (nodes : List NodeData) (events : List Event)
      (nodesF : List NodeData) (eventsF : List Event),
      addPrunedAux unNodes sigMap mdd mdc evs nodes events = (nodesF, eventsF) →
      (∀ ev ∈ evs, ev.node_id < L0) →
      L0 ≤ nodes.length →
      (∀ j, L0 ≤ j → j < nodesF.length → pm j = parentOf nodesF j) →
      (∀ j, j < nodes.length → parentOf nodesF j = parentOf nodes j) ∧
      nodes.length ≤ nodesF.length ∧
      ∃ D, eventsF = events ++ D ∧
        ∀ (stack seen : List Nat) (outB : List Nat × List Nat),
          (∀ x ∈ seen, x < nodes.length) →
          runCheckP pm evs (stack, seen.filter (fun x => decide (x < L0))) =
            some outB →
          ∃ seenF, runCheckP pm D (stack, seen) = some (outB.1, seenF)
  | [], nodes, events, nodesF, eventsF => by
    intro h hbnd hlen hpm
    injection h with h1 h2
    subst h1
    subst h2
    refine ⟨fun j _ => rfl, Nat.le_refl _, [], (List.append_nil _).symm, ?_⟩
    intro stack seen outB hseen hrunB
    injection hrunB with hrunB
    refine ⟨seen, ?_⟩
    rw [← hrunB]
    rfl
  | ev :: evs, nodes, events, nodesF, eventsF => by
    intro h hbnd hlen hpm
    rw [addPrunedAux.eq_def] at h
    simp only at h
    split at h
    · next hcnd =>
      split at h
      · next pr hfind =>
        cases hcs : cloneSubtree unNodes mdd mdc (mdd + 1) pr.2 ev.node_id nodes
            (events ++ [ev]) with
        | mk nodesA eventsA =>
          rw [hcs] at h
          simp only at h
          obtain ⟨hPFI, hmonoI, D2, hD2ev, hD2run⟩ := addPrunedAux_events evs
            nodesA eventsA nodesF eventsF h
            (fun e he => hbnd e (List.mem_cons_of_mem _ he))
            (by
              have hm := @cloneSubtree_mono unNodes mdd mdc (mdd + 1) pr.2
                ev.node_id nodes (events ++ [ev])
              rw [hcs] at hm
              exact Nat.le_trans hlen hm)
            hpm
          have hmonoC : nodes.length ≤ nodesA.length := by
            have hm := @cloneSubtree_mono unNodes mdd mdc (mdd + 1) pr.2
              ev.node_id nodes (events ++ [ev])
            rw [hcs] at hm
            exact hm
          obtain ⟨hPFg, Dg, snwg, hevg, hmonog, hsgg⟩ :=
            @cloneSubtree_events unNodes mdd mdc pm
            (mdd + 1) pr.2 ev.node_id nodes (events ++ [ev]) nodesA eventsA hcs
            (by
              intro j h1 h2
              rw [hpm j (by omega) (by omega)]
              exact hPFI j h2)
          obtain ⟨k, i⟩ := ev
          have hk : k = EvKind.enter := hcnd.1
          subst hk
          have hiL0 : i < L0 := hbnd ⟨EvKind.enter, i⟩ (List.mem_cons_self _ _)
          refine ⟨?_, ?_, ⟨EvKind.enter, i⟩ :: (Dg ++ D2), ?_, ?_⟩
          · intro j hj
            rw [hPFI j (by omega)]
            exact hPFg j hj
          · omega
          · rw [hD2ev, hevg]
            simp [List.append_assoc]
          · intro stack seen outB hseen hrunB
            by_cases hmem : i ∈ List.filter (fun x => decide (x < L0)) seen
            · exfalso
              simp only [runCheckP, checkEvP] at hrunB
              rw [if_pos hmem] at hrunB
              exact Option.noConfusion hrunB
            · by_cases hp : pm i = stack.head?
              · have hinotseen : i ∉ seen := by
                  intro hmem2
                  exact hmem (List.mem_filter.mpr ⟨hmem2, by simp [hiL0]⟩)
                rw [runCheckP_enter pm i evs stack
                    (List.filter (fun x => decide (x < L0)) seen) hmem hp]
                  at hrunB
                have hstep := hD2run (i :: stack) (snwg ++ (i :: seen)) outB
                  (by
                    intro x hx
                    rcases List.mem_append.mp hx with h1 | h1
                    · exact (hsgg.1 x h1).2
                    · rcases List.mem_cons.mp h1 with h2 | h2
                      · subst h2
                        omega
                      · have := hseen x h2
                        omega)
                  (by
                    have hfilg : List.filter (fun x => decide (x < L0)) snwg =
                        [] := by
                      rw [List.filter_eq_nil]
                      intro a ha
                      have h1 := (hsgg.1 a ha).1
                      simp only [decide_eq_true_eq]
                      omega
                    show runCheckP pm evs (i :: stack,
                      List.filter (fun x => decide (x < L0))
                        (snwg ++ (i :: seen))) = some outB
                    rw [List.filter_append, hfilg, List.nil_append,
                      List.filter_cons_of_pos (by simp [hiL0])]
                    exact hrunB)
                obtain ⟨seenF, hrunF⟩ := hstep
                refine ⟨seenF, ?_⟩
                rw [runCheckP_enter pm i (Dg ++ D2) stack seen hinotseen hp]
                rw [runCheckP_append]
                have hg := hsgg.2.2 (i :: stack) (i :: seen) rfl
                  (by
                    intro x hx
                    rcases List.mem_cons.mp hx with h2 | h2
                    · subst h2
                      omega
                    · exact hseen x h2)
                simp only [pushStack] at hg
                rw [hg]
                show runCheckP pm D2 (i :: stack, snwg ++ (i :: seen)) = _
                exact hrunF
              · exfalso
                simp only [runCheckP, checkEvP] at hrunB
                rw [if_neg hmem, if_neg hp] at hrunB
                exact Option.noConfusion hrunB
      · obtain ⟨hPFI, hmonoI, D2, hD2ev, hD2run⟩ := addPrunedAux_events evs nodes
          (events ++ [ev]) nodesF eventsF h
          (fun e he => hbnd e (List.mem_cons_of_mem _ he)) hlen hpm
        obtain ⟨k, i⟩ := ev
        have hk : k = EvKind.enter := hcnd.1
        subst hk
        have hiL0 : i < L0 := hbnd ⟨EvKind.enter, i⟩ (List.mem_cons_self _ _)
        refine ⟨hPFI, hmonoI, ⟨EvKind.enter, i⟩ :: D2, ?_, ?_⟩
        · rw [hD2ev]
          simp [List.append_assoc]
        · intro stack seen outB hseen hrunB
          by_cases hmem : i ∈ List.filter (fun x => decide (x < L0)) seen
          · exfalso
            simp only [runCheckP, checkEvP] at hrunB
            rw [if_pos hmem] at hrunB
            exact Option.noConfusion hrunB
          · by_cases hp : pm i = stack.head?
            · have hinotseen : i ∉ seen := by
                intro hmem2
                exact hmem (List.mem_filter.mpr ⟨hmem2, by simp [hiL0]⟩)
              rw [runCheckP_enter pm i evs stack
                  (List.filter (fun x => decide (x < L0)) seen) hmem hp] at hrunB
              have hstep := hD2run (i :: stack) (i :: seen) outB
                (by
                  intro x hx
                  rcases List.mem_cons.mp hx with h2 | h2
                  · subst h2
                    omega
                  · exact hseen x h2)
                (by
                  show runCheckP pm evs (i :: stack,
                    List.filter (fun x => decide (x < L0)) (i :: seen)) =
                      some outB
                  rw [List.filter_cons_of_pos (by simp [hiL0])]
                  exact hrunB)
              obtain ⟨seenF, hrunF⟩ := hstep
              refine ⟨seenF, ?_⟩
              rw [runCheckP_enter pm i D2 stack seen hinotseen hp]
              exact hrunF
            · exfalso
              simp only [runCheckP, checkEvP] at hrunB
              rw [if_neg hmem, if_neg hp] at hrunB
              exact Option.noConfusion hrunB
    · next hcnd =>
      obtain ⟨hPFI, hmonoI, D2, hD2ev, hD2run⟩ := addPrunedAux_events evs nodes
        (events ++ [ev]) nodesF eventsF h
        (fun e he => hbnd e (List.mem_cons_of_mem _ he)) hlen hpm
      obtain ⟨k, i⟩ := ev
      have hiL0 : i < L0 := hbnd ⟨k, i⟩ (List.mem_cons_self _ _)
      refine ⟨hPFI, hmonoI, ⟨k, i⟩ :: D2, ?_, ?_⟩
      · rw [hD2ev]
        simp [List.append_assoc]
      · intro stack seen outB hseen hrunB
        cases k with
        | enter =>
          by_cases hmem : i ∈ List.filter (fun x => decide (x < L0)) seen
          · exfalso
            simp only [runCheckP, checkEvP] at hrunB
            rw [if_pos hmem] at hrunB
            exact Option.noConfusion hrunB
          · by_cases hp : pm i = stack.head?
            · have hinotseen : i ∉ seen := by
                intro hmem2
                exact hmem (List.mem_filter.mpr ⟨hmem2, by simp [hiL0]⟩)
              rw [runCheckP_enter pm i evs stack
                  (List.filter (fun x => decide (x < L0)) seen) hmem hp] at hrunB
              have hstep := hD2run (i :: stack) (i :: seen) outB
                (by
                  intro x hx
                  rcases List.mem_cons.mp hx with h2 | h2
                  · subst h2
                    omega
                  · exact hseen x h2)
                (by
                  show runCheckP pm evs (i :: stack,
                    List.filter (fun x => decide (x < L0)) (i :: seen)) =
                      some outB
                  rw [List.filter_cons_of_pos (by simp [hiL0])]
                  exact hrunB)
              obtain ⟨seenF, hrunF⟩ := hstep
              refine ⟨seenF, ?_⟩
              rw [runCheckP_enter pm i D2 stack seen hinotseen hp]
              exact hrunF
            · exfalso
              simp only [runCheckP, checkEvP] at hrunB
              rw [if_neg hmem, if_neg hp] at hrunB
              exact Option.noConfusion hrunB
        | exit =>
          cases stack with
          | nil =>
            exfalso
            have hnone : (none : Option (List Nat × List Nat)) = some outB :=
              hrunB
            exact Option.noConfusion hnone
          | cons top stack2 =>
            by_cases htop : top = i
            · subst htop
              rw [runCheckP_exit] at hrunB
              have hstep := hD2run stack2 seen outB hseen hrunB
              obtain ⟨seenF, hrunF⟩ := hstep
              refine ⟨seenF, ?_⟩
              rw [runCheckP_exit]
              exact hrunF
            · exfalso
              simp only [runCheckP, checkEvP] at hrunB
              rw [if_neg htop] at hrunB
              exact Option.noConfusion hrunB

/-- C3 (amended): every `build_trace` run that does not abort on the node
budget yields a well-nested event stream — the stack checker accepts it, so
every enter has exactly one later matching exit and exits pop in parenthesis
order — and the stream respects the node table's parent links: every enter
or exit event of a node with a recorded parent lies strictly after that
parent's enter and strictly before the parent's exit.  Both properties are
preserved by grafting counterfactual descendants with
`add_pruned_descendants_from_unpruned`.  (The unamended claim fails on
aborted runs: the budget abort unwinds without emitting exit events.) -/
theorem claimC3 (pb : Problem) (ep : Bool) (mdd mdc maxN : Nat)
    (tr : TraceResult) (solved : Bool) (cnt : Nat) (aborted : Bool)
    (htr : buildTraceFull pb ep mdd mdc maxN = (tr, solved, cnt, aborted))
    (hab : aborted = false) :
    (wellNested tr.events = true ∧
     ∀ (pre : List Event) (k : EvKind) (c : Nat) (post : List Event) (p : Nat),
       tr.events = pre ++ ⟨k, c⟩ :: post →
       (tr.nodes.getD c dfltNode).parent_id = some p →
       ⟨EvKind.enter, p⟩ ∈ pre ∧ ⟨EvKind.exit, p⟩ ∈ post) ∧
    ∀ un : TraceResult,
      wellNested (add_pruned_descendants_from_unpruned tr un mdd mdc).events =
        true ∧
      ∀ (pre : List Event) (k : EvKind) (c : Nat) (post : List Event) (p : Nat),
        (add_pruned_descendants_from_unpruned tr un mdd mdc).events =
          pre ++ ⟨k, c⟩ :: post →
        ((add_pruned_descendants_from_unpruned tr un mdd mdc).nodes.getD c
          dfltNode).parent_id = some p →
        ⟨EvKind.enter, p⟩ ∈ pre ∧ ⟨EvKind.exit, p⟩ ∈ post := by
  unfold buildTraceFull at htr
  cases hc : createNode none 0 false false initTState with
  | mk rootId st1 =>
    rw [hc] at htr
    simp only at htr
    cases hgo : dfsGo pb ep mdc maxN (pb.selected_pieces.length + 1) 0 (some rootId)
        st1 with
    | mk st2 rest =>
      cases rest with
      | mk solved2 rest2 =>
        cases rest2 with
        | mk cnt2 aborted2 =>
          rw [hgo] at htr
          simp only at htr
          injection htr with h1 h2
          injection h2 with h2 h3
          injection h3 with h3 h4
          subst h4
          have h5 : st1 = (createNode none 0 false false initTState).2 := by
            rw [hc]
          have h6 : rootId = 0 := by
            have h7 : rootId = (createNode none 0 false false initTState).1 := by
              rw [hc]
            rw [h7]
            rfl
          subst h6
          have hkeys1 : Keys st1 := by
            rw [h5]
            rfl
          have hev1 : st1.events = [⟨EvKind.enter, 0⟩] := by
            rw [h5]
            rfl
          have hn1 : st1.nodes.length = 1 := by
            rw [h5]
            rfl
          have hp1 : parentOf st1.nodes 0 = none := by
            rw [h5]
            rfl
          have htrev : tr.events = st2.events := by
            rw [← h1]
          have htrn : tr.nodes = st2.nodes := by
            rw [← h1]
          have hdid0 : ∀ c, (some 0 : Option Nat) = some c →
              c < st1.nodes.length := by
            intro c hcc
            injection hcc with hcc
            subst hcc
            omega
          have hacc : ∀ pm2 : Nat → Option Nat,
              (∀ j, j < st2.nodes.length → pm2 j = parentOf st2.nodes j) →
              ∃ S, runCheckP pm2 st2.events ([], []) = some ([], S) ∧
                (∀ ev ∈ st2.events, ev.node_id < st2.nodes.length) := by
            intro pm2 hpm2
            obtain ⟨hPF, E, snw, hev2, hmono, hsg⟩ := dfsGo_events
              (pb.selected_pieces.length + 1) 0 (some 0) st1 st2 solved2 cnt2
              aborted2 pm2 hgo hkeys1
              (Nat.lt_succ_of_le (List.length_filter_le _ _)) hdid0
              (fun j h1j h2j => hpm2 j h2j)
              hab
            have hroot : pm2 0 = none := by
              rw [hpm2 0 (by omega)]
              rw [hPF 0 (by omega)]
              exact hp1
            refine ⟨snw ++ [0], ?_, ?_⟩
            · rw [hev2, hev1, List.singleton_append]
              rw [runCheckP_enter pm2 0 E [] [] (List.not_mem_nil 0)
                (by rw [hroot]; rfl)]
              have h2b := hsg.2.2 [] [0] True.intro
                (by
                  intro x hx
                  have h3b := List.mem_singleton.mp hx
                  subst h3b
                  omega)
              simp only [pushStack] at h2b
              exact h2b
            · intro ev hevm
              rw [hev2, hev1, List.singleton_append] at hevm
              rcases List.mem_cons.mp hevm with h1c | h1c
              · subst h1c
                show 0 < st2.nodes.length
                omega
              · exact hsg.2.1 ev h1c
          constructor
          · obtain ⟨S, hS, hidsS⟩ := hacc (fun j2 => parentOf st2.nodes j2)
              (fun j _ => rfl)
            constructor
            · rw [htrev]
              unfold wellNested
              have hSim := runCheckP_sim (fun j2 => parentOf st2.nodes j2)
                st2.events ([], []) ([], S) hS
              rw [hSim]
            · intro pre k c post p hdec hpar
              exact runCheckP_containment (fun j2 => parentOf st2.nodes j2)
                st2.events S hS pre k c post (by rw [← htrev]; exact hdec) p
                (by
                  show parentOf st2.nodes c = some p
                  rw [← htrn]
                  exact hpar)
          · intro un
            unfold add_pruned_descendants_from_unpruned
            rw [htrev, htrn]
            cases hap : addPrunedAux un.nodes (buildSigMap un.nodes un.events [])
                mdd mdc st2.events st2.nodes [] with
            | mk nodesA eventsA =>
              simp only
              obtain ⟨S0, hS0, hids⟩ := hacc (fun j2 => parentOf st2.nodes j2)
                (fun j _ => rfl)
              obtain ⟨hPFG, hmonoG, D, hDev, hDrun⟩ := @addPrunedAux_events
                un.nodes (buildSigMap un.nodes un.events []) mdd mdc
                st2.nodes.length (fun j2 => parentOf nodesA j2)
                st2.events st2.nodes [] nodesA eventsA hap hids (Nat.le_refl _)
                (fun j _ _ => rfl)
              obtain ⟨S1, hS1, hids1⟩ := hacc (fun j2 => parentOf nodesA j2)
                (fun j hj => hPFG j hj)
              obtain ⟨seenF, hrunF⟩ := hDrun [] [] ([], S1)
                (fun x hx => absurd hx (List.not_mem_nil x)) hS1
              have hDev2 : eventsA = D := by
                rw [hDev]
                rfl
              have hruns : runCheckP (fun j2 => parentOf nodesA j2) eventsA
                  ([], []) = some ([], seenF) := by
                rw [hDev2]
                exact hrunF
              constructor
              · show wellNested eventsA = true
                unfold wellNested
                have hSim := runCheckP_sim (fun j2 => parentOf nodesA j2) eventsA
                  ([], []) ([], seenF) hruns
                rw [hSim]
              · intro pre k c post p hdec hpar
                exact runCheckP_containment (fun j2 => parentOf nodesA j2)
                  eventsA seenF hruns pre k c post hdec p hpar

/-- C3, the unamended claim refuted: with node budget 0 the run aborts right
after the root enter, so the stream is a lone enter with no matching exit and
the nesting checker rejects it. -/
theorem claimC3_counterexample :
    (buildTraceFull pbW true 3 3 0).2.2.2 = true ∧
    (build_trace pbW true 3 3 0).events = [⟨EvKind.enter, 0⟩] ∧
    wellNested (build_trace pbW true 3 3 0).events = false :=
  ⟨by decide, by decide, by decide⟩

/-- C3 at a concrete input: the five-cell problem's run under a sufficient
budget does not abort, its event stream is well nested, and grafting the
unpruned run's counterfactual descendants onto it keeps it well nested. -/
theorem claimC3_witness :
    (buildTraceFull pbW true 3 3 1000).2.2.2 = false ∧
    wellNested (build_trace pbW true 3 3 1000).events = true ∧
    wellNested (add_pruned_descendants_from_unpruned (build_trace pbW true 3 3 1000)
      (build_trace pbW false 3 3 1000) 3 3).events = true := by
  have h := claimC3 pbW true 3 3 1000 (buildTraceFull pbW true 3 3 1000).1
    (buildTraceFull pbW true 3 3 1000).2.1 (buildTraceFull pbW true 3 3 1000).2.2.1
    (buildTraceFull pbW true 3 3 1000).2.2.2 rfl (by decide)
  exact ⟨by decide, h.1.1, (h.2 (build_trace pbW false 3 3 1000)).1⟩

end Pent
